import Mathlib

/-!
# LimiterX: fixed-window and sliding-window rate limiters over an expiring store

A shallow embedding of `utils/cache.go`, `limiter/limiter.go` and the wiring in
`main.go`.

Modelling conventions.

* A `time.Time` clock reading and a `time.Duration` are integers counting
  nanoseconds (an `Int`); `a.Sub(b)` is `a - b`, `a.Add(d)` is
  `a + d`, `a.After(b)` is `a > b`.  Readings, counts and limits are unbounded;
  the `int64` wrap-around is kept where `main` multiplies the configured number
  of seconds (`windowDuration`).
* Every operation that calls `time.Now()` receives the reading as an argument.
  One `Allow` call reads the clock three times: `now` in `Allow` itself
  (`limiter.go:38`, `:93`), `getNow` inside `Cache.Get` (`cache.go:56`) and, when
  it writes, `setNow` inside `Cache.Set` (`cache.go:42`).  A `Call` carries the
  key and the three readings.
* `now.Add(-s.window)` is `now + (-s.window)`, exact for every `int64` window
  other than the least one.
* The store is passed in and returned explicitly; the limiter's mutex makes
  each `Allow` an atomic step.
* `interface{}` values held by the store are the two record shapes the
  limiters write (`Any`).  A failed type assertion or an out-of-range index
  is a panic, modelled as `none`.
* The Go map is an association list with at most one pair per key.
-/

namespace LimiterX

/-! ## Data model -/

/-- `time.Second`. -/
def Second : Int := 1000000000

/-- `time.Minute`. -/
def Minute : Int := 60 * Second

/-- `FixedWindowData` of `limiter.go`. -/
structure FixedWindowData where
  Count : Int
  WindowStart : Int
deriving DecidableEq, Repr

/-- `SlidingWindowData` of `limiter.go`. -/
structure SlidingWindowData where
  Timestamps : List Int
deriving DecidableEq, Repr

/-- The dynamically typed values (`interface{}`) the limiters keep in the store. -/
inductive Any where
  | fixed (d : FixedWindowData)
  | sliding (d : SlidingWindowData)
deriving DecidableEq, Repr

/-- `CacheItem` of `cache.go`. -/
structure CacheItem where
  Value : Any
  Expiration : Int
deriving DecidableEq, Repr

/-- `Cache` of `cache.go` (the mutex and the stop channel carry no data). -/
structure Cache where
  items : List (String × CacheItem)
  cleanupInterval : Int
  totalRequests : Int
deriving DecidableEq, Repr

/-- `CacheStats` of `cache.go`. -/
structure CacheStats where
  TotalKeys : Int
  TotalRequests : Int
deriving DecidableEq, Repr

/-! ## The Go map -/

/-- Map read `m[key]`. -/
def mapGet : List (String × CacheItem) → String → Option CacheItem
  | [], _ => none
  | (k, v) :: rest, key => if k = key then some v else mapGet rest key

/-- Map removal `delete(m, key)`. -/
def mapDelete (m : List (String × CacheItem)) (key : String) : List (String × CacheItem) :=
  m.filter (fun p => decide (p.1 ≠ key))

/-- Map write `m[key] = item`. -/
def mapSet (m : List (String × CacheItem)) (key : String) (item : CacheItem) :
    List (String × CacheItem) :=
  (key, item) :: mapDelete m key

/-! ## `utils/cache.go` -/

/-- `NewCache(cleanupInterval)`. -/
def NewCache (cleanupInterval : Int) : Cache :=
  { items := [], cleanupInterval := cleanupInterval, totalRequests := 0 }

/-- `Cache.Set`, at clock reading `now`. -/
def Cache.Set (c : Cache) (now : Int) (key : String) (value : Any) : Cache :=
  { c with
    items := mapSet c.items key { Value := value, Expiration := now + c.cleanupInterval }
    totalRequests := c.totalRequests + 1 }

/-- `Cache.Get`, at clock reading `now`: `none` is `(nil, false)`. -/
def Cache.Get (c : Cache) (now : Int) (key : String) : Option Any :=
  match mapGet c.items key with
  | none => none
  | some item => if now > item.Expiration then none else some item.Value

/-- `Cache.Delete`. -/
def Cache.Delete (c : Cache) (key : String) : Cache :=
  { c with items := mapDelete c.items key }

/-- `Cache.Clear`. -/
def Cache.Clear (c : Cache) : Cache :=
  { c with items := [] }

/-- `Cache.GetStats`. -/
def Cache.GetStats (c : Cache) : CacheStats :=
  { TotalKeys := c.items.length, TotalRequests := c.totalRequests }

/-- `Cache.cleanup`, one sweep at clock reading `now`. -/
def Cache.cleanup (c : Cache) (now : Int) : Cache :=
  { c with items := c.items.filter (fun p => !decide (now > p.2.Expiration)) }

/-! ## `limiter/limiter.go` -/

/-- The triple `(allowed, remaining, resetTime)` returned by `Allow`. -/
structure Decision where
  allowed : Bool
  remaining : Int
  resetTime : Int
deriving DecidableEq, Repr

/-- `FixedWindowLimiter` (the store is passed to `Allow`). -/
structure FixedWindowLimiter where
  limit : Int
  window : Int
deriving DecidableEq, Repr

/-- `SlidingWindowLimiter` (the store is passed to `Allow`). -/
structure SlidingWindowLimiter where
  limit : Int
  window : Int
deriving DecidableEq, Repr

/-- Lines 57-67 of `FixedWindowLimiter.Allow`: the decision once `data` is
chosen; `setNow` is the reading `Cache.Set` makes. -/
def FixedWindowLimiter.settle (f : FixedWindowLimiter) (c : Cache) (setNow : Int)
    (key : String) (data : FixedWindowData) : Decision × Cache :=
  let resetTime := data.WindowStart + f.window
  if data.Count ≥ f.limit then
    ({ allowed := false, remaining := 0, resetTime := resetTime }, c)
  else
    let data1 : FixedWindowData := { data with Count := data.Count + 1 }
    let c1 := Cache.Set c setNow key (Any.fixed data1)
    ({ allowed := true, remaining := f.limit - data1.Count, resetTime := resetTime }, c1)

/-- `FixedWindowLimiter.Allow`: `now` is the reading of line 38, `getNow` the one
made inside `Cache.Get` and `setNow` the one made inside `Cache.Set`; `none` is a
panic of the type assertion `val.(FixedWindowData)`. -/
def FixedWindowLimiter.Allow (f : FixedWindowLimiter) (c : Cache) (now getNow setNow : Int)
    (key : String) : Option (Decision × Cache) :=
  match Cache.Get c getNow key with
  | some (Any.fixed data) =>
    if now - data.WindowStart ≥ f.window then
      some (f.settle c setNow key { Count := 0, WindowStart := now })
    else
      some (f.settle c setNow key data)
  | some (Any.sliding _) => none
  | none => some (f.settle c setNow key { Count := 0, WindowStart := now })

/-- Lines 114-132 of `SlidingWindowLimiter.Allow`: the decision once the log
`ts` is chosen; `setNow` is the reading `Cache.Set` makes; `none` is the panic
of `data.Timestamps[0]` on an empty log. -/
def SlidingWindowLimiter.settle (s : SlidingWindowLimiter) (c : Cache) (now setNow : Int)
    (key : String) (ts : List Int) : Option (Decision × Cache) :=
  if (ts.length : Int) ≥ s.limit then
    match ts with
    | [] => none
    | oldestTimestamp :: _ =>
      some ({ allowed := false, remaining := 0, resetTime := oldestTimestamp + s.window }, c)
  else
    let ts1 := ts ++ [now]
    let c1 := Cache.Set c setNow key (Any.sliding { Timestamps := ts1 })
    let remaining := s.limit - (ts1.length : Int)
    let resetTime :=
      match ts1 with
      | t0 :: _ => t0 + s.window
      | [] => now + s.window
    some ({ allowed := true, remaining := remaining, resetTime := resetTime }, c1)

/-- `SlidingWindowLimiter.Allow`: `now` is the reading of line 93, `getNow` the
one made inside `Cache.Get` and `setNow` the one made inside `Cache.Set`; `none`
is a panic. -/
def SlidingWindowLimiter.Allow (s : SlidingWindowLimiter) (c : Cache)
    (now getNow setNow : Int) (key : String) : Option (Decision × Cache) :=
  let cutoff := now + (-s.window)
  match Cache.Get c getNow key with
  | some (Any.sliding data) =>
    s.settle c now setNow key (data.Timestamps.filter (fun ts => decide (ts > cutoff)))
  | some (Any.fixed _) => none
  | none => s.settle c now setNow key []

/-! ## `main.go`: the wiring -/

/-- Two's-complement wrap-around of a Go `int64` (`time.Duration`) product. -/
def wrapInt64 (x : Int) : Int := (x + 2 ^ 63) % 2 ^ 64 - 2 ^ 63

/-- `Config` of `main.go`. -/
structure Config where
  Port : String
  Algorithm : String
  RequestsLimit : Int
  WindowSeconds : Int
deriving DecidableEq, Repr

/-- The two implementations of the `RateLimiter` interface. -/
inductive RateLimiter where
  | fixed (f : FixedWindowLimiter)
  | sliding (s : SlidingWindowLimiter)
deriving DecidableEq, Repr

/-- The store `main` builds: `utils.NewCache(time.Minute * 10)`. -/
def mainCache : Cache := NewCache (Minute * 10)

/-- The window `main` computes:
`time.Duration(config.WindowSeconds) * time.Second`. -/
def windowDuration (config : Config) : Int := wrapInt64 (config.WindowSeconds * Second)

/-- The limiter `main` builds from the configuration (lines 68-72). -/
def mainRateLimiter (config : Config) : RateLimiter :=
  if config.Algorithm = "fixed" then
    RateLimiter.fixed ⟨config.RequestsLimit, windowDuration config⟩
  else
    RateLimiter.sliding ⟨config.RequestsLimit, windowDuration config⟩

/-! ## Runs of calls -/

/-- One `Allow` call: its key and the three clock readings it makes, in the
order the code makes them (`setNow` is read only when the call writes). -/
structure Call where
  key : String
  now : Int
  getNow : Int
  setNow : Int
deriving DecidableEq, Repr

/-- A call whose three clock readings coincide. -/
def Call.instant (key : String) (t : Int) : Call :=
  { key := key, now := t, getNow := t, setNow := t }

/-- The clock readings of a call, in program order. -/
def Call.readings (call : Call) : List Int := [call.now, call.getNow, call.setNow]

/-- The clock readings of a sequence of calls are non-decreasing in program
order: within each call and from each call to the next. -/
def Call.Ordered (calls : List Call) : Prop :=
  ((calls.map Call.readings).flatten).Pairwise (fun a b => a ≤ b)

/-- A sequence of `FixedWindowLimiter.Allow` calls, in order: the decisions and
the final store, or `none` if a call panics. -/
def FixedWindowLimiter.run (f : FixedWindowLimiter) :
    Cache → List Call → Option (List Decision × Cache)
  | c, [] => some ([], c)
  | c, call :: rest =>
    match f.Allow c call.now call.getNow call.setNow call.key with
    | none => none
    | some (d, c1) =>
      match FixedWindowLimiter.run f c1 rest with
      | none => none
      | some (ds, c2) => some (d :: ds, c2)

/-- A sequence of `SlidingWindowLimiter.Allow` calls, in order: the decisions
and the final store, or `none` if a call panics. -/
def SlidingWindowLimiter.run (s : SlidingWindowLimiter) :
    Cache → List Call → Option (List Decision × Cache)
  | c, [] => some ([], c)
  | c, call :: rest =>
    match s.Allow c call.now call.getNow call.setNow call.key with
    | none => none
    | some (d, c1) =>
      match SlidingWindowLimiter.run s c1 rest with
      | none => none
      | some (ds, c2) => some (d :: ds, c2)

/-! ## Store operations and the map invariant -/

/-- Representation invariant of the Go map: one pair per key. -/
def Cache.WF (c : Cache) : Prop := (c.items.map Prod.fst).Nodup

/-- A store operation, with the clock reading it makes (if any). -/
inductive StoreOp where
  | set (now : Int) (key : String) (value : Any)
  | get (now : Int) (key : String)
  | delete (key : String)
  | clear
  | stats
  | sweep (now : Int)
deriving DecidableEq, Repr

/-- The store after one operation. -/
def StoreOp.apply (c : Cache) : StoreOp → Cache
  | StoreOp.set now key value => Cache.Set c now key value
  | StoreOp.get _ _ => c
  | StoreOp.delete key => Cache.Delete c key
  | StoreOp.clear => Cache.Clear c
  | StoreOp.stats => c
  | StoreOp.sweep now => Cache.cleanup c now

/-- Whether the operation is a write, delete or clear of `key`. -/
def StoreOp.writes (key : String) : StoreOp → Bool
  | StoreOp.set _ k _ => decide (k = key)
  | StoreOp.delete k => decide (k = key)
  | StoreOp.clear => true
  | _ => false

/-- Whether the operation reads the clock at most at `t`. -/
def StoreOp.notAfter (t : Int) : StoreOp → Bool
  | StoreOp.set now _ _ => decide (now ≤ t)
  | StoreOp.get now _ => decide (now ≤ t)
  | StoreOp.sweep now => decide (now ≤ t)
  | _ => true

/-- The store after a sequence of operations. -/
def StoreOp.applyAll (c : Cache) (ops : List StoreOp) : Cache :=
  ops.foldl StoreOp.apply c

/-! ## Fixed window: specification vocabulary -/

/-- The decision the `i`-th further call (0-based) gets inside the window
that started at `t1`, when `cnt` calls have been counted before. -/
def FixedWindowLimiter.inWindow (f : FixedWindowLimiter) (t1 cnt : Int) (i : Nat) : Decision :=
  if cnt + (i : Int) + 1 ≤ f.limit then
    ⟨true, f.limit - (cnt + (i : Int) + 1), t1 + f.window⟩
  else
    ⟨false, 0, t1 + f.window⟩

/-- A burst of `n` calls: in the run of the calls, all for the key `k`, from a
new store with the given TTL, some `n` of the calls are all permitted and any two
of them (so the first and the last) are less than `window` apart. -/
def FixedWindowLimiter.Burst (f : FixedWindowLimiter) (ttl : Int) (k : String)
    (calls : List Call) (n : Int) : Prop :=
  ∃ (ds : List Decision) (c1 : Cache) (sub : List (Call × Decision)),
    (∀ call ∈ calls, call.key = k) ∧
    f.run (NewCache ttl) calls = some (ds, c1) ∧
    List.Sublist sub (calls.zip ds) ∧ (sub.length : Int) = n ∧
    (∀ p ∈ sub, p.2.allowed = true) ∧
    (∀ p ∈ sub, ∀ q ∈ sub, q.1.now - p.1.now < f.window)

/-- The number of permitted calls whose own reading is `t` in a history of calls
with their decisions. -/
def permittedAt (hist : List (Call × Decision)) (t : Int) : Nat :=
  (hist.filter (fun p => p.2.allowed && decide (p.1.now = t))).length

/-- With a window of one nanosecond, a bound on the number of permitted calls
for `k` with reading `t` that can still come from the store `c` when every later
clock reading is at least `b`: none if `t < b`; otherwise what is left of the
window that started at `t`, or else a whole window, and one more call that a
late reading inside `Cache.Get` lets through. -/
def FixedWindowLimiter.budget (f : FixedWindowLimiter) (c : Cache) (k : String)
    (b t : Int) : Int :=
  if t < b then 0
  else
    match mapGet c.items k with
    | none => f.limit + 1
    | some item =>
      match item.Value with
      | Any.fixed data => if data.WindowStart = t then f.limit - data.Count + 1 else f.limit + 1
      | Any.sliding _ => f.limit + 1

/-! ## Sliding window: specification vocabulary -/

/-- The log a `SlidingWindowLimiter.Allow` call starts from, before pruning,
when `Cache.Get` reads the clock at `getNow`: the stored log, the empty log when
the key is absent or expired, or `none` when the type assertion panics. -/
def SlidingWindowLimiter.readLog (c : Cache) (getNow : Int) (key : String) :
    Option (List Int) :=
  match Cache.Get c getNow key with
  | some (Any.sliding data) => some data.Timestamps
  | some (Any.fixed _) => none
  | none => some []

/-- The readings `now` of the permitted calls for `k` in a history of calls with
their decisions, in order. -/
def permittedTimes (hist : List (Call × Decision)) (k : String) : List Int :=
  (hist.filter (fun e => decide (e.1.key = k) && e.2.allowed)).map (fun e => e.1.now)

/-- The number of permitted calls for `k` in the history whose clock reading
lies in the half-open interval `(lo, hi]`. -/
def permittedCount (hist : List (Call × Decision)) (k : String) (lo hi : Int) : Nat :=
  ((permittedTimes hist k).filter (fun x => decide (lo < x) && decide (x ≤ hi))).length

/-- The store agrees with the history of calls made so far, the last at `tl`:
no call is later than `tl`, and for a call at any reading `now ≥ tl` whose store
read `getNow` is at most `TTL - window` later, the log read for a key, pruned at
`now`, is the list of permitted readings of that key in `(now - window, now]`. -/
def SlidingWindowLimiter.HistInv (s : SlidingWindowLimiter) (c : Cache)
    (hist : List (Call × Decision)) (tl : Int) : Prop :=
  (∀ e ∈ hist, e.1.now ≤ tl) ∧
  ∀ (k : String) (now getNow : Int), tl ≤ now →
    getNow - now ≤ c.cleanupInterval - s.window →
    ∃ ts, SlidingWindowLimiter.readLog c getNow k = some ts ∧
      ts.filter (fun x => decide (x > now + (-s.window)))
        = (permittedTimes hist k).filter (fun x => decide (x > now + (-s.window)))

/-- The quota holds on a history: for every key and instant `t`, at most `limit`
permitted calls have their reading in `(t - window, t]`. -/
def SlidingWindowLimiter.Bounded (s : SlidingWindowLimiter)
    (hist : List (Call × Decision)) : Prop :=
  ∀ (k : String) (t : Int), (permittedCount hist k (t - s.window) t : Int) ≤ s.limit

/-- What C2 says of one call for `k` at `t` with decision `d`, after the
history `hist`: permitted iff fewer than `limit` earlier permitted calls for `k`
lie in `(t - window, t]`, and then `remaining = limit - c - 1`. -/
def SlidingWindowLimiter.Exact (s : SlidingWindowLimiter)
    (hist : List (Call × Decision)) (k : String) (t : Int) (d : Decision) : Prop :=
  (d.allowed = true ↔ (permittedCount hist k (t - s.window) t : Int) < s.limit) ∧
  (d.allowed = true → d.remaining = s.limit - (permittedCount hist k (t - s.window) t : Int) - 1) ∧
  (d.allowed = false → d.remaining = 0)

/-! ## Record invariants -/

/-- Every record in the store is a fixed-window record with `1 ≤ Count ≤ limit`. -/
def FixedWindowLimiter.CountInv (f : FixedWindowLimiter) (c : Cache) : Prop :=
  ∀ (k : String) (item : CacheItem), mapGet c.items k = some item →
    ∃ cnt ws, item.Value = Any.fixed ⟨cnt, ws⟩ ∧ 1 ≤ cnt ∧ cnt ≤ f.limit

/-- Every record in the store is a sliding-window log. -/
def SlidingWindowLimiter.AllSliding (c : Cache) : Prop :=
  ∀ (k : String) (item : CacheItem), mapGet c.items k = some item →
    ∃ ts, item.Value = Any.sliding ⟨ts⟩

/-- Every record in the store is a sliding-window log that is in ascending
order, has no reading later than `tl` and has at most `limit` elements. -/
def SlidingWindowLimiter.LogInv (s : SlidingWindowLimiter) (c : Cache) (tl : Int) : Prop :=
  ∀ (k : String) (item : CacheItem), mapGet c.items k = some item →
    ∃ ts, item.Value = Any.sliding ⟨ts⟩ ∧ ts.Pairwise (fun a b => a ≤ b) ∧
      (∀ x ∈ ts, x ≤ tl) ∧ (ts.length : Int) ≤ s.limit

/-! ## Sequences of store and limiter operations -/

/-- An operation on the shared store: a store operation or an `Allow` call of
either limiter. -/
inductive SysOp where
  | store (op : StoreOp)
  | fixedAllow (f : FixedWindowLimiter) (call : Call)
  | slidingAllow (s : SlidingWindowLimiter) (call : Call)
deriving DecidableEq, Repr

/-- The store after one operation; an `Allow` call that panics has written
nothing. -/
def SysOp.apply (c : Cache) : SysOp → Cache
  | SysOp.store op => StoreOp.apply c op
  | SysOp.fixedAllow f call =>
    match f.Allow c call.now call.getNow call.setNow call.key with
    | some (_, c1) => c1
    | none => c
  | SysOp.slidingAllow s call =>
    match s.Allow c call.now call.getNow call.setNow call.key with
    | some (_, c1) => c1
    | none => c

/-- The store after a sequence of operations. -/
def SysOp.applyAll (c : Cache) (ops : List SysOp) : Cache :=
  ops.foldl SysOp.apply c

/-! ## The decision as a function of what `Cache.Get` returned -/

/-- The decision of `FixedWindowLimiter.Allow` on the record `data`, and the
value it writes back (if any). -/
def FixedWindowLimiter.outcomeOf (f : FixedWindowLimiter) (data : FixedWindowData) :
    Decision × Option Any :=
  if data.Count ≥ f.limit then
    (⟨false, 0, data.WindowStart + f.window⟩, none)
  else
    (⟨true, f.limit - (data.Count + 1), data.WindowStart + f.window⟩,
      some (Any.fixed ⟨data.Count + 1, data.WindowStart⟩))

/-- The decision of `FixedWindowLimiter.Allow` at `now` when `Cache.Get`
returned `got`, and the value it writes back (if any); `none` is a panic. -/
def FixedWindowLimiter.outcome (f : FixedWindowLimiter) (now : Int) (got : Option Any) :
    Option (Decision × Option Any) :=
  match got with
  | some (Any.fixed data) =>
    if now - data.WindowStart ≥ f.window then
      some (f.outcomeOf { Count := 0, WindowStart := now })
    else
      some (f.outcomeOf data)
  | some (Any.sliding _) => none
  | none => some (f.outcomeOf { Count := 0, WindowStart := now })

/-- The decision of `SlidingWindowLimiter.Allow` at `now` on the pruned log
`ts`, and the value it writes back (if any); `none` is a panic. -/
def SlidingWindowLimiter.outcomeOf (s : SlidingWindowLimiter) (now : Int) (ts : List Int) :
    Option (Decision × Option Any) :=
  if (ts.length : Int) ≥ s.limit then
    match ts with
    | [] => none
    | oldestTimestamp :: _ => some (⟨false, 0, oldestTimestamp + s.window⟩, none)
  else
    some (⟨true, s.limit - ((ts ++ [now]).length : Int),
        match ts ++ [now] with
        | t0 :: _ => t0 + s.window
        | [] => now + s.window⟩,
      some (Any.sliding ⟨ts ++ [now]⟩))

/-- The decision of `SlidingWindowLimiter.Allow` at `now` when `Cache.Get`
returned `got`, and the value it writes back (if any); `none` is a panic. -/
def SlidingWindowLimiter.outcome (s : SlidingWindowLimiter) (now : Int) (got : Option Any) :
    Option (Decision × Option Any) :=
  match got with
  | some (Any.sliding data) =>
    s.outcomeOf now (data.Timestamps.filter (fun ts => decide (ts > now + (-s.window))))
  | some (Any.fixed _) => none
  | none => s.outcomeOf now []

/-- The decision together with the store after the write (if any), made at the
reading `setNow`. -/
def Cache.commit (c : Cache) (setNow : Int) (key : String) (r : Decision × Option Any) :
    Decision × Cache :=
  (r.1, match r.2 with
    | none => c
    | some v => Cache.Set c setNow key v)

/-- Two stores of the same TTL answer every `Cache.Get` at readings from `t` on
alike. -/
def Cache.SameReads (t : Int) (c c' : Cache) : Prop :=
  c.cleanupInterval = c'.cleanupInterval ∧
  ∀ (k : String) (t' : Int), t ≤ t' → Cache.Get c t' k = Cache.Get c' t' k

/-! ## Record invariants without a limit -/

/-- Every record in the store is a fixed-window record. -/
def FixedWindowLimiter.AllFixed (c : Cache) : Prop :=
  ∀ (k : String) (item : CacheItem), mapGet c.items k = some item →
    ∃ cnt ws, item.Value = Any.fixed ⟨cnt, ws⟩

/-- Every record in the store is a fixed-window record whose `WindowStart` is
not later than `b`. -/
def FixedWindowLimiter.StartsLE (c : Cache) (b : Int) : Prop :=
  ∀ (k : String) (item : CacheItem), mapGet c.items k = some item →
    ∃ cnt ws, item.Value = Any.fixed ⟨cnt, ws⟩ ∧ ws ≤ b

/-- Every record in the store is a sliding-window log with no timestamp later
than `b`. -/
def SlidingWindowLimiter.StampsLE (c : Cache) (b : Int) : Prop :=
  ∀ (k : String) (item : CacheItem), mapGet c.items k = some item →
    ∃ ts, item.Value = Any.sliding ⟨ts⟩ ∧ ∀ x ∈ ts, x ≤ b

/-! ## The limiters over a store whose entries never expire -/

/-- `Cache.Get` on a store whose entries never expire: the test against
`Expiration` is dropped. -/
def Cache.GetNoExpiry (c : Cache) (key : String) : Option Any :=
  match mapGet c.items key with
  | none => none
  | some item => some item.Value

/-- `FixedWindowLimiter.Allow` reading through `Cache.GetNoExpiry`. -/
def FixedWindowLimiter.AllowNoExpiry (f : FixedWindowLimiter) (c : Cache)
    (now setNow : Int) (key : String) : Option (Decision × Cache) :=
  match Cache.GetNoExpiry c key with
  | some (Any.fixed data) =>
    if now - data.WindowStart ≥ f.window then
      some (f.settle c setNow key { Count := 0, WindowStart := now })
    else
      some (f.settle c setNow key data)
  | some (Any.sliding _) => none
  | none => some (f.settle c setNow key { Count := 0, WindowStart := now })

/-- `SlidingWindowLimiter.Allow` reading through `Cache.GetNoExpiry`. -/
def SlidingWindowLimiter.AllowNoExpiry (s : SlidingWindowLimiter) (c : Cache)
    (now setNow : Int) (key : String) : Option (Decision × Cache) :=
  let cutoff := now + (-s.window)
  match Cache.GetNoExpiry c key with
  | some (Any.sliding data) =>
    s.settle c now setNow key (data.Timestamps.filter (fun ts => decide (ts > cutoff)))
  | some (Any.fixed _) => none
  | none => s.settle c now setNow key []

/-- A sequence of `FixedWindowLimiter.AllowNoExpiry` calls. -/
def FixedWindowLimiter.runNoExpiry (f : FixedWindowLimiter) :
    Cache → List Call → Option (List Decision × Cache)
  | c, [] => some ([], c)
  | c, call :: rest =>
    match f.AllowNoExpiry c call.now call.setNow call.key with
    | none => none
    | some (d, c1) =>
      match FixedWindowLimiter.runNoExpiry f c1 rest with
      | none => none
      | some (ds, c2) => some (d :: ds, c2)

/-- A sequence of `SlidingWindowLimiter.AllowNoExpiry` calls. -/
def SlidingWindowLimiter.runNoExpiry (s : SlidingWindowLimiter) :
    Cache → List Call → Option (List Decision × Cache)
  | c, [] => some ([], c)
  | c, call :: rest =>
    match s.AllowNoExpiry c call.now call.setNow call.key with
    | none => none
    | some (d, c1) =>
      match SlidingWindowLimiter.runNoExpiry s c1 rest with
      | none => none
      | some (ds, c2) => some (d :: ds, c2)

/-- Every record is a fixed-window record that started no later than `tl` and
whose entry lives for at least the TTL after the window started. -/
def FixedWindowLimiter.ExpInv (c : Cache) (tl : Int) : Prop :=
  ∀ (k : String) (item : CacheItem), mapGet c.items k = some item →
    ∃ cnt ws, item.Value = Any.fixed ⟨cnt, ws⟩ ∧ ws ≤ tl ∧
      ws + c.cleanupInterval ≤ item.Expiration

/-- Every record is a sliding-window log whose timestamps are no later than
`tl` and whose entry lives for at least the TTL after each of them. -/
def SlidingWindowLimiter.ExpInvLog (c : Cache) (tl : Int) : Prop :=
  ∀ (k : String) (item : CacheItem), mapGet c.items k = some item →
    ∃ ts, item.Value = Any.sliding ⟨ts⟩ ∧
      ∀ x ∈ ts, x ≤ tl ∧ x + c.cleanupInterval ≤ item.Expiration

/-! ## `main.go`: the configuration -/

/-- `strconv.Atoi` of the Go standard library, for a 64-bit `int`: an optional
sign `+` or `-`, then at least one decimal digit and nothing else; `none` is the
error result (bad syntax or out of range). -/
def Atoi (s : String) : Option Int :=
  let body : Bool × List Char :=
    match s.toList with
    | '-' :: r => (true, r)
    | '+' :: r => (false, r)
    | r => (false, r)
  if body.2.isEmpty || !(body.2.all (fun ch => decide ('0' ≤ ch) && decide (ch ≤ '9'))) then
    none
  else
    let n : Nat := body.2.foldl (fun acc ch => acc * 10 + (ch.toNat - 48)) 0
    let v : Int := if body.1 then -(n : Int) else (n : Int)
    if -(2 : Int) ^ 63 ≤ v ∧ v ≤ 2 ^ 63 - 1 then some v else none

/-- `getEnv`; `env key` is `os.Getenv(key)`, the empty string when unset. -/
def getEnv (env : String → String) (key defaultVal : String) : String :=
  if env key ≠ "" then env key else defaultVal

/-- `getEnvInt`. -/
def getEnvInt (env : String → String) (key : String) (defaultVal : Int) : Int :=
  if env key ≠ "" then
    match Atoi (env key) with
    | some intVal => intVal
    | none => defaultVal
  else defaultVal

/-- `loadConfig`. -/
def loadConfig (env : String → String) : Config :=
  { Port := getEnv env "PORT" "8080"
    Algorithm := getEnv env "ALGORITHM" "sliding"
    RequestsLimit := getEnvInt env "REQUESTS_LIMIT" 100
    WindowSeconds := getEnvInt env "WINDOW_SECONDS" 60 }

/-! ## The store: lemmas -/

theorem mapGet_mapDelete (m : List (String × CacheItem)) (k k' : String) :
    mapGet (mapDelete m k) k' = if k = k' then none else mapGet m k' := by
  induction m with
  | nil => simp [mapDelete, mapGet]
  | cons p r ih =>
    obtain ⟨k0, v0⟩ := p
    unfold mapDelete at ih ⊢
    by_cases h0 : k0 = k
    · subst h0
      by_cases h1 : k0 = k'
      · simpa [List.filter, h1] using ih
      · simpa [List.filter, mapGet, h1] using ih
    · by_cases h1 : k = k'
      · subst h1
        simpa [List.filter, h0, mapGet] using ih
      · simp only [List.filter, h0, ne_eq, not_false_eq_true, decide_True, mapGet]
        rw [ih]
        simp [h1]

theorem mapGet_mapSet (m : List (String × CacheItem)) (k k' : String) (v : CacheItem) :
    mapGet (mapSet m k v) k' = if k = k' then some v else mapGet m k' := by
  unfold mapSet
  by_cases h : k = k'
  · simp [mapGet, h]
  · simp [mapGet, h, mapGet_mapDelete]

theorem mapGet_eq_none_of_not_mem (m : List (String × CacheItem)) (k : String)
    (h : k ∉ m.map Prod.fst) : mapGet m k = none := by
  induction m with
  | nil => rfl
  | cons p r ih =>
    obtain ⟨k0, v0⟩ := p
    simp only [List.map_cons, List.mem_cons, not_or] at h
    have h0 : ¬ k0 = k := fun e => h.1 e.symm
    simp [mapGet, h0, ih h.2]

theorem mapGet_filter (m : List (String × CacheItem)) (k : String) (q : CacheItem → Bool)
    (hnd : (m.map Prod.fst).Nodup) :
    mapGet (m.filter (fun p => q p.2)) k = (mapGet m k).filter q := by
  induction m with
  | nil => rfl
  | cons p r ih =>
    obtain ⟨k0, v0⟩ := p
    simp only [List.map_cons, List.nodup_cons] at hnd
    by_cases h0 : k0 = k
    · subst h0
      by_cases hq : q v0 = true
      · simp [List.filter, hq, mapGet, Option.filter]
      · have hnone : mapGet r k0 = none := mapGet_eq_none_of_not_mem r k0 hnd.1
        simp [List.filter, hq, mapGet, Option.filter, ih hnd.2, hnone]
    · by_cases hq : q v0 = true
      · simp [List.filter, hq, mapGet, h0, ih hnd.2]
      · simp [List.filter, hq, mapGet, h0, ih hnd.2]

theorem keys_filter_sublist (m : List (String × CacheItem)) (q : String × CacheItem → Bool) :
    ((m.filter q).map Prod.fst).Sublist (m.map Prod.fst) :=
  (List.filter_sublist m).map Prod.fst

theorem not_mem_keys_mapDelete (m : List (String × CacheItem)) (k : String) :
    k ∉ (mapDelete m k).map Prod.fst := by
  unfold mapDelete
  intro h
  obtain ⟨p, hp, hk⟩ := List.mem_map.mp h
  have := (List.mem_filter.mp hp).2
  simp [hk] at this

theorem Cache.WF_NewCache (ttl : Int) : Cache.WF (NewCache ttl) := by
  simp [Cache.WF, NewCache]

theorem Cache.WF_Set (c : Cache) (now : Int) (key : String) (v : Any) (h : Cache.WF c) :
    Cache.WF (Cache.Set c now key v) := by
  unfold Cache.WF Cache.Set mapSet
  simp only [List.map_cons, List.nodup_cons]
  exact ⟨not_mem_keys_mapDelete c.items key, h.sublist (keys_filter_sublist _ _)⟩

theorem Cache.WF_Delete (c : Cache) (key : String) (h : Cache.WF c) :
    Cache.WF (Cache.Delete c key) :=
  List.Nodup.sublist (keys_filter_sublist _ _) h

theorem Cache.WF_cleanup (c : Cache) (now : Int) (h : Cache.WF c) :
    Cache.WF (Cache.cleanup c now) :=
  List.Nodup.sublist (keys_filter_sublist _ _) h

theorem Cache.WF_Clear (c : Cache) : Cache.WF (Cache.Clear c) := by
  simp [Cache.WF, Cache.Clear]

theorem StoreOp.WF_apply (c : Cache) (op : StoreOp) (h : Cache.WF c) :
    Cache.WF (StoreOp.apply c op) := by
  cases op with
  | set now key value => exact Cache.WF_Set c now key value h
  | get now key => exact h
  | delete key => exact Cache.WF_Delete c key h
  | clear => exact Cache.WF_Clear c
  | stats => exact h
  | sweep now => exact Cache.WF_cleanup c now h

theorem Cache.Get_eq_some_iff (c : Cache) (now : Int) (key : String) (v : Any) :
    Cache.Get c now key = some v ↔
      ∃ item, mapGet c.items key = some item ∧ now ≤ item.Expiration ∧ item.Value = v := by
  unfold Cache.Get
  cases hm : mapGet c.items key with
  | none => simp
  | some item =>
    by_cases hexp : now > item.Expiration
    · simp only [hexp, if_true, Option.some.injEq, exists_eq_left']
      constructor
      · intro hv
        cases hv
      · intro hv
        omega
    · simp only [hexp, if_false, Option.some.injEq, exists_eq_left']
      constructor
      · intro hv
        exact ⟨by omega, hv⟩
      · intro hv
        exact hv.2

theorem Cache.Get_Set_same (c : Cache) (t now : Int) (key : String) (v : Any) :
    Cache.Get (Cache.Set c t key v) now key
      = if now > t + c.cleanupInterval then none else some v := by
  simp [Cache.Get, Cache.Set, mapGet_mapSet]

theorem Cache.Get_Set_other (c : Cache) (t now : Int) (key key' : String) (v : Any)
    (h : key ≠ key') :
    Cache.Get (Cache.Set c t key v) now key' = Cache.Get c now key' := by
  simp [Cache.Get, Cache.Set, mapGet_mapSet, h]

theorem Cache.Get_cleanup (c : Cache) (t now : Int) (key : String) (hWF : Cache.WF c)
    (hle : t ≤ now) : Cache.Get (Cache.cleanup c t) now key = Cache.Get c now key := by
  unfold Cache.Get Cache.cleanup
  simp only
  rw [mapGet_filter c.items key (fun it => !decide (t > it.Expiration)) hWF]
  cases hm : mapGet c.items key with
  | none => rfl
  | some item =>
    by_cases hexp : t > item.Expiration
    · have : now > item.Expiration := by omega
      simp [Option.filter, hexp, this]
    · simp [Option.filter, hexp]

theorem Cache.Get_Delete_other (c : Cache) (now : Int) (key key' : String) (h : key ≠ key') :
    Cache.Get (Cache.Delete c key) now key' = Cache.Get c now key' := by
  simp [Cache.Get, Cache.Delete, mapGet_mapDelete, h]

theorem StoreOp.Get_apply (c : Cache) (op : StoreOp) (t' : Int) (k : String)
    (hWF : Cache.WF c) (hw : StoreOp.writes k op = false) (ht : StoreOp.notAfter t' op = true) :
    Cache.Get (StoreOp.apply c op) t' k = Cache.Get c t' k := by
  cases op with
  | set now key value =>
    have hne : key ≠ k := by simpa [StoreOp.writes] using hw
    exact Cache.Get_Set_other c now t' key k value hne
  | get now key => rfl
  | delete key =>
    have hne : key ≠ k := by simpa [StoreOp.writes] using hw
    exact Cache.Get_Delete_other c t' key k hne
  | clear => simp [StoreOp.writes] at hw
  | stats => rfl
  | sweep now =>
    have hle : now ≤ t' := by simpa [StoreOp.notAfter] using ht
    exact Cache.Get_cleanup c now t' k hWF hle

theorem StoreOp.Get_applyAll (ops : List StoreOp) (c : Cache) (t' : Int) (k : String)
    (hWF : Cache.WF c)
    (hops : ∀ op ∈ ops, StoreOp.writes k op = false ∧ StoreOp.notAfter t' op = true) :
    Cache.Get (StoreOp.applyAll c ops) t' k = Cache.Get c t' k := by
  induction ops generalizing c with
  | nil => rfl
  | cons op rest ih =>
    have h0 := hops op (List.mem_cons_self op rest)
    have hrest : ∀ o ∈ rest, StoreOp.writes k o = false ∧ StoreOp.notAfter t' o = true :=
      fun o ho => hops o (List.mem_cons_of_mem op ho)
    show Cache.Get (StoreOp.applyAll (StoreOp.apply c op) rest) t' k = Cache.Get c t' k
    rw [ih (StoreOp.apply c op) (StoreOp.WF_apply c op hWF) hrest]
    exact StoreOp.Get_apply c op t' k hWF h0.1 h0.2

/-! ## Fixed window: lemmas -/

theorem FixedWindowLimiter.run_cons (f : FixedWindowLimiter) (c c1 : Cache) (call : Call)
    (d : Decision) (rest : List Call)
    (h : f.Allow c call.now call.getNow call.setNow call.key = some (d, c1)) :
    f.run c (call :: rest) = (f.run c1 rest).map (fun r => (d :: r.1, r.2)) := by
  simp only [FixedWindowLimiter.run, h]
  cases f.run c1 rest with
  | none => rfl
  | some r => rfl

theorem FixedWindowLimiter.run_in_window (f : FixedWindowLimiter) (k : String) (t1 : Int)
    (calls : List Call) (c : Cache) (cnt expiration : Int)
    (hrec : mapGet c.items k = some ⟨Any.fixed ⟨cnt, t1⟩, expiration⟩)
    (hexp : t1 + c.cleanupInterval ≤ expiration)
    (hcnt : cnt ≤ f.limit)
    (hcalls : ∀ call ∈ calls, call.key = k ∧ t1 ≤ call.now ∧ call.now - t1 < f.window ∧
      call.now ≤ call.setNow ∧ call.getNow - call.now ≤ c.cleanupInterval - f.window) :
    ∃ c1 e1, f.run c calls
        = some ((List.range calls.length).map (f.inWindow t1 cnt), c1) ∧
      c1.cleanupInterval = c.cleanupInterval ∧
      mapGet c1.items k = some ⟨Any.fixed ⟨min (cnt + (calls.length : Int)) f.limit, t1⟩, e1⟩ ∧
      t1 + c.cleanupInterval ≤ e1 := by
  induction calls generalizing c cnt expiration with
  | nil =>
    refine ⟨c, expiration, rfl, rfl, ?_, hexp⟩
    rw [hrec]
    simp [min_eq_left hcnt]
  | cons call rest ih =>
    obtain ⟨hkey, h1, h2, h3, h4⟩ := hcalls call (List.mem_cons_self call rest)
    have hrest : ∀ u ∈ rest, u.key = k ∧ t1 ≤ u.now ∧ u.now - t1 < f.window ∧
        u.now ≤ u.setNow ∧ u.getNow - u.now ≤ c.cleanupInterval - f.window :=
      fun u hu => hcalls u (List.mem_cons_of_mem call hu)
    have hlive : ¬ call.getNow > expiration := by omega
    have hin : ¬ call.now - t1 ≥ f.window := by omega
    by_cases hfull : cnt ≥ f.limit
    · have hstep : f.Allow c call.now call.getNow call.setNow call.key
          = some (⟨false, 0, t1 + f.window⟩, c) := by
        rw [hkey]
        simp [FixedWindowLimiter.Allow, Cache.Get, hrec, hlive, hin,
          FixedWindowLimiter.settle, hfull]
      obtain ⟨c1, e1, hc1, httl1, hrec1, hexp1⟩ := ih c cnt expiration hrec hexp hcnt hrest
      refine ⟨c1, e1, ?_, httl1, ?_, hexp1⟩
      · rw [FixedWindowLimiter.run_cons f c c call _ _ hstep, hc1]
        simp only [Option.map_some', List.length_cons, List.range_succ_eq_map, List.map_cons,
          List.map_map, Option.some.injEq, Prod.mk.injEq, List.cons.injEq, and_true]
        constructor
        · have : ¬ cnt + 1 ≤ f.limit := by omega
          simp [FixedWindowLimiter.inWindow, this]
        · apply List.map_congr_left
          intro i _
          have h1 : ¬ cnt + (i : Int) + 1 ≤ f.limit := by omega
          have h2 : ¬ cnt + ((i + 1 : Nat) : Int) + 1 ≤ f.limit := by omega
          simp only [FixedWindowLimiter.inWindow, Function.comp, Nat.succ_eq_add_one]
          rw [if_neg h1, if_neg h2]
      · rw [hrec1]
        have e : min (cnt + (rest.length : Int)) f.limit
            = min (cnt + ((call :: rest).length : Int)) f.limit := by
          rw [List.length_cons, min_eq_right (by omega), min_eq_right (by omega)]
        rw [e]
    · have hstep : f.Allow c call.now call.getNow call.setNow call.key
          = some (⟨true, f.limit - (cnt + 1), t1 + f.window⟩,
            Cache.Set c call.setNow k (Any.fixed ⟨cnt + 1, t1⟩)) := by
        rw [hkey]
        simp [FixedWindowLimiter.Allow, Cache.Get, hrec, hlive, hin,
          FixedWindowLimiter.settle, hfull]
      have hrec1 : mapGet (Cache.Set c call.setNow k (Any.fixed ⟨cnt + 1, t1⟩)).items k
          = some ⟨Any.fixed ⟨cnt + 1, t1⟩, call.setNow + c.cleanupInterval⟩ := by
        simp [Cache.Set, mapGet_mapSet]
      obtain ⟨c1, e1, hc1, httl1, hrec2, hexp1⟩ :=
        ih (Cache.Set c call.setNow k (Any.fixed ⟨cnt + 1, t1⟩)) (cnt + 1)
          (call.setNow + c.cleanupInterval) hrec1
          (by show t1 + c.cleanupInterval ≤ call.setNow + c.cleanupInterval; omega)
          (by omega) hrest
      refine ⟨c1, e1, ?_, httl1, ?_, hexp1⟩
      · rw [FixedWindowLimiter.run_cons f c _ call _ _ hstep, hc1]
        simp only [Option.map_some', List.length_cons, List.range_succ_eq_map, List.map_cons,
          List.map_map, Option.some.injEq, Prod.mk.injEq, List.cons.injEq, and_true]
        constructor
        · have : cnt + 1 ≤ f.limit := by omega
          simp [FixedWindowLimiter.inWindow, this]
        · apply List.map_congr_left
          intro i _
          simp only [FixedWindowLimiter.inWindow, Function.comp, Nat.succ_eq_add_one]
          have e : cnt + ((i + 1 : Nat) : Int) + 1 = cnt + 1 + (i : Int) + 1 := by
            push_cast
            ring
          rw [e]
      · rw [hrec2]
        have e : cnt + 1 + (rest.length : Int) = cnt + ((call :: rest).length : Int) := by
          rw [List.length_cons]
          push_cast
          ring
        rw [e]

theorem FixedWindowLimiter.run_append (f : FixedWindowLimiter) (a b : List Call)
    (c c1 : Cache) (ds1 : List Decision) (h : f.run c a = some (ds1, c1)) :
    f.run c (a ++ b) = (f.run c1 b).map (fun r => (ds1 ++ r.1, r.2)) := by
  induction a generalizing c ds1 with
  | nil =>
    simp only [FixedWindowLimiter.run, Option.some.injEq, Prod.mk.injEq] at h
    obtain ⟨h1, h2⟩ := h
    subst h1 h2
    rw [List.nil_append]
    cases f.run c b with
    | none => rfl
    | some r => rfl
  | cons call rest ih =>
    cases hA : f.Allow c call.now call.getNow call.setNow call.key with
    | none => simp [FixedWindowLimiter.run, hA] at h
    | some r =>
      obtain ⟨d, c2⟩ := r
      rw [FixedWindowLimiter.run_cons f c c2 call d rest hA] at h
      cases hR : f.run c2 rest with
      | none => simp [hR] at h
      | some r2 =>
        obtain ⟨ds2, c3⟩ := r2
        simp only [hR, Option.map_some', Option.some.injEq, Prod.mk.injEq] at h
        obtain ⟨h1, h2⟩ := h
        subst h1 h2
        rw [List.cons_append, FixedWindowLimiter.run_cons f c c2 call d _ hA, ih c2 ds2 hR]
        cases f.run c3 b with
        | none => rfl
        | some r3 => rfl

theorem FixedWindowLimiter.run_window_of_first (f : FixedWindowLimiter) (c : Cache)
    (k : String) (first : Call) (rest : List Call)
    (hL : 1 ≤ f.limit) (hkey : first.key = k) (hset : first.now ≤ first.setNow)
    (hfirst : f.Allow c first.now first.getNow first.setNow k
      = some (⟨true, f.limit - 1, first.now + f.window⟩,
        Cache.Set c first.setNow k (Any.fixed ⟨1, first.now⟩)))
    (hcalls : ∀ call ∈ rest, call.key = k ∧ first.now ≤ call.now ∧
      call.now - first.now < f.window ∧
      call.now ≤ call.setNow ∧ call.getNow - call.now ≤ c.cleanupInterval - f.window) :
    ∃ c1 e1, f.run c (first :: rest)
        = some ((List.range (rest.length + 1)).map (f.inWindow first.now 0), c1) ∧
      c1.cleanupInterval = c.cleanupInterval ∧
      mapGet c1.items k
        = some ⟨Any.fixed ⟨min (1 + (rest.length : Int)) f.limit, first.now⟩, e1⟩ ∧
      first.now + c.cleanupInterval ≤ e1 := by
  have hrec1 : mapGet (Cache.Set c first.setNow k (Any.fixed ⟨1, first.now⟩)).items k
      = some ⟨Any.fixed ⟨1, first.now⟩, first.setNow + c.cleanupInterval⟩ := by
    simp [Cache.Set, mapGet_mapSet]
  obtain ⟨c1, e1, hc1, httl, hrec2, hexp⟩ := FixedWindowLimiter.run_in_window f k first.now rest
    (Cache.Set c first.setNow k (Any.fixed ⟨1, first.now⟩)) 1
    (first.setNow + c.cleanupInterval) hrec1
    (by show first.now + c.cleanupInterval ≤ first.setNow + c.cleanupInterval; omega) hL hcalls
  refine ⟨c1, e1, ?_, httl, hrec2, hexp⟩
  rw [← hkey] at hfirst
  rw [FixedWindowLimiter.run_cons f c _ first _ _ hfirst, hkey, hc1]
  simp only [Option.map_some', List.range_succ_eq_map, List.map_cons,
    List.map_map, Option.some.injEq, Prod.mk.injEq, List.cons.injEq, and_true]
  constructor
  · simp [FixedWindowLimiter.inWindow, hL]
  · apply List.map_congr_left
    intro i _
    simp only [FixedWindowLimiter.inWindow, Function.comp, Nat.succ_eq_add_one]
    have e : 1 + (i : Int) + 1 = 0 + ((i + 1 : Nat) : Int) + 1 := by
      push_cast
      ring
    rw [e]

theorem FixedWindowLimiter.Allow_of_absent (f : FixedWindowLimiter) (c : Cache) (k : String)
    (now getNow setNow : Int) (hL : 1 ≤ f.limit) (hfresh : Cache.Get c getNow k = none) :
    f.Allow c now getNow setNow k = some (⟨true, f.limit - 1, now + f.window⟩,
      Cache.Set c setNow k (Any.fixed ⟨1, now⟩)) := by
  have hnot : ¬ (0 : Int) ≥ f.limit := by omega
  simp [FixedWindowLimiter.Allow, hfresh, FixedWindowLimiter.settle, hnot]

theorem FixedWindowLimiter.Allow_of_elapsed (f : FixedWindowLimiter) (c : Cache) (k : String)
    (now getNow setNow count windowStart expiration : Int) (hL : 1 ≤ f.limit)
    (hrec : mapGet c.items k = some ⟨Any.fixed ⟨count, windowStart⟩, expiration⟩)
    (helapsed : now - windowStart ≥ f.window) :
    f.Allow c now getNow setNow k = some (⟨true, f.limit - 1, now + f.window⟩,
      Cache.Set c setNow k (Any.fixed ⟨1, now⟩)) := by
  have hnot : ¬ (0 : Int) ≥ f.limit := by omega
  unfold FixedWindowLimiter.Allow Cache.Get
  rw [hrec]
  by_cases hexp : getNow > expiration
  · simp [hexp, FixedWindowLimiter.settle, hnot]
  · simp [hexp, helapsed, FixedWindowLimiter.settle, hnot]

theorem FixedWindowLimiter.inWindow_allowed (f : FixedWindowLimiter) (t1 : Int) (n : Nat)
    (hn : (n : Int) = f.limit) :
    ∀ d ∈ (List.range n).map (f.inWindow t1 0), d.allowed = true := by
  intro d hd
  obtain ⟨i, hi, rfl⟩ := List.mem_map.mp hd
  have hi' : i < n := List.mem_range.mp hi
  have : (i : Int) + 1 ≤ f.limit := by omega
  simp [FixedWindowLimiter.inWindow, this]

theorem FixedWindowLimiter.boundary_run (f : FixedWindowLimiter) (ttl : Int) (k : String)
    (n : Nat) (hn : (n : Int) = f.limit) (hn1 : 1 ≤ n) (hW : 2 ≤ f.window)
    (hTTL : f.window ≤ ttl) :
    ∃ c2, f.run (NewCache ttl)
        (((0 :: List.replicate (n - 1) (f.window - 1))
          ++ (f.window :: List.replicate (n - 1) f.window)).map (Call.instant k))
      = some ((List.range n).map (f.inWindow 0 0)
          ++ (List.range n).map (f.inWindow f.window 0), c2) := by
  have hL : 1 ≤ f.limit := by omega
  have hlen : n - 1 + 1 = n := by omega
  obtain ⟨c1, e1, hrun1, httl1, hrec1, hexp1⟩ :=
    FixedWindowLimiter.run_window_of_first f (NewCache ttl) k (Call.instant k 0)
      ((List.replicate (n - 1) (f.window - 1)).map (Call.instant k)) hL rfl (le_refl _)
      (FixedWindowLimiter.Allow_of_absent f (NewCache ttl) k 0 0 0 hL rfl)
      (by
        intro call hcall
        obtain ⟨t, ht, rfl⟩ := List.mem_map.mp hcall
        have := (List.mem_replicate.mp ht).2
        refine ⟨rfl, ?_, ?_, le_refl _, ?_⟩ <;> simp only [Call.instant, NewCache] <;> omega)
  have hc1 : c1.cleanupInterval = ttl := httl1
  obtain ⟨c2, e2, hrun2, _, _, _⟩ :=
    FixedWindowLimiter.run_window_of_first f c1 k (Call.instant k f.window)
      ((List.replicate (n - 1) f.window).map (Call.instant k)) hL rfl (le_refl _)
      (FixedWindowLimiter.Allow_of_elapsed f c1 k f.window f.window f.window _ 0 e1 hL hrec1
        (by omega))
      (by
        intro call hcall
        obtain ⟨t, ht, rfl⟩ := List.mem_map.mp hcall
        have := (List.mem_replicate.mp ht).2
        refine ⟨rfl, ?_, ?_, le_refl _, ?_⟩ <;> simp only [Call.instant, hc1] <;> omega)
  rw [List.length_map, List.length_replicate, hlen] at hrun1 hrun2
  refine ⟨c2, ?_⟩
  rw [List.map_append, List.map_cons, List.map_cons,
    FixedWindowLimiter.run_append f _ _ _ c1 _ hrun1, hrun2]
  rfl

theorem zip_tail_eq {α β : Type} (l1 : List α) (l2 : List β) :
    (l1.zip l2).tail = l1.tail.zip l2.tail := by
  cases l1 with
  | nil => simp
  | cons a r1 =>
    cases l2 with
    | nil => simp
    | cons b r2 => simp

theorem FixedWindowLimiter.CountInv_Set (f : FixedWindowLimiter) (c : Cache) (setNow : Int)
    (k : String) (cnt ws : Int) (h : f.CountInv c) (h1 : 1 ≤ cnt) (h2 : cnt ≤ f.limit) :
    f.CountInv (Cache.Set c setNow k (Any.fixed ⟨cnt, ws⟩)) := by
  intro k' item hitem
  simp only [Cache.Set, mapGet_mapSet] at hitem
  by_cases hk : k = k'
  · rw [if_pos hk] at hitem
    cases hitem
    exact ⟨cnt, ws, rfl, h1, h2⟩
  · rw [if_neg hk] at hitem
    exact h k' item hitem

theorem FixedWindowLimiter.settle_shape (f : FixedWindowLimiter) (c : Cache) (setNow : Int)
    (k : String) (data : FixedWindowData) (hinv : f.CountInv c) (h0 : 0 ≤ data.Count) :
    f.CountInv (f.settle c setNow k data).2 ∧ 0 ≤ (f.settle c setNow k data).1.remaining ∧
      ((f.settle c setNow k data).1.allowed = false →
        (f.settle c setNow k data).1.remaining = 0) ∧
      ((f.settle c setNow k data).1.allowed = true →
        (f.settle c setNow k data).1.remaining ≤ f.limit - 1 ∧
        ∃ cnt ws e, mapGet (f.settle c setNow k data).2.items k
            = some ⟨Any.fixed ⟨cnt, ws⟩, e⟩ ∧
          (f.settle c setNow k data).1.remaining = f.limit - cnt) := by
  by_cases hfull : data.Count ≥ f.limit
  · have hs : f.settle c setNow k data
        = (⟨false, 0, data.WindowStart + f.window⟩, c) := by
      simp [FixedWindowLimiter.settle, hfull]
    rw [hs]
    exact ⟨hinv, le_refl _, fun _ => rfl, fun h => by cases h⟩
  · have hs : f.settle c setNow k data
        = (⟨true, f.limit - (data.Count + 1), data.WindowStart + f.window⟩,
            Cache.Set c setNow k (Any.fixed ⟨data.Count + 1, data.WindowStart⟩)) := by
      simp [FixedWindowLimiter.settle, hfull]
    rw [hs]
    refine ⟨FixedWindowLimiter.CountInv_Set f c setNow k _ _ hinv (by omega) (by omega),
      ?_, fun h => (by cases h), fun _ => ⟨?_, ?_⟩⟩
    · show 0 ≤ f.limit - (data.Count + 1)
      omega
    · show f.limit - (data.Count + 1) ≤ f.limit - 1
      omega
    · exact ⟨data.Count + 1, data.WindowStart, setNow + c.cleanupInterval,
        by simp [Cache.Set, mapGet_mapSet], rfl⟩

theorem FixedWindowLimiter.Allow_shape (f : FixedWindowLimiter) (c : Cache)
    (now getNow setNow : Int) (k : String) (hinv : f.CountInv c) :
    ∃ d c1, f.Allow c now getNow setNow k = some (d, c1) ∧ f.CountInv c1 ∧ 0 ≤ d.remaining ∧
      (d.allowed = false → d.remaining = 0) ∧
      (d.allowed = true → d.remaining ≤ f.limit - 1 ∧
        ∃ cnt ws e, mapGet c1.items k = some ⟨Any.fixed ⟨cnt, ws⟩, e⟩ ∧
          d.remaining = f.limit - cnt) := by
  unfold FixedWindowLimiter.Allow
  cases hG : Cache.Get c getNow k with
  | none =>
    exact ⟨_, _, rfl, FixedWindowLimiter.settle_shape f c setNow k ⟨0, now⟩ hinv (le_refl _)⟩
  | some v =>
    obtain ⟨item, hitem, _, hval⟩ := (Cache.Get_eq_some_iff c getNow k v).mp hG
    obtain ⟨cnt, ws, hfix, h1, _⟩ := hinv k item hitem
    rw [hfix] at hval
    subst hval
    simp only
    by_cases hel : now - ws ≥ f.window
    · rw [if_pos hel]
      exact ⟨_, _, rfl, FixedWindowLimiter.settle_shape f c setNow k ⟨0, now⟩ hinv (le_refl _)⟩
    · rw [if_neg hel]
      exact ⟨_, _, rfl, FixedWindowLimiter.settle_shape f c setNow k ⟨cnt, ws⟩ hinv
        (by show (0 : Int) ≤ cnt; omega)⟩

theorem FixedWindowLimiter.run_CountInv (f : FixedWindowLimiter) (calls : List Call)
    (c c1 : Cache) (ds : List Decision) (hinv : f.CountInv c)
    (hrun : f.run c calls = some (ds, c1)) : f.CountInv c1 := by
  induction calls generalizing c ds with
  | nil =>
    simp only [FixedWindowLimiter.run, Option.some.injEq, Prod.mk.injEq] at hrun
    rw [← hrun.2]
    exact hinv
  | cons call rest ih =>
    obtain ⟨d, c2, hstep, hinv2, _⟩ :=
      FixedWindowLimiter.Allow_shape f c call.now call.getNow call.setNow call.key hinv
    rw [FixedWindowLimiter.run_cons f c c2 call d rest hstep] at hrun
    cases hR : f.run c2 rest with
    | none => simp [hR] at hrun
    | some r =>
      obtain ⟨ds2, c3⟩ := r
      simp only [hR, Option.map_some', Option.some.injEq, Prod.mk.injEq] at hrun
      obtain ⟨_, rfl⟩ := hrun
      exact ih c2 ds2 hinv2 hR

theorem FixedWindowLimiter.CountInv_NewCache (f : FixedWindowLimiter) (ttl : Int) :
    f.CountInv (NewCache ttl) := by
  intro k item h
  simp [NewCache, mapGet] at h

theorem FixedWindowLimiter.spaced_of_limit_one (W : Int) (k : String) (hW : 0 < W)
    (calls : List Call) (c : Cache) (s e : Int)
    (hrec : mapGet c.items k = some ⟨Any.fixed ⟨1, s⟩, e⟩)
    (hexp : s + c.cleanupInterval ≤ e)
    (hcalls : ∀ call ∈ calls, call.key = k ∧ call.now ≤ call.setNow ∧
      call.getNow - call.now ≤ c.cleanupInterval - W) :
    ∃ ds c1, (⟨1, W⟩ : FixedWindowLimiter).run c calls = some (ds, c1) ∧
      (∀ p ∈ calls.zip ds, p.2.allowed = true → s + W ≤ p.1.now) ∧
      (calls.zip ds).Pairwise
        (fun p q => p.2.allowed = true → q.2.allowed = true → p.1.now + W ≤ q.1.now) := by
  induction calls generalizing c s e with
  | nil => exact ⟨[], c, rfl, by simp, by simp⟩
  | cons call rest ih =>
    obtain ⟨hkey, hset, hlag⟩ := hcalls call (List.mem_cons_self _ _)
    have hrest : ∀ u ∈ rest, u.key = k ∧ u.now ≤ u.setNow ∧
        u.getNow - u.now ≤ c.cleanupInterval - W :=
      fun u hu => hcalls u (List.mem_cons_of_mem _ hu)
    by_cases hreset : call.getNow > e ∨ call.now - s ≥ W
    · have hstep : (⟨1, W⟩ : FixedWindowLimiter).Allow c call.now call.getNow call.setNow
            call.key
          = some (⟨true, 1 - (0 + 1), call.now + W⟩,
              Cache.Set c call.setNow k (Any.fixed ⟨0 + 1, call.now⟩)) := by
        rw [hkey]
        by_cases hx : call.getNow > e
        · simp [FixedWindowLimiter.Allow, Cache.Get, hrec, hx, FixedWindowLimiter.settle]
        · have hy : call.now - s ≥ W := by omega
          simp [FixedWindowLimiter.Allow, Cache.Get, hrec, hx, hy, FixedWindowLimiter.settle]
      have hrec1 : mapGet (Cache.Set c call.setNow k (Any.fixed ⟨0 + 1, call.now⟩)).items k
          = some ⟨Any.fixed ⟨1, call.now⟩, call.setNow + c.cleanupInterval⟩ := by
        simp [Cache.Set, mapGet_mapSet]
      obtain ⟨ds, c1, hrun, hafter, hpair⟩ :=
        ih (Cache.Set c call.setNow k (Any.fixed ⟨0 + 1, call.now⟩)) call.now
          (call.setNow + c.cleanupInterval) hrec1
          (by show call.now + c.cleanupInterval ≤ call.setNow + c.cleanupInterval; omega)
          hrest
      refine ⟨(⟨true, 1 - (0 + 1), call.now + W⟩ : Decision) :: ds, c1, ?_, ?_, ?_⟩
      · rw [FixedWindowLimiter.run_cons _ c _ call _ _ hstep, hrun]
        rfl
      · intro p hp hallow
        rw [List.zip_cons_cons, List.mem_cons] at hp
        rcases hp with hp | hp
        · subst hp
          show s + W ≤ call.now
          omega
        · have := hafter p hp hallow
          omega
      · rw [List.zip_cons_cons, List.pairwise_cons]
        refine ⟨?_, hpair⟩
        intro q hq _ hallow
        exact hafter q hq hallow
    · have hx : ¬ call.getNow > e := fun h => hreset (Or.inl h)
      have hy : ¬ call.now - s ≥ W := fun h => hreset (Or.inr h)
      have hstep : (⟨1, W⟩ : FixedWindowLimiter).Allow c call.now call.getNow call.setNow
          call.key = some (⟨false, 0, s + W⟩, c) := by
        rw [hkey]
        simp [FixedWindowLimiter.Allow, Cache.Get, hrec, hx, hy, FixedWindowLimiter.settle]
      obtain ⟨ds, c1, hrun, hafter, hpair⟩ := ih c s e hrec hexp hrest
      refine ⟨(⟨false, 0, s + W⟩ : Decision) :: ds, c1, ?_, ?_, ?_⟩
      · rw [FixedWindowLimiter.run_cons _ c _ call _ _ hstep, hrun]
        rfl
      · intro p hp hallow
        rw [List.zip_cons_cons, List.mem_cons] at hp
        rcases hp with hp | hp
        · subst hp
          simp at hallow
        · exact hafter p hp hallow
      · rw [List.zip_cons_cons, List.pairwise_cons]
        refine ⟨?_, hpair⟩
        intro q _ hallow
        simp at hallow

theorem FixedWindowLimiter.spaced_from_new (W ttl : Int) (k : String) (hW : 0 < W)
    (calls : List Call)
    (hcalls : ∀ call ∈ calls, call.key = k ∧ call.now ≤ call.setNow ∧
      call.getNow - call.now ≤ ttl - W) :
    ∃ ds c1, (⟨1, W⟩ : FixedWindowLimiter).run (NewCache ttl) calls = some (ds, c1) ∧
      (calls.zip ds).Pairwise
        (fun p q => p.2.allowed = true → q.2.allowed = true → p.1.now + W ≤ q.1.now) := by
  cases calls with
  | nil => exact ⟨[], NewCache ttl, rfl, by simp⟩
  | cons call rest =>
    obtain ⟨hkey, hset, _⟩ := hcalls call (List.mem_cons_self _ _)
    have hstep : (⟨1, W⟩ : FixedWindowLimiter).Allow (NewCache ttl) call.now call.getNow
          call.setNow call.key
        = some (⟨true, 1 - (0 + 1), call.now + W⟩,
            Cache.Set (NewCache ttl) call.setNow k (Any.fixed ⟨0 + 1, call.now⟩)) := by
      rw [hkey]
      simp [FixedWindowLimiter.Allow, Cache.Get, NewCache, mapGet, FixedWindowLimiter.settle]
    have hrec1 : mapGet
          (Cache.Set (NewCache ttl) call.setNow k (Any.fixed ⟨0 + 1, call.now⟩)).items k
        = some ⟨Any.fixed ⟨1, call.now⟩, call.setNow + (NewCache ttl).cleanupInterval⟩ := by
      simp [Cache.Set, mapGet_mapSet]
    obtain ⟨ds, c1, hrun, hafter, hpair⟩ :=
      FixedWindowLimiter.spaced_of_limit_one W k hW rest
        (Cache.Set (NewCache ttl) call.setNow k (Any.fixed ⟨0 + 1, call.now⟩)) call.now
        (call.setNow + (NewCache ttl).cleanupInterval) hrec1
        (by
          show call.now + (NewCache ttl).cleanupInterval
            ≤ call.setNow + (NewCache ttl).cleanupInterval
          omega)
        (fun u hu => hcalls u (List.mem_cons_of_mem _ hu))
    refine ⟨(⟨true, 1 - (0 + 1), call.now + W⟩ : Decision) :: ds, c1, ?_, ?_⟩
    · rw [FixedWindowLimiter.run_cons _ _ _ call _ _ hstep, hrun]
      rfl
    · rw [List.zip_cons_cons, List.pairwise_cons]
      refine ⟨?_, hpair⟩
      intro q hq _ hallow
      exact hafter q hq hallow

theorem Call.Ordered_cons (call : Call) (rest : List Call)
    (h : Call.Ordered (call :: rest)) :
    call.now ≤ call.getNow ∧ call.getNow ≤ call.setNow ∧
      (∀ r ∈ rest, call.setNow ≤ r.now) ∧ Call.Ordered rest := by
  unfold Call.Ordered at h ⊢
  rw [List.map_cons, List.flatten_cons, List.pairwise_append] at h
  obtain ⟨h1, h2, h3⟩ := h
  simp only [Call.readings, List.pairwise_cons, List.mem_cons, List.mem_singleton] at h1
  refine ⟨h1.1 _ (Or.inl rfl), h1.2.1 _ (Or.inl rfl), ?_, h2⟩
  intro r hr
  apply h3 call.setNow (by simp [Call.readings]) r.now
  rw [List.mem_flatten]
  exact ⟨r.readings, List.mem_map_of_mem _ hr, by simp [Call.readings]⟩

theorem Call.Ordered_instant (k : String) (ts : List Int)
    (h : ts.Pairwise (fun a b => a ≤ b)) : Call.Ordered (ts.map (Call.instant k)) := by
  induction ts with
  | nil => simp [Call.Ordered]
  | cons t rest ih =>
    rw [List.pairwise_cons] at h
    have ih1 := ih h.2
    unfold Call.Ordered at ih1 ⊢
    rw [List.map_cons, List.map_cons, List.flatten_cons, List.pairwise_append]
    refine ⟨by simp [Call.readings, Call.instant], ih1, ?_⟩
    intro a ha b hb
    have hat : a = t := by
      simp only [Call.readings, Call.instant, List.mem_cons, List.mem_singleton,
        List.not_mem_nil, or_false, or_self] at ha
      exact ha
    rw [List.mem_flatten] at hb
    obtain ⟨l, hl, hbl⟩ := hb
    obtain ⟨call, hcall, rfl⟩ := List.mem_map.mp hl
    obtain ⟨u, hu, rfl⟩ := List.mem_map.mp hcall
    have hbu : b = u := by
      simp only [Call.readings, Call.instant, List.mem_cons, List.mem_singleton,
        List.not_mem_nil, or_false, or_self] at hbl
      exact hbl
    rw [hat, hbu]
    exact h.1 u hu

theorem permittedAt_cons (call : Call) (d : Decision) (hist : List (Call × Decision))
    (t : Int) :
    (permittedAt ((call, d) :: hist) t : Int)
      = (if d.allowed = true ∧ call.now = t then 1 else 0) + (permittedAt hist t : Int) := by
  unfold permittedAt
  by_cases h : d.allowed = true ∧ call.now = t
  · rw [if_pos h]
    have : (d.allowed && decide (call.now = t)) = true := by simp [h.1, h.2]
    rw [List.filter_cons_of_pos (by simpa using this), List.length_cons]
    push_cast
    ring
  · rw [if_neg h]
    have : ¬ (d.allowed && decide (call.now = t)) = true := by
      simpa using fun h1 => (fun h2 => h ⟨h1, h2⟩)
    rw [List.filter_cons_of_neg (by simpa using this)]
    ring

theorem FixedWindowLimiter.budget_run (f : FixedWindowLimiter) (k : String)
    (hW : f.window = 1) (hL : 1 ≤ f.limit) (ttl t : Int) (httl : 1 ≤ ttl)
    (calls : List Call) (c : Cache) (b : Int) (hc : c.cleanupInterval = ttl)
    (hinv : ∀ item, mapGet c.items k = some item →
      ∃ cnt ws, item.Value = Any.fixed ⟨cnt, ws⟩ ∧ cnt ≤ f.limit ∧ ws ≤ b ∧
        ws + 1 ≤ item.Expiration)
    (hord : Call.Ordered calls) (hb : ∀ call ∈ calls, b ≤ call.now)
    (hkey : ∀ call ∈ calls, call.key = k) :
    ∃ ds c1, f.run c calls = some (ds, c1) ∧
      (permittedAt (calls.zip ds) t : Int) ≤ f.budget c k b t := by
  induction calls generalizing c b with
  | nil =>
    refine ⟨[], c, rfl, ?_⟩
    simp only [List.zip_nil_left, permittedAt, List.filter_nil, List.length_nil, Nat.cast_zero,
      FixedWindowLimiter.budget]
    split_ifs with h1
    · exact le_refl _
    · cases hm : mapGet c.items k with
      | none =>
        simp only
        omega
      | some item =>
        obtain ⟨cnt, ws, hval, hcnt, _, _⟩ := hinv item hm
        simp only [hval]
        split_ifs <;> omega
  | cons call rest ih =>
    obtain ⟨h1, h2, h3, hord'⟩ := Call.Ordered_cons call rest hord
    have hba : b ≤ call.now := hb call (List.mem_cons_self _ _)
    have hk : call.key = k := hkey call (List.mem_cons_self _ _)
    have hkey' : ∀ r ∈ rest, r.key = k := fun r hr => hkey r (List.mem_cons_of_mem _ hr)
    -- the three ways a call can go, each followed by the rest of the run
    have restart : (∀ item, mapGet c.items k = some item →
          ∀ cnt ws, item.Value = Any.fixed ⟨cnt, ws⟩ →
            call.getNow > item.Expiration ∨ call.now - ws ≥ 1) →
        f.Allow c call.now call.getNow call.setNow call.key
          = some (⟨true, f.limit - 1, call.now + f.window⟩,
              Cache.Set c call.setNow k (Any.fixed ⟨1, call.now⟩)) →
        ∃ ds c1, f.run c (call :: rest) = some (ds, c1) ∧
          (permittedAt ((call :: rest).zip ds) t : Int) ≤ f.budget c k b t := by
      intro hwhy hstep
      have hrec1 : mapGet (Cache.Set c call.setNow k (Any.fixed ⟨1, call.now⟩)).items k
          = some ⟨Any.fixed ⟨1, call.now⟩, call.setNow + c.cleanupInterval⟩ := by
        simp [Cache.Set, mapGet_mapSet]
      obtain ⟨ds, c1, hrun, hle⟩ := ih (Cache.Set c call.setNow k (Any.fixed ⟨1, call.now⟩))
        call.setNow hc
        (by
          intro item hitem
          rw [hrec1] at hitem
          cases hitem
          exact ⟨1, call.now, rfl, hL, by omega,
            by show call.now + 1 ≤ call.setNow + c.cleanupInterval; omega⟩)
        hord' h3 hkey'
      refine ⟨_ :: ds, c1, by rw [FixedWindowLimiter.run_cons f c _ call _ _ hstep, hrun]; rfl,
        ?_⟩
      rw [List.zip_cons_cons, permittedAt_cons]
      have hb1 : f.budget (Cache.Set c call.setNow k (Any.fixed ⟨1, call.now⟩)) k call.setNow t
          = if t < call.setNow then 0
            else if call.now = t then f.limit - 1 + 1 else f.limit + 1 := by
        simp only [FixedWindowLimiter.budget, hrec1]
      rw [hb1] at hle
      simp only [true_and]
      unfold FixedWindowLimiter.budget
      cases hm : mapGet c.items k with
      | none =>
        simp only
        split_ifs at hle ⊢ <;> omega
      | some item =>
        obtain ⟨cnt, ws, hval, hcnt, hws, hexp⟩ := hinv item hm
        have := hwhy item hm cnt ws hval
        simp only [hval]
        split_ifs at hle ⊢ <;> omega
    cases hm : mapGet c.items k with
    | none =>
      apply restart
      · intro item hitem
        rw [hm] at hitem
        cases hitem
      · rw [hk]
        exact FixedWindowLimiter.Allow_of_absent f c k call.now call.getNow call.setNow hL
          (by simp [Cache.Get, hm])
    | some item =>
      obtain ⟨cnt, ws, hval, hcnt, hws, hexp⟩ := hinv item hm
      have hitem : item = ⟨Any.fixed ⟨cnt, ws⟩, item.Expiration⟩ := by
        cases item
        simp only at hval
        rw [hval]
      rw [hitem] at hm
      by_cases hgone : call.getNow > item.Expiration
      · apply restart
        · intro item' hitem' cnt' ws' _
          rw [hm] at hitem'
          cases hitem'
          exact Or.inl hgone
        · rw [hk]
          exact FixedWindowLimiter.Allow_of_absent f c k call.now call.getNow call.setNow hL
            (by simp [Cache.Get, hm, hgone])
      · by_cases hel : call.now - ws ≥ f.window
        · apply restart
          · intro item' hitem' cnt' ws' hval'
            rw [hm] at hitem'
            cases hitem'
            simp only [Any.fixed.injEq, FixedWindowData.mk.injEq] at hval'
            right
            omega
          · rw [hk]
            exact FixedWindowLimiter.Allow_of_elapsed f c k call.now call.getNow call.setNow
              cnt ws item.Expiration hL hm hel
        · have hwa : ws = call.now := by omega
          by_cases hfull : cnt ≥ f.limit
          · have hstep : f.Allow c call.now call.getNow call.setNow call.key
                = some (⟨false, 0, ws + f.window⟩, c) := by
              rw [hk]
              simp [FixedWindowLimiter.Allow, Cache.Get, hm, hgone, hel,
                FixedWindowLimiter.settle, hfull]
            obtain ⟨ds, c1, hrun, hle⟩ := ih c call.setNow hc
              (by
                intro item' hitem'
                rw [hm] at hitem'
                cases hitem'
                exact ⟨cnt, ws, rfl, hcnt, by omega, hexp⟩)
              hord' h3 hkey'
            refine ⟨_ :: ds, c1,
              by rw [FixedWindowLimiter.run_cons f c _ call _ _ hstep, hrun]; rfl, ?_⟩
            rw [List.zip_cons_cons, permittedAt_cons]
            simp only [FixedWindowLimiter.budget, hm] at hle ⊢
            simp only [Bool.false_eq_true, false_and, if_false, zero_add]
            split_ifs at hle ⊢ <;> omega
          · have hstep : f.Allow c call.now call.getNow call.setNow call.key
                = some (⟨true, f.limit - (cnt + 1), ws + f.window⟩,
                  Cache.Set c call.setNow k (Any.fixed ⟨cnt + 1, ws⟩)) := by
              rw [hk]
              simp [FixedWindowLimiter.Allow, Cache.Get, hm, hgone, hel,
                FixedWindowLimiter.settle, hfull]
            have hrec1 : mapGet (Cache.Set c call.setNow k (Any.fixed ⟨cnt + 1, ws⟩)).items k
                = some ⟨Any.fixed ⟨cnt + 1, ws⟩, call.setNow + c.cleanupInterval⟩ := by
              simp [Cache.Set, mapGet_mapSet]
            obtain ⟨ds, c1, hrun, hle⟩ :=
              ih (Cache.Set c call.setNow k (Any.fixed ⟨cnt + 1, ws⟩)) call.setNow hc
                (by
                  intro item' hitem'
                  rw [hrec1] at hitem'
                  cases hitem'
                  exact ⟨cnt + 1, ws, rfl, by omega, by omega,
                    by show ws + 1 ≤ call.setNow + c.cleanupInterval; omega⟩)
                hord' h3 hkey'
            refine ⟨_ :: ds, c1,
              by rw [FixedWindowLimiter.run_cons f c _ call _ _ hstep, hrun]; rfl, ?_⟩
            rw [List.zip_cons_cons, permittedAt_cons]
            simp only [FixedWindowLimiter.budget, hm, hrec1] at hle ⊢
            simp only [true_and]
            split_ifs at hle ⊢ <;> omega
/-! ## Sliding window: lemmas -/

theorem SlidingWindowLimiter.run_step (s : SlidingWindowLimiter) (c c1 : Cache) (call : Call)
    (d : Decision) (rest : List Call)
    (h : s.Allow c call.now call.getNow call.setNow call.key = some (d, c1)) :
    s.run c (call :: rest) = (s.run c1 rest).map (fun r => (d :: r.1, r.2)) := by
  simp only [SlidingWindowLimiter.run, h]
  cases s.run c1 rest with
  | none => rfl
  | some r => rfl

theorem SlidingWindowLimiter.Allow_eq_readLog (s : SlidingWindowLimiter) (c : Cache)
    (now getNow setNow : Int) (k : String) :
    s.Allow c now getNow setNow k =
      match SlidingWindowLimiter.readLog c getNow k with
      | none => none
      | some ts =>
        s.settle c now setNow k (ts.filter (fun x => decide (x > now + (-s.window)))) := by
  unfold SlidingWindowLimiter.Allow SlidingWindowLimiter.readLog
  cases hG : Cache.Get c getNow k with
  | none => rfl
  | some v =>
    cases v with
    | fixed d => rfl
    | sliding d => rfl

theorem permittedTimes_append (hist : List (Call × Decision)) (k : String)
    (call : Call) (d : Decision) :
    permittedTimes (hist ++ [(call, d)]) k
      = if call.key = k ∧ d.allowed = true then permittedTimes hist k ++ [call.now]
        else permittedTimes hist k := by
  unfold permittedTimes
  by_cases h : call.key = k ∧ d.allowed = true
  · simp [List.filter_append, List.filter, h.1, h.2]
  · rw [if_neg h]
    have : (decide (call.key = k) && d.allowed) = false := by
      by_cases hk : call.key = k
      · have : d.allowed = false := by
          cases hd : d.allowed with
          | true => exact absurd ⟨hk, hd⟩ h
          | false => rfl
        simp [this]
      · simp [hk]
    simp [List.filter_append, List.filter, this]

theorem permittedTimes_le (hist : List (Call × Decision)) (k : String) (tl : Int)
    (h : ∀ e ∈ hist, e.1.now ≤ tl) : ∀ x ∈ permittedTimes hist k, x ≤ tl := by
  intro x hx
  unfold permittedTimes at hx
  obtain ⟨e, he, rfl⟩ := List.mem_map.mp hx
  exact h e (List.mem_filter.mp he).1

theorem permittedCount_eq_pruned (hist : List (Call × Decision)) (k : String)
    (t W : Int) (h : ∀ e ∈ hist, e.1.now ≤ t) :
    permittedCount hist k (t - W) t
      = ((permittedTimes hist k).filter (fun x => decide (x > t + (-W)))).length := by
  unfold permittedCount
  congr 1
  apply List.filter_congr
  intro x hx
  have hle := permittedTimes_le hist k t h x hx
  by_cases hgt : x > t + (-W)
  · have h1 : t - W < x := by omega
    simp [hgt, h1, hle]
  · have h1 : ¬ t - W < x := by omega
    simp [hgt, h1]

theorem filter_prune_prune (l : List Int) (t now W : Int) (h : t ≤ now) :
    (l.filter (fun x => decide (x > t + (-W)))).filter (fun x => decide (x > now + (-W)))
      = l.filter (fun x => decide (x > now + (-W))) := by
  rw [List.filter_filter]
  apply List.filter_congr
  intro x _
  by_cases h1 : x > now + (-W)
  · have h2 : x > t + (-W) := by omega
    simp [h1, h2]
  · simp [h1]

theorem SlidingWindowLimiter.readLog_Set_same (c : Cache) (t now : Int) (k : String)
    (l : List Int) :
    SlidingWindowLimiter.readLog (Cache.Set c t k (Any.sliding ⟨l⟩)) now k
      = if now > t + c.cleanupInterval then some [] else some l := by
  unfold SlidingWindowLimiter.readLog
  rw [Cache.Get_Set_same]
  by_cases h : now > t + c.cleanupInterval
  · simp [h]
  · simp [h]

theorem SlidingWindowLimiter.readLog_Set_other (c : Cache) (t now : Int) (k k' : String)
    (v : Any) (h : k ≠ k') :
    SlidingWindowLimiter.readLog (Cache.Set c t k v) now k'
      = SlidingWindowLimiter.readLog c now k' := by
  unfold SlidingWindowLimiter.readLog
  rw [Cache.Get_Set_other c t now k k' v h]

theorem SlidingWindowLimiter.step_hist (s : SlidingWindowLimiter) (c : Cache)
    (hist : List (Call × Decision)) (tl : Int) (call : Call)
    (hL : 1 ≤ s.limit) (hinv : s.HistInv c hist tl) (ht : tl ≤ call.now)
    (hset : call.now ≤ call.setNow)
    (hlag : call.getNow - call.now ≤ c.cleanupInterval - s.window) :
    ∃ d c1, s.Allow c call.now call.getNow call.setNow call.key = some (d, c1) ∧
      c1.cleanupInterval = c.cleanupInterval ∧
      s.Exact hist call.key call.now d ∧
      s.HistInv c1 (hist ++ [(call, d)]) call.now := by
  obtain ⟨hle, hlog⟩ := hinv
  obtain ⟨ts, hread, hfil⟩ := hlog call.key call.now call.getNow ht hlag
  have hle_t : ∀ e ∈ hist, e.1.now ≤ call.now := fun e he => le_trans (hle e he) ht
  have hcount := permittedCount_eq_pruned hist call.key call.now s.window hle_t
  rw [← hfil] at hcount
  have hle' : ∀ (d : Decision), ∀ e ∈ hist ++ [(call, d)], e.1.now ≤ call.now := by
    intro d e he
    rcases List.mem_append.mp he with h | h
    · exact hle_t e h
    · rw [List.mem_singleton] at h
      subst h
      exact le_refl _
  rw [SlidingWindowLimiter.Allow_eq_readLog, hread]
  simp only [SlidingWindowLimiter.settle]
  by_cases hfull :
      ((ts.filter (fun x => decide (x > call.now + (-s.window)))).length : Int) ≥ s.limit
  · rw [if_pos hfull]
    cases hP : ts.filter (fun x => decide (x > call.now + (-s.window))) with
    | nil =>
      rw [hP] at hfull
      simp only [List.length_nil, Nat.cast_zero] at hfull
      omega
    | cons o r =>
      refine ⟨⟨false, 0, o + s.window⟩, c, rfl, rfl, ?_, hle' _, ?_⟩
      · refine ⟨?_, ?_, ?_⟩
        · constructor
          · intro h
            cases h
          · intro h
            rw [hcount] at h
            omega
        · intro h
          cases h
        · intro _
          rfl
      · intro k' now getNow hnow hlag'
        obtain ⟨ts', hread', hfil'⟩ := hlog k' now getNow (le_trans ht hnow) hlag'
        refine ⟨ts', hread', ?_⟩
        rw [hfil', permittedTimes_append]
        simp
  · rw [if_neg hfull]
    refine ⟨_, _, rfl, rfl, ?_, hle' _, ?_⟩
    · refine ⟨?_, ?_, ?_⟩
      · constructor
        · intro _
          rw [hcount]
          omega
        · intro _
          rfl
      · intro _
        rw [hcount]
        simp only [List.length_append, List.length_singleton]
        push_cast
        ring
      · intro h
        cases h
    · intro k' now getNow hnow hlag0
      have hlag' : getNow - now ≤ c.cleanupInterval - s.window := hlag0
      by_cases hk : call.key = k'
      · subst hk
        rw [SlidingWindowLimiter.readLog_Set_same, permittedTimes_append]
        simp only [true_and, if_true]
        by_cases hexp : getNow > call.setNow + c.cleanupInterval
        · rw [if_pos hexp]
          refine ⟨[], rfl, ?_⟩
          symm
          rw [List.filter_nil, List.filter_eq_nil_iff]
          intro x hx
          have hxt : x ≤ call.now := by
            rcases List.mem_append.mp hx with h | h
            · exact permittedTimes_le hist call.key call.now hle_t x h
            · rw [List.mem_singleton] at h
              omega
          have : ¬ x > now + (-s.window) := by omega
          simpa using this
        · rw [if_neg hexp]
          refine ⟨_, rfl, ?_⟩
          rw [List.filter_append, List.filter_append,
            filter_prune_prune ts call.now now s.window hnow,
            ← filter_prune_prune (permittedTimes hist call.key) call.now now s.window hnow,
            ← hfil, filter_prune_prune ts call.now now s.window hnow]
      · obtain ⟨ts', hread', hfil'⟩ := hlog k' now getNow (le_trans ht hnow) hlag'
        refine ⟨ts', ?_, ?_⟩
        · rw [SlidingWindowLimiter.readLog_Set_other c call.setNow getNow call.key k' _ hk]
          exact hread'
        · rw [hfil', permittedTimes_append]
          simp [hk]

theorem length_filter_le_of_imp (l : List Int) (p q : Int → Bool)
    (h : ∀ a ∈ l, p a = true → q a = true) : (l.filter p).length ≤ (l.filter q).length := by
  induction l with
  | nil => simp
  | cons a r ih =>
    have ihr := ih (fun x hx => h x (List.mem_cons_of_mem a hx))
    by_cases hp : p a = true
    · have hq := h a (List.mem_cons_self a r) hp
      simp only [List.filter, hp, hq, List.length_cons]
      omega
    · by_cases hq : q a = true
      · simp only [List.filter, hp, hq, List.length_cons]
        omega
      · simp only [List.filter, hp, hq]
        exact ihr

theorem SlidingWindowLimiter.Bounded_snoc (s : SlidingWindowLimiter)
    (hist : List (Call × Decision)) (call : Call) (d : Decision)
    (hle : ∀ e ∈ hist, e.1.now ≤ call.now) (hb : s.Bounded hist)
    (hex : s.Exact hist call.key call.now d) :
    s.Bounded (hist ++ [(call, d)]) := by
  intro k t
  have hbk := hb k t
  unfold permittedCount at hbk ⊢
  rw [permittedTimes_append]
  by_cases h : call.key = k ∧ d.allowed = true
  · rw [if_pos h, List.filter_append, List.length_append]
    obtain ⟨hk, hd⟩ := h
    subst hk
    by_cases hin : t - s.window < call.now ∧ call.now ≤ t
    · have hlt := hex.1.mp hd
      unfold permittedCount at hlt
      have hmono : ((permittedTimes hist call.key).filter
            (fun x => decide (t - s.window < x) && decide (x ≤ t))).length
          ≤ ((permittedTimes hist call.key).filter
            (fun x => decide (call.now - s.window < x) && decide (x ≤ call.now))).length := by
        apply length_filter_le_of_imp
        intro x hx hp
        have hx0 := permittedTimes_le hist call.key call.now hle x hx
        simp only [Bool.and_eq_true, decide_eq_true_eq] at hp ⊢
        omega
      have hone : ([call.now].filter
            (fun x => decide (t - s.window < x) && decide (x ≤ t))).length = 1 := by
        simp [List.filter, hin.1, hin.2]
      rw [hone]
      push_cast
      omega
    · have hzero : ([call.now].filter
            (fun x => decide (t - s.window < x) && decide (x ≤ t))).length = 0 := by
        by_cases h1 : t - s.window < call.now
        · have h2 : ¬ call.now ≤ t := fun h2 => hin ⟨h1, h2⟩
          simp [List.filter, h1, h2]
        · simp [List.filter, h1]
      rw [hzero]
      simpa using hbk
  · rw [if_neg h]
    exact hbk

theorem SlidingWindowLimiter.run_hist (s : SlidingWindowLimiter) (hL : 1 ≤ s.limit)
    (ttl : Int) (calls : List Call) (c : Cache) (hist : List (Call × Decision))
    (tl : Int) (httl : c.cleanupInterval = ttl) (hinv : s.HistInv c hist tl)
    (hb : s.Bounded hist)
    (hsorted : (tl :: calls.map Call.now).Pairwise (fun a b => a ≤ b))
    (htimely : ∀ call ∈ calls, call.now ≤ call.setNow ∧
      call.getNow - call.now ≤ ttl - s.window) :
    ∃ ds c1, s.run c calls = some (ds, c1) ∧ s.Bounded (hist ++ calls.zip ds) ∧
      ∀ pre call post, calls = pre ++ call :: post →
        ∃ dpre d dpost, ds = dpre ++ d :: dpost ∧ dpre.length = pre.length ∧
          s.Exact (hist ++ pre.zip dpre) call.key call.now d := by
  induction calls generalizing c hist tl with
  | nil =>
    refine ⟨[], c, rfl, by simpa using hb, ?_⟩
    intro pre call post h
    cases pre <;> simp at h
  | cons call0 rest ih =>
    rw [List.map_cons, List.pairwise_cons] at hsorted
    have ht0 : tl ≤ call0.now := hsorted.1 call0.now (List.mem_cons_self _ _)
    obtain ⟨hset0, hlag0⟩ := htimely call0 (List.mem_cons_self _ _)
    obtain ⟨d, c1, hstep, httl1, hex, hinv1⟩ :=
      SlidingWindowLimiter.step_hist s c hist tl call0 hL hinv ht0 hset0 (by rw [httl]; exact hlag0)
    have hle0 : ∀ e ∈ hist, e.1.now ≤ call0.now := fun e he => le_trans (hinv.1 e he) ht0
    have hb1 := SlidingWindowLimiter.Bounded_snoc s hist call0 d hle0 hb hex
    obtain ⟨ds, c2, hrun, hb2, hpre⟩ := ih c1 (hist ++ [(call0, d)]) call0.now
      (by rw [httl1]; exact httl) hinv1 hb1 hsorted.2
      (fun u hu => htimely u (List.mem_cons_of_mem _ hu))
    refine ⟨d :: ds, c2, ?_, ?_, ?_⟩
    · rw [SlidingWindowLimiter.run_step s c c1 call0 d rest hstep, hrun]
      rfl
    · rw [List.zip_cons_cons]
      simpa using hb2
    · intro pre call post h
      cases pre with
      | nil =>
        simp only [List.nil_append, List.cons.injEq] at h
        obtain ⟨hc, _⟩ := h
        subst hc
        exact ⟨[], d, ds, rfl, rfl, by simpa using hex⟩
      | cons p pre1 =>
        simp only [List.cons_append, List.cons.injEq] at h
        obtain ⟨hp, hrest⟩ := h
        subst hp
        obtain ⟨dpre, d1, dpost, hds, hlen, hex1⟩ := hpre pre1 call post hrest
        refine ⟨d :: dpre, d1, dpost, by rw [hds]; rfl, by simp [hlen], ?_⟩
        rw [List.zip_cons_cons]
        simpa using hex1

theorem SlidingWindowLimiter.HistInv_NewCache (s : SlidingWindowLimiter) (ttl tl : Int) :
    s.HistInv (NewCache ttl) [] tl := by
  refine ⟨by simp, ?_⟩
  intro k now getNow _ _
  exact ⟨[], rfl, rfl⟩

theorem SlidingWindowLimiter.Bounded_nil (s : SlidingWindowLimiter) (hL : 1 ≤ s.limit) :
    s.Bounded [] := by
  intro k t
  simp only [permittedCount, permittedTimes, List.filter_nil, List.map_nil, List.length_nil,
    Nat.cast_zero]
  omega

theorem SlidingWindowLimiter.run_from_new (s : SlidingWindowLimiter) (ttl : Int)
    (calls : List Call) (hL : 1 ≤ s.limit)
    (hsorted : (calls.map Call.now).Pairwise (fun a b => a ≤ b))
    (htimely : ∀ call ∈ calls, call.now ≤ call.setNow ∧
      call.getNow - call.now ≤ ttl - s.window) :
    ∃ ds c1, s.run (NewCache ttl) calls = some (ds, c1) ∧ s.Bounded (calls.zip ds) ∧
      ∀ pre call post, calls = pre ++ call :: post →
        ∃ dpre d dpost, ds = dpre ++ d :: dpost ∧ dpre.length = pre.length ∧
          s.Exact (pre.zip dpre) call.key call.now d := by
  cases calls with
  | nil =>
    refine ⟨[], NewCache ttl, rfl, SlidingWindowLimiter.Bounded_nil s hL, ?_⟩
    intro pre call post h
    cases pre <;> simp at h
  | cons call0 rest =>
    have hs : (call0.now :: (call0 :: rest).map Call.now).Pairwise (fun a b => a ≤ b) := by
      rw [List.pairwise_cons]
      refine ⟨?_, hsorted⟩
      intro x hx
      rw [List.map_cons, List.mem_cons] at hx
      rcases hx with h | h
      · rw [h]
      · exact (List.pairwise_cons.mp hsorted).1 x h
    obtain ⟨ds, c1, hrun, hb, hpre⟩ := SlidingWindowLimiter.run_hist s hL ttl (call0 :: rest)
      (NewCache ttl) [] call0.now rfl (SlidingWindowLimiter.HistInv_NewCache s ttl call0.now)
      (SlidingWindowLimiter.Bounded_nil s hL) hs htimely
    refine ⟨ds, c1, hrun, by simpa using hb, ?_⟩
    intro pre call post h
    obtain ⟨dpre, d, dpost, h1, h2, h3⟩ := hpre pre call post h
    exact ⟨dpre, d, dpost, h1, h2, by simpa using h3⟩

theorem SlidingWindowLimiter.Allow_of_readLog (s : SlidingWindowLimiter) (c : Cache)
    (t getNow setNow : Int) (k : String) (ts : List Int) (hL : 1 ≤ s.limit)
    (hread : SlidingWindowLimiter.readLog c getNow k = some ts) :
    (((ts.filter (fun x => decide (x > t + (-s.window)))).length : Int) ≥ s.limit ∧
        ∃ o r, ts.filter (fun x => decide (x > t + (-s.window))) = o :: r ∧
          s.Allow c t getNow setNow k = some (⟨false, 0, o + s.window⟩, c)) ∨
      (((ts.filter (fun x => decide (x > t + (-s.window)))).length : Int) < s.limit ∧
        ∃ rt, s.Allow c t getNow setNow k
          = some (⟨true,
              s.limit - (((ts.filter (fun x => decide (x > t + (-s.window)))).length : Int) + 1),
              rt⟩,
            Cache.Set c setNow k
              (Any.sliding ⟨ts.filter (fun x => decide (x > t + (-s.window))) ++ [t]⟩))) := by
  rw [SlidingWindowLimiter.Allow_eq_readLog, hread]
  simp only [SlidingWindowLimiter.settle]
  by_cases hfull : ((ts.filter (fun x => decide (x > t + (-s.window)))).length : Int) ≥ s.limit
  · left
    refine ⟨hfull, ?_⟩
    rw [if_pos hfull]
    cases hP : ts.filter (fun x => decide (x > t + (-s.window))) with
    | nil =>
      rw [hP] at hfull
      simp only [List.length_nil, Nat.cast_zero] at hfull
      omega
    | cons o r => exact ⟨o, r, rfl, rfl⟩
  · right
    refine ⟨by omega, ?_⟩
    rw [if_neg hfull, List.length_append, List.length_singleton, Nat.cast_add, Nat.cast_one]
    exact ⟨_, rfl⟩

theorem SlidingWindowLimiter.readLog_of_AllSliding (c : Cache) (t : Int) (k : String)
    (h : SlidingWindowLimiter.AllSliding c) :
    ∃ ts, SlidingWindowLimiter.readLog c t k = some ts := by
  unfold SlidingWindowLimiter.readLog
  cases hG : Cache.Get c t k with
  | none => exact ⟨[], rfl⟩
  | some v =>
    obtain ⟨item, hitem, _, hval⟩ := (Cache.Get_eq_some_iff c t k v).mp hG
    obtain ⟨ts, hts⟩ := h k item hitem
    rw [hts] at hval
    subst hval
    exact ⟨ts, rfl⟩

theorem SlidingWindowLimiter.AllSliding_Set (c : Cache) (t : Int) (k : String) (l : List Int)
    (h : SlidingWindowLimiter.AllSliding c) :
    SlidingWindowLimiter.AllSliding (Cache.Set c t k (Any.sliding ⟨l⟩)) := by
  intro k' item hitem
  simp only [Cache.Set, mapGet_mapSet] at hitem
  by_cases hk : k = k'
  · rw [if_pos hk] at hitem
    cases hitem
    exact ⟨l, rfl⟩
  · rw [if_neg hk] at hitem
    exact h k' item hitem

theorem SlidingWindowLimiter.Allow_log_shape (s : SlidingWindowLimiter) (c : Cache)
    (now getNow setNow : Int) (k : String) (hL : 1 ≤ s.limit)
    (hinv : SlidingWindowLimiter.AllSliding c) :
    ∃ d c1, s.Allow c now getNow setNow k = some (d, c1) ∧
      SlidingWindowLimiter.AllSliding c1 ∧
      0 ≤ d.remaining ∧ (d.allowed = false → d.remaining = 0) ∧
      (d.allowed = true → d.remaining ≤ s.limit - 1 ∧
        ∃ ts e, mapGet c1.items k = some ⟨Any.sliding ⟨ts⟩, e⟩ ∧
          d.remaining = s.limit - (ts.length : Int)) := by
  obtain ⟨ts, hread⟩ := SlidingWindowLimiter.readLog_of_AllSliding c getNow k hinv
  rcases SlidingWindowLimiter.Allow_of_readLog s c now getNow setNow k ts hL hread with
    ⟨_, o, r, _, hA⟩ | ⟨hlt, rt, hA⟩
  · exact ⟨_, _, hA, hinv, le_refl _, fun _ => rfl, fun h => by cases h⟩
  · refine ⟨_, _, hA, SlidingWindowLimiter.AllSliding_Set c setNow k _ hinv, ?_,
      fun h => (by cases h), fun _ => ⟨?_, ?_⟩⟩
    · show 0 ≤ s.limit - (((ts.filter (fun x => decide (x > now + (-s.window)))).length : Int) + 1)
      omega
    · show s.limit - (((ts.filter (fun x => decide (x > now + (-s.window)))).length : Int) + 1)
        ≤ s.limit - 1
      omega
    · refine ⟨ts.filter (fun x => decide (x > now + (-s.window))) ++ [now],
        setNow + c.cleanupInterval, by simp [Cache.Set, mapGet_mapSet], ?_⟩
      show s.limit - (((ts.filter (fun x => decide (x > now + (-s.window)))).length : Int) + 1)
        = s.limit - ((ts.filter (fun x => decide (x > now + (-s.window))) ++ [now]).length : Int)
      simp only [List.length_append, List.length_singleton, Nat.cast_add, Nat.cast_one]

theorem SlidingWindowLimiter.run_AllSliding (s : SlidingWindowLimiter) (hL : 1 ≤ s.limit)
    (calls : List Call) (c c1 : Cache) (ds : List Decision)
    (hinv : SlidingWindowLimiter.AllSliding c)
    (hrun : s.run c calls = some (ds, c1)) : SlidingWindowLimiter.AllSliding c1 := by
  induction calls generalizing c ds with
  | nil =>
    simp only [SlidingWindowLimiter.run, Option.some.injEq, Prod.mk.injEq] at hrun
    rw [← hrun.2]
    exact hinv
  | cons call rest ih =>
    obtain ⟨d, c2, hstep, hinv2, _⟩ := SlidingWindowLimiter.Allow_log_shape s c call.now
      call.getNow call.setNow call.key hL hinv
    rw [SlidingWindowLimiter.run_step s c c2 call d rest hstep] at hrun
    cases hR : s.run c2 rest with
    | none => simp [hR] at hrun
    | some r =>
      obtain ⟨ds2, c3⟩ := r
      simp only [hR, Option.map_some', Option.some.injEq, Prod.mk.injEq] at hrun
      obtain ⟨_, rfl⟩ := hrun
      exact ih c2 ds2 hinv2 hR

theorem SlidingWindowLimiter.AllSliding_NewCache (ttl : Int) :
    SlidingWindowLimiter.AllSliding (NewCache ttl) := by
  intro k item h
  simp [NewCache, mapGet] at h

theorem SlidingWindowLimiter.readLog_of_LogInv (s : SlidingWindowLimiter) (c : Cache)
    (tl t : Int) (k : String) (hL : 1 ≤ s.limit) (h : s.LogInv c tl) :
    ∃ ts, SlidingWindowLimiter.readLog c t k = some ts ∧ ts.Pairwise (fun a b => a ≤ b) ∧
      (∀ x ∈ ts, x ≤ tl) ∧ (ts.length : Int) ≤ s.limit ∧
      (ts ≠ [] → ∃ e, mapGet c.items k = some ⟨Any.sliding ⟨ts⟩, e⟩) := by
  unfold SlidingWindowLimiter.readLog
  cases hG : Cache.Get c t k with
  | none =>
    refine ⟨[], rfl, List.Pairwise.nil, by simp, ?_, fun h => absurd rfl h⟩
    simp only [List.length_nil, Nat.cast_zero]
    omega
  | some v =>
    obtain ⟨item, hitem, _, hval⟩ := (Cache.Get_eq_some_iff c t k v).mp hG
    obtain ⟨ts, hts, hsorted, hle, hlen⟩ := h k item hitem
    rw [hts] at hval
    subst hval
    refine ⟨ts, rfl, hsorted, hle, hlen, fun _ => ⟨item.Expiration, ?_⟩⟩
    rw [hitem, ← hts]

theorem SlidingWindowLimiter.LogInv_mono (s : SlidingWindowLimiter) (c : Cache) (tl t : Int)
    (h : s.LogInv c tl) (ht : tl ≤ t) : s.LogInv c t := by
  intro k item hitem
  obtain ⟨ts, hts, hsorted, hle, hlen⟩ := h k item hitem
  exact ⟨ts, hts, hsorted, fun x hx => le_trans (hle x hx) ht, hlen⟩

theorem SlidingWindowLimiter.Allow_LogInv (s : SlidingWindowLimiter) (c c1 : Cache)
    (tl t getNow setNow : Int) (k : String) (d : Decision) (hL : 1 ≤ s.limit)
    (h : s.LogInv c tl) (ht : tl ≤ t)
    (hA : s.Allow c t getNow setNow k = some (d, c1)) : s.LogInv c1 t := by
  obtain ⟨ts, hread, hsorted, hle, _, _⟩ :=
    SlidingWindowLimiter.readLog_of_LogInv s c tl getNow k hL h
  rcases SlidingWindowLimiter.Allow_of_readLog s c t getNow setNow k ts hL hread with
    ⟨_, o, r, _, hA1⟩ | ⟨hlt, rt, hA1⟩
  · rw [hA1] at hA
    simp only [Option.some.injEq, Prod.mk.injEq] at hA
    rw [← hA.2]
    exact SlidingWindowLimiter.LogInv_mono s c tl t h ht
  · rw [hA1] at hA
    simp only [Option.some.injEq, Prod.mk.injEq] at hA
    rw [← hA.2]
    intro k' item hitem
    simp only [Cache.Set, mapGet_mapSet] at hitem
    by_cases hk : k = k'
    · rw [if_pos hk] at hitem
      cases hitem
      refine ⟨_, rfl, ?_, ?_, ?_⟩
      · rw [List.pairwise_append]
        refine ⟨hsorted.filter _, List.pairwise_singleton _ _, ?_⟩
        intro a ha b hb
        rw [List.mem_singleton] at hb
        have := hle a (List.mem_filter.mp ha).1
        omega
      · intro x hx
        rcases List.mem_append.mp hx with hx1 | hx1
        · have := hle x (List.mem_filter.mp hx1).1
          omega
        · rw [List.mem_singleton] at hx1
          omega
      · simp only [List.length_append, List.length_singleton, Nat.cast_add, Nat.cast_one]
        omega
    · rw [if_neg hk] at hitem
      exact SlidingWindowLimiter.LogInv_mono s c tl t h ht k' item hitem

theorem SlidingWindowLimiter.run_LogInv (s : SlidingWindowLimiter) (hL : 1 ≤ s.limit)
    (calls : List Call) (c c1 : Cache) (ds : List Decision) (tl t : Int)
    (hinv : s.LogInv c tl)
    (hsorted : (tl :: calls.map Call.now).Pairwise (fun a b => a ≤ b))
    (hlast : ∀ x ∈ tl :: calls.map Call.now, x ≤ t)
    (hrun : s.run c calls = some (ds, c1)) : s.LogInv c1 t := by
  induction calls generalizing c ds tl with
  | nil =>
    simp only [SlidingWindowLimiter.run, Option.some.injEq, Prod.mk.injEq] at hrun
    rw [← hrun.2]
    exact SlidingWindowLimiter.LogInv_mono s c tl t hinv (hlast tl (List.mem_cons_self _ _))
  | cons call rest ih =>
    rw [List.map_cons, List.pairwise_cons] at hsorted
    have ht0 : tl ≤ call.now := hsorted.1 call.now (List.mem_cons_self _ _)
    cases hA : s.Allow c call.now call.getNow call.setNow call.key with
    | none => simp [SlidingWindowLimiter.run, hA] at hrun
    | some r =>
      obtain ⟨d, c2⟩ := r
      rw [SlidingWindowLimiter.run_step s c c2 call d rest hA] at hrun
      cases hR : s.run c2 rest with
      | none => simp [hR] at hrun
      | some r2 =>
        obtain ⟨ds2, c3⟩ := r2
        simp only [hR, Option.map_some', Option.some.injEq, Prod.mk.injEq] at hrun
        obtain ⟨_, rfl⟩ := hrun
        exact ih c2 ds2 call.now
          (SlidingWindowLimiter.Allow_LogInv s c c2 tl call.now call.getNow call.setNow
            call.key d hL hinv ht0 hA)
          hsorted.2 (fun x hx => hlast x (List.mem_cons_of_mem _ hx)) hR

theorem SlidingWindowLimiter.LogInv_NewCache (s : SlidingWindowLimiter) (ttl tl : Int) :
    s.LogInv (NewCache ttl) tl := by
  intro k item h
  simp [NewCache, mapGet] at h

theorem SlidingWindowLimiter.Allow_result (s : SlidingWindowLimiter) (c c1 : Cache)
    (t getNow setNow : Int) (k : String) (d : Decision)
    (hA : s.Allow c t getNow setNow k = some (d, c1)) :
    (d.allowed = false ∧ c1 = c) ∨
      (d.allowed = true ∧ ∃ v, c1 = Cache.Set c setNow k v) := by
  rw [SlidingWindowLimiter.Allow_eq_readLog] at hA
  cases hread : SlidingWindowLimiter.readLog c getNow k with
  | none => simp [hread] at hA
  | some ts =>
    simp only [hread, SlidingWindowLimiter.settle] at hA
    by_cases hfull :
        ((ts.filter (fun x => decide (x > t + (-s.window)))).length : Int) ≥ s.limit
    · rw [if_pos hfull] at hA
      cases hP : ts.filter (fun x => decide (x > t + (-s.window))) with
      | nil =>
        rw [hP] at hA
        cases hA
      | cons o r =>
        rw [hP] at hA
        simp only [Option.some.injEq, Prod.mk.injEq] at hA
        left
        rw [← hA.1, ← hA.2]
        exact ⟨rfl, rfl⟩
    · rw [if_neg hfull] at hA
      simp only [Option.some.injEq, Prod.mk.injEq] at hA
      right
      rw [← hA.1, ← hA.2]
      exact ⟨rfl, _, rfl⟩

theorem SlidingWindowLimiter.run_frame (s : SlidingWindowLimiter) (k : String)
    (calls : List Call) (c c1 : Cache) (ds : List Decision)
    (hrun : s.run c calls = some (ds, c1))
    (hquiet : ∀ e ∈ calls.zip ds, e.1.key = k → e.2.allowed = false) :
    mapGet c1.items k = mapGet c.items k := by
  induction calls generalizing c ds with
  | nil =>
    simp only [SlidingWindowLimiter.run, Option.some.injEq, Prod.mk.injEq] at hrun
    rw [← hrun.2]
  | cons call rest ih =>
    cases hA : s.Allow c call.now call.getNow call.setNow call.key with
    | none => simp [SlidingWindowLimiter.run, hA] at hrun
    | some r =>
      obtain ⟨d, c2⟩ := r
      rw [SlidingWindowLimiter.run_step s c c2 call d rest hA] at hrun
      cases hR : s.run c2 rest with
      | none => simp [hR] at hrun
      | some r2 =>
        obtain ⟨ds2, c3⟩ := r2
        simp only [hR, Option.map_some', Option.some.injEq, Prod.mk.injEq] at hrun
        obtain ⟨rfl, rfl⟩ := hrun
        rw [List.zip_cons_cons] at hquiet
        have hrest := ih c2 ds2 hR (fun e he => hquiet e (List.mem_cons_of_mem _ he))
        rw [hrest]
        rcases SlidingWindowLimiter.Allow_result s c c2 call.now call.getNow call.setNow
          call.key d hA with ⟨_, hc⟩ | ⟨hd, v, hc⟩
        · rw [hc]
        · have hne : call.key ≠ k := by
            intro hk
            have := hquiet (call, d) (List.mem_cons_self _ _) hk
            rw [hd] at this
            cases this
          rw [hc]
          simp [Cache.Set, mapGet_mapSet, hne]

theorem SlidingWindowLimiter.readLog_of_entry (c : Cache) (t : Int) (k : String)
    (ts : List Int) (e : Int) (h : mapGet c.items k = some ⟨Any.sliding ⟨ts⟩, e⟩) :
    SlidingWindowLimiter.readLog c t k = some (if t > e then [] else ts) := by
  unfold SlidingWindowLimiter.readLog Cache.Get
  rw [h]
  by_cases hexp : t > e
  · simp [hexp]
  · simp [hexp]

theorem SlidingWindowLimiter.permitted_at_reset (s : SlidingWindowLimiter) (c2 : Cache)
    (k : String) (ts r : List Int) (e t o getNow setNow : Int) (hL : 1 ≤ s.limit)
    (hentry : mapGet c2.items k = some ⟨Any.sliding ⟨ts⟩, e⟩)
    (hlen : (ts.length : Int) ≤ s.limit)
    (hP : ts.filter (fun x => decide (x > t + (-s.window))) = o :: r) :
    ∃ d2 c3, s.Allow c2 (o + s.window) getNow setNow k = some (d2, c3) ∧
      d2.allowed = true := by
  have hread := SlidingWindowLimiter.readLog_of_entry c2 getNow k ts e hentry
  have ho : o > t + (-s.window) := by
    have : o ∈ ts.filter (fun x => decide (x > t + (-s.window))) := by
      rw [hP]
      exact List.mem_cons_self _ _
    simpa using (List.mem_filter.mp this).2
  have hshort : (((if getNow > e then [] else ts).filter
      (fun x => decide (x > o + s.window + (-s.window)))).length : Int) < s.limit := by
    by_cases hexp : getNow > e
    · rw [if_pos hexp]
      simp only [List.filter_nil, List.length_nil, Nat.cast_zero]
      omega
    · rw [if_neg hexp]
      have h1 : ts.filter (fun x => decide (x > o + s.window + (-s.window)))
          = (ts.filter (fun x => decide (x > t + (-s.window)))).filter
              (fun x => decide (x > o + s.window + (-s.window))) := by
        rw [List.filter_filter]
        apply List.filter_congr
        intro x _
        rw [Bool.eq_iff_iff]
        simp only [Bool.and_eq_true, decide_eq_true_eq]
        constructor
        · intro h
          exact ⟨h, by omega⟩
        · intro h
          exact h.1
      rw [h1, hP, List.filter_cons_of_neg (by simp)]
      have h3 := List.length_filter_le (fun x => decide (x > o + s.window + (-s.window))) r
      have h4 := List.length_filter_le (fun x => decide (x > t + (-s.window))) ts
      rw [hP, List.length_cons] at h4
      omega
  rcases SlidingWindowLimiter.Allow_of_readLog s c2 (o + s.window) getNow setNow k _ hL
      hread with
    ⟨hfull, _⟩ | ⟨_, rt, hA⟩
  · omega
  · exact ⟨_, _, hA, rfl⟩

/-! ## Frame and counter: lemmas -/

theorem FixedWindowLimiter.settle_outcome (f : FixedWindowLimiter) (c : Cache) (t : Int)
    (k : String) (data : FixedWindowData) :
    ((f.settle c t k data).1.allowed = false ∧ (f.settle c t k data).2 = c) ∨
      ((f.settle c t k data).1.allowed = true ∧
        (f.settle c t k data).2 = Cache.Set c t k (Any.fixed ⟨data.Count + 1, data.WindowStart⟩)) := by
  by_cases hfull : data.Count ≥ f.limit
  · left
    simp [FixedWindowLimiter.settle, hfull]
  · right
    simp [FixedWindowLimiter.settle, hfull]

theorem FixedWindowLimiter.Allow_outcome (f : FixedWindowLimiter) (c c1 : Cache)
    (now getNow t : Int) (k : String) (d : Decision)
    (hA : f.Allow c now getNow t k = some (d, c1)) :
    (d.allowed = false ∧ c1 = c) ∨ (d.allowed = true ∧ ∃ v, c1 = Cache.Set c t k v) := by
  have key : ∀ data : FixedWindowData, some (f.settle c t k data) = some (d, c1) →
      (d.allowed = false ∧ c1 = c) ∨ (d.allowed = true ∧ ∃ v, c1 = Cache.Set c t k v) := by
    intro data h
    simp only [Option.some.injEq] at h
    rcases FixedWindowLimiter.settle_outcome f c t k data with ⟨h1, h2⟩ | ⟨h1, h2⟩
    · rw [h] at h1 h2
      exact Or.inl ⟨h1, h2⟩
    · rw [h] at h1 h2
      exact Or.inr ⟨h1, _, h2⟩
  unfold FixedWindowLimiter.Allow at hA
  cases hG : Cache.Get c getNow k with
  | none =>
    rw [hG] at hA
    exact key _ hA
  | some v =>
    rw [hG] at hA
    cases v with
    | sliding data => cases hA
    | fixed data =>
      simp only at hA
      by_cases hel : now - data.WindowStart ≥ f.window
      · rw [if_pos hel] at hA
        exact key _ hA
      · rw [if_neg hel] at hA
        exact key _ hA

theorem Cache.frame_of_outcome (c c1 : Cache) (t : Int) (k : String) (d : Decision)
    (h : (d.allowed = false ∧ c1 = c) ∨ (d.allowed = true ∧ ∃ v, c1 = Cache.Set c t k v)) :
    c1.cleanupInterval = c.cleanupInterval ∧
      (∀ k', k' ≠ k → mapGet c1.items k' = mapGet c.items k') ∧
      (d.allowed = false → c1 = c) ∧
      (d.allowed = true → c1.totalRequests = c.totalRequests + 1 ∧
        ∃ v, mapGet c1.items k = some ⟨v, t + c.cleanupInterval⟩) := by
  rcases h with ⟨hd, hc⟩ | ⟨hd, v, hc⟩
  · subst hc
    refine ⟨rfl, fun _ _ => rfl, fun _ => rfl, fun h => ?_⟩
    rw [hd] at h
    cases h
  · subst hc
    refine ⟨rfl, ?_, fun h => ?_, fun _ => ⟨rfl, v, ?_⟩⟩
    · intro k' hk
      have hne : k ≠ k' := fun e => hk e.symm
      simp [Cache.Set, mapGet_mapSet, hne]
    · rw [hd] at h
      cases h
    · simp [Cache.Set, mapGet_mapSet]

theorem StoreOp.totalRequests_apply (c : Cache) (op : StoreOp) :
    (StoreOp.apply c op).totalRequests
      = c.totalRequests + (match op with | StoreOp.set _ _ _ => 1 | _ => 0) := by
  cases op <;> simp [StoreOp.apply, Cache.Set, Cache.Delete, Cache.Clear, Cache.cleanup]

theorem SysOp.totalRequests_apply_le (c : Cache) (op : SysOp) :
    c.totalRequests ≤ (SysOp.apply c op).totalRequests := by
  cases op with
  | store op =>
    show c.totalRequests ≤ (StoreOp.apply c op).totalRequests
    rw [StoreOp.totalRequests_apply]
    cases op <;> simp
  | fixedAllow f call =>
    simp only [SysOp.apply]
    cases hA : f.Allow c call.now call.getNow call.setNow call.key with
    | none => exact le_refl _
    | some r =>
      obtain ⟨d, c1⟩ := r
      rcases FixedWindowLimiter.Allow_outcome f c c1 call.now call.getNow call.setNow call.key
        d hA with ⟨_, hc⟩ | ⟨_, v, hc⟩
      · rw [hc]
      · rw [hc]
        simp [Cache.Set]
  | slidingAllow s call =>
    simp only [SysOp.apply]
    cases hA : s.Allow c call.now call.getNow call.setNow call.key with
    | none => exact le_refl _
    | some r =>
      obtain ⟨d, c1⟩ := r
      rcases SlidingWindowLimiter.Allow_result s c c1 call.now call.getNow call.setNow call.key
        d hA with ⟨_, hc⟩ | ⟨_, v, hc⟩
      · rw [hc]
      · rw [hc]
        simp [Cache.Set]

theorem SysOp.totalRequests_applyAll_le (ops : List SysOp) (c : Cache) :
    c.totalRequests ≤ (SysOp.applyAll c ops).totalRequests := by
  induction ops generalizing c with
  | nil => exact le_refl _
  | cons op rest ih =>
    exact le_trans (SysOp.totalRequests_apply_le c op) (ih (SysOp.apply c op))

/-! ## The decision depends on the store through `Cache.Get` only -/

theorem FixedWindowLimiter.settle_eq_commit (f : FixedWindowLimiter) (c : Cache) (now : Int)
    (k : String) (data : FixedWindowData) :
    f.settle c now k data = Cache.commit c now k (f.outcomeOf data) := by
  unfold FixedWindowLimiter.settle FixedWindowLimiter.outcomeOf Cache.commit
  by_cases hfull : data.Count ≥ f.limit
  · simp [hfull]
  · simp [hfull]

theorem FixedWindowLimiter.Allow_eq_outcome (f : FixedWindowLimiter) (c : Cache)
    (now getNow setNow : Int) (k : String) :
    f.Allow c now getNow setNow k
      = (f.outcome now (Cache.Get c getNow k)).map (Cache.commit c setNow k) := by
  unfold FixedWindowLimiter.Allow FixedWindowLimiter.outcome
  cases hG : Cache.Get c getNow k with
  | none => simp [FixedWindowLimiter.settle_eq_commit]
  | some v =>
    cases v with
    | sliding data => rfl
    | fixed data =>
      by_cases hel : now - data.WindowStart ≥ f.window
      · simp [hel, FixedWindowLimiter.settle_eq_commit]
      · simp [hel, FixedWindowLimiter.settle_eq_commit]

theorem SlidingWindowLimiter.settle_eq_commit_log (s : SlidingWindowLimiter) (c : Cache)
    (now setNow : Int) (k : String) (ts : List Int) :
    s.settle c now setNow k ts = (s.outcomeOf now ts).map (Cache.commit c setNow k) := by
  unfold SlidingWindowLimiter.settle SlidingWindowLimiter.outcomeOf
  by_cases hfull : (ts.length : Int) ≥ s.limit
  · rw [if_pos hfull, if_pos hfull]
    cases ts with
    | nil => rfl
    | cons o r => rfl
  · rw [if_neg hfull, if_neg hfull]
    rfl

theorem SlidingWindowLimiter.Allow_eq_outcome_log (s : SlidingWindowLimiter) (c : Cache)
    (now getNow setNow : Int) (k : String) :
    s.Allow c now getNow setNow k
      = (s.outcome now (Cache.Get c getNow k)).map (Cache.commit c setNow k) := by
  unfold SlidingWindowLimiter.Allow SlidingWindowLimiter.outcome
  cases hG : Cache.Get c getNow k with
  | none => exact SlidingWindowLimiter.settle_eq_commit_log s c now setNow k []
  | some v =>
    cases v with
    | fixed data => rfl
    | sliding data => exact SlidingWindowLimiter.settle_eq_commit_log s c now setNow k _

theorem Cache.SameReads_commit (c c' : Cache) (tl t : Int) (k : String)
    (r : Decision × Option Any) (h : Cache.SameReads tl c c') :
    (Cache.commit c t k r).1 = (Cache.commit c' t k r).1 ∧
      Cache.SameReads tl (Cache.commit c t k r).2 (Cache.commit c' t k r).2 := by
  obtain ⟨d, w⟩ := r
  obtain ⟨httl, hget⟩ := h
  cases w with
  | none => exact ⟨rfl, httl, hget⟩
  | some v =>
    refine ⟨rfl, httl, ?_⟩
    intro k' t' ht'
    simp only [Cache.commit]
    by_cases hk : k = k'
    · subst hk
      rw [Cache.Get_Set_same, Cache.Get_Set_same, httl]
    · rw [Cache.Get_Set_other c t t' k k' v hk, Cache.Get_Set_other c' t t' k k' v hk]
      exact hget k' t' ht'

theorem Cache.SameReads_of_cleanup (c : Cache) (t : Int) (hWF : Cache.WF c) :
    Cache.SameReads t (Cache.cleanup c t) c :=
  ⟨rfl, fun k t' ht' => Cache.Get_cleanup c t t' k hWF ht'⟩

theorem FixedWindowLimiter.run_SameReads (f : FixedWindowLimiter)
    (calls : List Call) (c c' : Cache) (tl : Int) (h : Cache.SameReads tl c c')
    (hlater : ∀ call ∈ calls, tl ≤ call.getNow) :
    (f.run c calls).map Prod.fst = (f.run c' calls).map Prod.fst := by
  induction calls generalizing c c' with
  | nil => rfl
  | cons call rest ih =>
    have ht : tl ≤ call.getNow := hlater call (List.mem_cons_self _ _)
    simp only [FixedWindowLimiter.run]
    rw [FixedWindowLimiter.Allow_eq_outcome f c call.now call.getNow call.setNow call.key,
      FixedWindowLimiter.Allow_eq_outcome f c' call.now call.getNow call.setNow call.key,
      h.2 call.key call.getNow ht]
    cases f.outcome call.now (Cache.Get c' call.getNow call.key) with
    | none => rfl
    | some r =>
      obtain ⟨hd, hs⟩ := Cache.SameReads_commit c c' tl call.setNow call.key r h
      have hrest := ih (Cache.commit c call.setNow call.key r).2
        (Cache.commit c' call.setNow call.key r).2 hs
        (fun u hu => hlater u (List.mem_cons_of_mem _ hu))
      simp only [Option.map_some']
      cases h1 : f.run (Cache.commit c call.setNow call.key r).2 rest with
      | none =>
        rw [h1] at hrest
        cases h2 : f.run (Cache.commit c' call.setNow call.key r).2 rest with
        | none => rfl
        | some r2 =>
          rw [h2] at hrest
          cases hrest
      | some r1 =>
        rw [h1] at hrest
        cases h2 : f.run (Cache.commit c' call.setNow call.key r).2 rest with
        | none =>
          rw [h2] at hrest
          cases hrest
        | some r2 =>
          rw [h2] at hrest
          simp only [Option.map_some', Option.some.injEq] at hrest ⊢
          rw [hd, hrest]

theorem SlidingWindowLimiter.run_SameReads_log (s : SlidingWindowLimiter)
    (calls : List Call) (c c' : Cache) (tl : Int) (h : Cache.SameReads tl c c')
    (hlater : ∀ call ∈ calls, tl ≤ call.getNow) :
    (s.run c calls).map Prod.fst = (s.run c' calls).map Prod.fst := by
  induction calls generalizing c c' with
  | nil => rfl
  | cons call rest ih =>
    have ht : tl ≤ call.getNow := hlater call (List.mem_cons_self _ _)
    simp only [SlidingWindowLimiter.run]
    rw [SlidingWindowLimiter.Allow_eq_outcome_log s c call.now call.getNow call.setNow call.key,
      SlidingWindowLimiter.Allow_eq_outcome_log s c' call.now call.getNow call.setNow call.key,
      h.2 call.key call.getNow ht]
    cases s.outcome call.now (Cache.Get c' call.getNow call.key) with
    | none => rfl
    | some r =>
      obtain ⟨hd, hs⟩ := Cache.SameReads_commit c c' tl call.setNow call.key r h
      have hrest := ih (Cache.commit c call.setNow call.key r).2
        (Cache.commit c' call.setNow call.key r).2 hs
        (fun u hu => hlater u (List.mem_cons_of_mem _ hu))
      simp only [Option.map_some']
      cases h1 : s.run (Cache.commit c call.setNow call.key r).2 rest with
      | none =>
        rw [h1] at hrest
        cases h2 : s.run (Cache.commit c' call.setNow call.key r).2 rest with
        | none => rfl
        | some r2 =>
          rw [h2] at hrest
          cases hrest
      | some r1 =>
        rw [h1] at hrest
        cases h2 : s.run (Cache.commit c' call.setNow call.key r).2 rest with
        | none =>
          rw [h2] at hrest
          cases hrest
        | some r2 =>
          rw [h2] at hrest
          simp only [Option.map_some', Option.some.injEq] at hrest ⊢
          rw [hd, hrest]

/-! ## No panic, and what a permitted call writes -/

theorem FixedWindowLimiter.Allow_written (f : FixedWindowLimiter) (c c1 : Cache)
    (t getNow setNow : Int) (k : String) (d : Decision)
    (hA : f.Allow c t getNow setNow k = some (d, c1)) :
    (d = (f.outcomeOf ⟨0, t⟩).1 ∧
        ((d.allowed = false ∧ c1 = c) ∨
          (d.allowed = true ∧ c1 = Cache.Set c setNow k (Any.fixed ⟨0 + 1, t⟩)))) ∨
      (∃ item cnt ws, mapGet c.items k = some item ∧ item.Value = Any.fixed ⟨cnt, ws⟩ ∧
        getNow ≤ item.Expiration ∧ ¬ t - ws ≥ f.window ∧ d = (f.outcomeOf ⟨cnt, ws⟩).1 ∧
        ((d.allowed = false ∧ c1 = c) ∨
          (d.allowed = true ∧ c1 = Cache.Set c setNow k (Any.fixed ⟨cnt + 1, ws⟩)))) := by
  have key : ∀ data : FixedWindowData,
      some (Cache.commit c setNow k (f.outcomeOf data)) = some (d, c1) →
      d = (f.outcomeOf data).1 ∧
        ((d.allowed = false ∧ c1 = c) ∨
          (d.allowed = true ∧
            c1 = Cache.Set c setNow k (Any.fixed ⟨data.Count + 1, data.WindowStart⟩))) := by
    intro data h
    simp only [Option.some.injEq] at h
    unfold FixedWindowLimiter.outcomeOf at h ⊢
    by_cases hfull : data.Count ≥ f.limit
    · rw [if_pos hfull] at h ⊢
      simp only [Cache.commit, Prod.mk.injEq] at h
      rw [← h.1, ← h.2]
      exact ⟨rfl, Or.inl ⟨rfl, rfl⟩⟩
    · rw [if_neg hfull] at h ⊢
      simp only [Cache.commit, Prod.mk.injEq] at h
      rw [← h.1, ← h.2]
      exact ⟨rfl, Or.inr ⟨rfl, rfl⟩⟩
  rw [FixedWindowLimiter.Allow_eq_outcome] at hA
  unfold FixedWindowLimiter.outcome at hA
  cases hG : Cache.Get c getNow k with
  | none =>
    rw [hG] at hA
    exact Or.inl (key ⟨0, t⟩ hA)
  | some v =>
    rw [hG] at hA
    obtain ⟨item, hitem, hlive, hval⟩ := (Cache.Get_eq_some_iff c getNow k v).mp hG
    cases v with
    | sliding data => cases hA
    | fixed data =>
      simp only at hA
      by_cases hel : t - data.WindowStart ≥ f.window
      · rw [if_pos hel] at hA
        exact Or.inl (key ⟨0, t⟩ hA)
      · rw [if_neg hel] at hA
        exact Or.inr ⟨item, data.Count, data.WindowStart, hitem, hval, hlive, hel,
          key data hA⟩

theorem FixedWindowLimiter.Allow_total (f : FixedWindowLimiter) (c : Cache)
    (t getNow setNow : Int) (k : String) (h : FixedWindowLimiter.AllFixed c) :
    ∃ d c1, f.Allow c t getNow setNow k = some (d, c1) ∧ FixedWindowLimiter.AllFixed c1 := by
  have hsome : ∃ r, f.outcome t (Cache.Get c getNow k) = some r := by
    unfold FixedWindowLimiter.outcome
    cases hG : Cache.Get c getNow k with
    | none => exact ⟨_, rfl⟩
    | some v =>
      obtain ⟨item, hitem, _, hval⟩ := (Cache.Get_eq_some_iff c getNow k v).mp hG
      obtain ⟨cnt, ws, hfix⟩ := h k item hitem
      rw [hfix] at hval
      subst hval
      simp only
      by_cases hel : t - ws ≥ f.window
      · rw [if_pos hel]
        exact ⟨_, rfl⟩
      · rw [if_neg hel]
        exact ⟨_, rfl⟩
  obtain ⟨r, hr⟩ := hsome
  have hA : f.Allow c t getNow setNow k = some (Cache.commit c setNow k r) := by
    rw [FixedWindowLimiter.Allow_eq_outcome, hr]
    rfl
  refine ⟨_, _, hA, ?_⟩
  rcases FixedWindowLimiter.Allow_written f c _ t getNow setNow k _ hA with
    ⟨_, ⟨_, hc⟩ | ⟨_, hc⟩⟩ | ⟨_, _, _, _, _, _, _, _, ⟨_, hc⟩ | ⟨_, hc⟩⟩
  · rw [hc]
    exact h
  · rw [hc]
    intro k' item hitem
    simp only [Cache.Set, mapGet_mapSet] at hitem
    by_cases hk : k = k'
    · rw [if_pos hk] at hitem
      cases hitem
      exact ⟨_, _, rfl⟩
    · rw [if_neg hk] at hitem
      exact h k' item hitem
  · rw [hc]
    exact h
  · rw [hc]
    intro k' item hitem
    simp only [Cache.Set, mapGet_mapSet] at hitem
    by_cases hk : k = k'
    · rw [if_pos hk] at hitem
      cases hitem
      exact ⟨_, _, rfl⟩
    · rw [if_neg hk] at hitem
      exact h k' item hitem

theorem FixedWindowLimiter.run_total (f : FixedWindowLimiter) (calls : List Call)
    (c : Cache) (h : FixedWindowLimiter.AllFixed c) :
    ∃ ds c1, f.run c calls = some (ds, c1) ∧ ds.length = calls.length ∧
      FixedWindowLimiter.AllFixed c1 := by
  induction calls generalizing c with
  | nil => exact ⟨[], c, rfl, rfl, h⟩
  | cons call rest ih =>
    obtain ⟨d, c1, hA, h1⟩ :=
      FixedWindowLimiter.Allow_total f c call.now call.getNow call.setNow call.key h
    obtain ⟨ds, c2, hrun, hlen, h2⟩ := ih c1 h1
    refine ⟨d :: ds, c2, ?_, by simp [hlen], h2⟩
    rw [FixedWindowLimiter.run_cons f c c1 call d rest hA, hrun]
    rfl

theorem SlidingWindowLimiter.run_total_log (s : SlidingWindowLimiter) (hL : 1 ≤ s.limit)
    (calls : List Call) (c : Cache) (h : SlidingWindowLimiter.AllSliding c) :
    ∃ ds c1, s.run c calls = some (ds, c1) ∧ ds.length = calls.length ∧
      SlidingWindowLimiter.AllSliding c1 := by
  induction calls generalizing c with
  | nil => exact ⟨[], c, rfl, rfl, h⟩
  | cons call rest ih =>
    obtain ⟨d, c1, hA, h1, _⟩ := SlidingWindowLimiter.Allow_log_shape s c call.now
      call.getNow call.setNow call.key hL h
    obtain ⟨ds, c2, hrun, hlen, h2⟩ := ih c1 h1
    refine ⟨d :: ds, c2, ?_, by simp [hlen], h2⟩
    rw [SlidingWindowLimiter.run_step s c c1 call d rest hA, hrun]
    rfl

theorem FixedWindowLimiter.AllFixed_NewCache (ttl : Int) :
    FixedWindowLimiter.AllFixed (NewCache ttl) := by
  intro k item h
  simp [NewCache, mapGet] at h

/-! ## Stored readings never exceed the clock -/

theorem FixedWindowLimiter.Allow_StartsLE (f : FixedWindowLimiter) (c c1 : Cache)
    (t getNow setNow b : Int) (k : String) (d : Decision)
    (h : FixedWindowLimiter.StartsLE c b) (ht : t ≤ b)
    (hA : f.Allow c t getNow setNow k = some (d, c1)) : FixedWindowLimiter.StartsLE c1 b := by
  have hset : ∀ cnt ws, ws ≤ b →
      FixedWindowLimiter.StartsLE (Cache.Set c setNow k (Any.fixed ⟨cnt, ws⟩)) b := by
    intro cnt ws hws k' item hitem
    simp only [Cache.Set, mapGet_mapSet] at hitem
    by_cases hk : k = k'
    · rw [if_pos hk] at hitem
      cases hitem
      exact ⟨cnt, ws, rfl, hws⟩
    · rw [if_neg hk] at hitem
      exact h k' item hitem
  rcases FixedWindowLimiter.Allow_written f c c1 t getNow setNow k d hA with
    ⟨_, ⟨_, hc⟩ | ⟨_, hc⟩⟩ | ⟨item, cnt, ws, hitem, hval, _, _, _, ⟨_, hc⟩ | ⟨_, hc⟩⟩
  · rw [hc]
    exact h
  · rw [hc]
    exact hset _ t ht
  · rw [hc]
    exact h
  · rw [hc]
    obtain ⟨cnt', ws', hval', hws'⟩ := h k item hitem
    rw [hval] at hval'
    simp only [Any.fixed.injEq, FixedWindowData.mk.injEq] at hval'
    exact hset _ ws (by omega)

theorem FixedWindowLimiter.run_StartsLE (f : FixedWindowLimiter) (calls : List Call)
    (c c1 : Cache) (ds : List Decision) (b : Int) (h : FixedWindowLimiter.StartsLE c b)
    (hb : ∀ call ∈ calls, call.now ≤ b) (hrun : f.run c calls = some (ds, c1)) :
    FixedWindowLimiter.StartsLE c1 b := by
  induction calls generalizing c ds with
  | nil =>
    simp only [FixedWindowLimiter.run, Option.some.injEq, Prod.mk.injEq] at hrun
    rw [← hrun.2]
    exact h
  | cons call rest ih =>
    cases hA : f.Allow c call.now call.getNow call.setNow call.key with
    | none => simp [FixedWindowLimiter.run, hA] at hrun
    | some r =>
      obtain ⟨d, c2⟩ := r
      rw [FixedWindowLimiter.run_cons f c c2 call d rest hA] at hrun
      cases hR : f.run c2 rest with
      | none => simp [hR] at hrun
      | some r2 =>
        obtain ⟨ds2, c3⟩ := r2
        simp only [hR, Option.map_some', Option.some.injEq, Prod.mk.injEq] at hrun
        obtain ⟨_, rfl⟩ := hrun
        exact ih c2 ds2
          (FixedWindowLimiter.Allow_StartsLE f c c2 call.now call.getNow call.setNow b
            call.key d h (hb call (List.mem_cons_self _ _)) hA)
          (fun call hc => hb call (List.mem_cons_of_mem _ hc)) hR

theorem FixedWindowLimiter.StartsLE_NewCache (ttl b : Int) :
    FixedWindowLimiter.StartsLE (NewCache ttl) b := by
  intro k item h
  simp [NewCache, mapGet] at h

theorem FixedWindowLimiter.resetTime_bounds (f : FixedWindowLimiter) (c c1 : Cache)
    (now getNow setNow : Int) (k : String) (d : Decision) (hW : 0 < f.window)
    (h : FixedWindowLimiter.StartsLE c now)
    (hA : f.Allow c now getNow setNow k = some (d, c1)) :
    now < d.resetTime ∧ d.resetTime ≤ now + f.window := by
  have hrt : ∀ data : FixedWindowData, (f.outcomeOf data).1.resetTime
      = data.WindowStart + f.window := by
    intro data
    unfold FixedWindowLimiter.outcomeOf
    by_cases hfull : data.Count ≥ f.limit
    · rw [if_pos hfull]
    · rw [if_neg hfull]
  rcases FixedWindowLimiter.Allow_written f c c1 now getNow setNow k d hA with
    ⟨hd, _⟩ | ⟨item, cnt, ws, hitem, hval, _, hin, hd, _⟩
  · rw [hd, hrt]
    constructor
    · show now < now + f.window
      omega
    · exact le_refl _
  · obtain ⟨cnt', ws', hval', hws'⟩ := h k item hitem
    rw [hval] at hval'
    simp only [Any.fixed.injEq, FixedWindowData.mk.injEq] at hval'
    rw [hd, hrt]
    constructor
    · show now < ws + f.window
      omega
    · show ws + f.window ≤ now + f.window
      omega

theorem SlidingWindowLimiter.readLog_cases (c : Cache) (t : Int) (k : String) (ts0 : List Int)
    (h : SlidingWindowLimiter.readLog c t k = some ts0) :
    ts0 = [] ∨ ∃ item, mapGet c.items k = some item ∧ item.Value = Any.sliding ⟨ts0⟩ ∧
      t ≤ item.Expiration := by
  unfold SlidingWindowLimiter.readLog at h
  cases hG : Cache.Get c t k with
  | none =>
    rw [hG] at h
    simp only [Option.some.injEq] at h
    exact Or.inl h.symm
  | some v =>
    rw [hG] at h
    obtain ⟨item, hitem, hlive, hval⟩ := (Cache.Get_eq_some_iff c t k v).mp hG
    cases v with
    | fixed data => cases h
    | sliding data =>
      simp only [Option.some.injEq] at h
      right
      refine ⟨item, hitem, ?_, hlive⟩
      rw [hval, ← h]

theorem SlidingWindowLimiter.Allow_written_log (s : SlidingWindowLimiter) (c c1 : Cache)
    (t getNow setNow : Int) (k : String) (d : Decision)
    (hA : s.Allow c t getNow setNow k = some (d, c1)) :
    ∃ ts0, SlidingWindowLimiter.readLog c getNow k = some ts0 ∧
      ((∃ o r, ts0.filter (fun x => decide (x > t + (-s.window))) = o :: r ∧
          d = ⟨false, 0, o + s.window⟩ ∧ c1 = c) ∨
        (((ts0.filter (fun x => decide (x > t + (-s.window)))).length : Int) < s.limit ∧
          d.allowed = true ∧
          (∃ o, (ts0.filter (fun x => decide (x > t + (-s.window))) ++ [t]).head? = some o ∧
            d.resetTime = o + s.window) ∧
          c1 = Cache.Set c setNow k
            (Any.sliding ⟨ts0.filter (fun x => decide (x > t + (-s.window))) ++ [t]⟩))) := by
  rw [SlidingWindowLimiter.Allow_eq_readLog] at hA
  cases hread : SlidingWindowLimiter.readLog c getNow k with
  | none => simp [hread] at hA
  | some ts0 =>
    refine ⟨ts0, rfl, ?_⟩
    simp only [hread, SlidingWindowLimiter.settle] at hA
    by_cases hfull :
        ((ts0.filter (fun x => decide (x > t + (-s.window)))).length : Int) ≥ s.limit
    · rw [if_pos hfull] at hA
      left
      cases hP : ts0.filter (fun x => decide (x > t + (-s.window))) with
      | nil =>
        rw [hP] at hA
        cases hA
      | cons o r =>
        rw [hP] at hA
        simp only [Option.some.injEq, Prod.mk.injEq] at hA
        exact ⟨o, r, rfl, hA.1.symm, hA.2.symm⟩
    · rw [if_neg hfull] at hA
      simp only [Option.some.injEq, Prod.mk.injEq] at hA
      right
      refine ⟨by omega, ?_, ?_, hA.2.symm⟩
      · rw [← hA.1]
      · rw [← hA.1]
        cases hP : ts0.filter (fun x => decide (x > t + (-s.window))) with
        | nil => exact ⟨t, rfl, rfl⟩
        | cons o r => exact ⟨o, rfl, rfl⟩

theorem SlidingWindowLimiter.readLog_StampsLE (c : Cache) (t b : Int) (k : String)
    (ts0 : List Int) (h : SlidingWindowLimiter.StampsLE c b)
    (hread : SlidingWindowLimiter.readLog c t k = some ts0) : ∀ x ∈ ts0, x ≤ b := by
  rcases SlidingWindowLimiter.readLog_cases c t k ts0 hread with h0 | ⟨item, hitem, hval, _⟩
  · rw [h0]
    simp
  · obtain ⟨ts, hts, hle⟩ := h k item hitem
    rw [hval] at hts
    simp only [Any.sliding.injEq, SlidingWindowData.mk.injEq] at hts
    rw [hts]
    exact hle

theorem SlidingWindowLimiter.Allow_StampsLE (s : SlidingWindowLimiter) (c c1 : Cache)
    (t getNow setNow b : Int) (k : String) (d : Decision)
    (h : SlidingWindowLimiter.StampsLE c b) (ht : t ≤ b)
    (hA : s.Allow c t getNow setNow k = some (d, c1)) :
    SlidingWindowLimiter.StampsLE c1 b := by
  obtain ⟨ts0, hread, hcase⟩ :=
    SlidingWindowLimiter.Allow_written_log s c c1 t getNow setNow k d hA
  have hle := SlidingWindowLimiter.readLog_StampsLE c getNow b k ts0 h hread
  rcases hcase with ⟨_, _, _, _, hc⟩ | ⟨_, _, _, hc⟩
  · rw [hc]
    exact h
  · rw [hc]
    intro k' item hitem
    simp only [Cache.Set, mapGet_mapSet] at hitem
    by_cases hk : k = k'
    · rw [if_pos hk] at hitem
      cases hitem
      refine ⟨_, rfl, ?_⟩
      intro x hx
      rcases List.mem_append.mp hx with hx1 | hx1
      · exact hle x (List.mem_filter.mp hx1).1
      · rw [List.mem_singleton] at hx1
        omega
    · rw [if_neg hk] at hitem
      exact h k' item hitem

theorem SlidingWindowLimiter.run_StampsLE (s : SlidingWindowLimiter)
    (calls : List Call) (c c1 : Cache) (ds : List Decision) (b : Int)
    (h : SlidingWindowLimiter.StampsLE c b) (hb : ∀ call ∈ calls, call.now ≤ b)
    (hrun : s.run c calls = some (ds, c1)) : SlidingWindowLimiter.StampsLE c1 b := by
  induction calls generalizing c ds with
  | nil =>
    simp only [SlidingWindowLimiter.run, Option.some.injEq, Prod.mk.injEq] at hrun
    rw [← hrun.2]
    exact h
  | cons call rest ih =>
    cases hA : s.Allow c call.now call.getNow call.setNow call.key with
    | none => simp [SlidingWindowLimiter.run, hA] at hrun
    | some r =>
      obtain ⟨d, c2⟩ := r
      rw [SlidingWindowLimiter.run_step s c c2 call d rest hA] at hrun
      cases hR : s.run c2 rest with
      | none => simp [hR] at hrun
      | some r2 =>
        obtain ⟨ds2, c3⟩ := r2
        simp only [hR, Option.map_some', Option.some.injEq, Prod.mk.injEq] at hrun
        obtain ⟨_, rfl⟩ := hrun
        exact ih c2 ds2
          (SlidingWindowLimiter.Allow_StampsLE s c c2 call.now call.getNow call.setNow b
            call.key d h (hb call (List.mem_cons_self _ _)) hA)
          (fun call hc => hb call (List.mem_cons_of_mem _ hc)) hR

theorem SlidingWindowLimiter.StampsLE_NewCache (ttl b : Int) :
    SlidingWindowLimiter.StampsLE (NewCache ttl) b := by
  intro k item h
  simp [NewCache, mapGet] at h

theorem SlidingWindowLimiter.resetTime_bounds_log (s : SlidingWindowLimiter) (c c1 : Cache)
    (now getNow setNow : Int) (k : String) (d : Decision) (hW : 0 < s.window)
    (h : SlidingWindowLimiter.StampsLE c now)
    (hA : s.Allow c now getNow setNow k = some (d, c1)) :
    now < d.resetTime ∧ d.resetTime ≤ now + s.window := by
  obtain ⟨ts0, hread, hcase⟩ :=
    SlidingWindowLimiter.Allow_written_log s c c1 now getNow setNow k d hA
  have hle := SlidingWindowLimiter.readLog_StampsLE c getNow now k ts0 h hread
  have hP : ∀ x ∈ ts0.filter (fun x => decide (x > now + (-s.window))),
      x > now + (-s.window) ∧ x ≤ now := by
    intro x hx
    have hx' := List.mem_filter.mp hx
    exact ⟨by simpa using hx'.2, hle x hx'.1⟩
  rcases hcase with ⟨o, r, hPo, hd, _⟩ | ⟨_, _, ⟨o, ho, hrt⟩, _⟩
  · have ho := hP o (by rw [hPo]; exact List.mem_cons_self _ _)
    rw [hd]
    constructor
    · show now < o + s.window
      omega
    · show o + s.window ≤ now + s.window
      omega
  · have hmem : o ∈ ts0.filter (fun x => decide (x > now + (-s.window))) ++ [now] :=
      List.mem_of_mem_head? ho
    rw [hrt]
    rcases List.mem_append.mp hmem with h1 | h1
    · have := hP o h1
      omega
    · rw [List.mem_singleton] at h1
      omega

/-! ## Stored logs after a permitted call -/

theorem SlidingWindowLimiter.LogInv_of_run (s : SlidingWindowLimiter) (hL : 1 ≤ s.limit)
    (ttl : Int) (calls : List Call) (ds : List Decision) (c : Cache) (t : Int)
    (hsorted : (calls.map Call.now ++ [t]).Pairwise (fun a b => a ≤ b))
    (hrun : s.run (NewCache ttl) calls = some (ds, c)) : s.LogInv c t := by
  rw [List.pairwise_append] at hsorted
  obtain ⟨hs1, _, hs2⟩ := hsorted
  cases calls with
  | nil =>
    simp only [SlidingWindowLimiter.run, Option.some.injEq, Prod.mk.injEq] at hrun
    rw [← hrun.2]
    exact SlidingWindowLimiter.LogInv_NewCache s ttl t
  | cons call rest =>
    refine SlidingWindowLimiter.run_LogInv s hL (call :: rest) (NewCache ttl) c ds call.now t
      (SlidingWindowLimiter.LogInv_NewCache s ttl call.now) ?_ ?_ hrun
    · rw [List.pairwise_cons]
      refine ⟨?_, hs1⟩
      intro x hx
      rw [List.map_cons, List.mem_cons] at hx
      rcases hx with h | h
      · rw [h]
      · exact (List.pairwise_cons.mp hs1).1 x h
    · intro x hx
      rw [List.mem_cons] at hx
      rcases hx with h | h
      · rw [h]
        exact hs2 call.now (by simp) t (by simp)
      · exact hs2 x h t (by simp)

theorem head_le_of_pairwise (ts : List Int) (o : Int)
    (hasc : ts.Pairwise (fun a b => a ≤ b)) (ho : ts.head? = some o) : ∀ x ∈ ts, o ≤ x := by
  cases ts with
  | nil => simp at ho
  | cons a r =>
    simp only [List.head?_cons, Option.some.injEq] at ho
    subst ho
    intro x hx
    rw [List.mem_cons] at hx
    rcases hx with h | h
    · rw [h]
    · exact (List.pairwise_cons.mp hasc).1 x h

theorem SlidingWindowLimiter.written_log_props (s : SlidingWindowLimiter) (ts0 : List Int)
    (now : Int) (hW : 0 < s.window) (hasc : ts0.Pairwise (fun a b => a ≤ b))
    (hle : ∀ x ∈ ts0, x ≤ now)
    (hlt : ((ts0.filter (fun x => decide (x > now + (-s.window)))).length : Int) < s.limit) :
    (ts0.filter (fun x => decide (x > now + (-s.window))) ++ [now]).Pairwise
        (fun a b => a ≤ b) ∧
      (ts0.filter (fun x => decide (x > now + (-s.window))) ++ [now]).getLast? = some now ∧
      (∀ x ∈ ts0.filter (fun x => decide (x > now + (-s.window))) ++ [now],
        now - s.window < x ∧ x ≤ now) ∧
      1 ≤ (ts0.filter (fun x => decide (x > now + (-s.window))) ++ [now]).length ∧
      ((ts0.filter (fun x => decide (x > now + (-s.window))) ++ [now]).length : Int)
        ≤ s.limit := by
  have hP : ∀ x ∈ ts0.filter (fun x => decide (x > now + (-s.window))),
      x > now + (-s.window) ∧ x ≤ now := by
    intro x hx
    have hx' := List.mem_filter.mp hx
    exact ⟨by simpa using hx'.2, hle x hx'.1⟩
  refine ⟨?_, ?_, ?_, ?_, ?_⟩
  · rw [List.pairwise_append]
    refine ⟨hasc.filter _, List.pairwise_singleton _ _, ?_⟩
    intro a ha b hb
    rw [List.mem_singleton] at hb
    have := hP a ha
    omega
  · simp
  · intro x hx
    rcases List.mem_append.mp hx with h | h
    · have := hP x h
      omega
    · rw [List.mem_singleton] at h
      omega
  · simp
  · simp only [List.length_append, List.length_singleton, Nat.cast_add, Nat.cast_one]
    omega

/-! ## `WindowStart` never decreases -/

theorem FixedWindowLimiter.StartsLE_mono (c : Cache) (a b : Int)
    (h : FixedWindowLimiter.StartsLE c a) (hab : a ≤ b) : FixedWindowLimiter.StartsLE c b := by
  intro k item hitem
  obtain ⟨cnt, ws, hval, hws⟩ := h k item hitem
  exact ⟨cnt, ws, hval, le_trans hws hab⟩

theorem FixedWindowLimiter.Allow_WindowStart_mono (f : FixedWindowLimiter) (c c1 : Cache)
    (tl t getNow setNow : Int) (k : String) (d : Decision)
    (h : FixedWindowLimiter.StartsLE c tl)
    (ht : tl ≤ t) (hA : f.Allow c t getNow setNow k = some (d, c1)) :
    ∀ (k' : String) (cnt ws e : Int), mapGet c.items k' = some ⟨Any.fixed ⟨cnt, ws⟩, e⟩ →
      ∃ cnt1 ws1 e1, mapGet c1.items k' = some ⟨Any.fixed ⟨cnt1, ws1⟩, e1⟩ ∧ ws ≤ ws1 := by
  intro k' cnt ws e hentry
  have hset : ∀ cnt1 ws1, ws ≤ ws1 ∨ k ≠ k' →
      ∃ cnt2 ws2 e2, mapGet (Cache.Set c setNow k (Any.fixed ⟨cnt1, ws1⟩)).items k'
        = some ⟨Any.fixed ⟨cnt2, ws2⟩, e2⟩ ∧ ws ≤ ws2 := by
    intro cnt1 ws1 hor
    by_cases hk : k = k'
    · rcases hor with hle | hne
      · exact ⟨cnt1, ws1, setNow + c.cleanupInterval,
          by simp [Cache.Set, mapGet_mapSet, hk], hle⟩
      · exact absurd hk hne
    · exact ⟨cnt, ws, e, by simp [Cache.Set, mapGet_mapSet, hk, hentry], le_refl _⟩
  rcases FixedWindowLimiter.Allow_written f c c1 t getNow setNow k d hA with
    ⟨_, ⟨_, hc⟩ | ⟨_, hc⟩⟩ | ⟨item, cnt0, ws0, hitem, hval, _, _, _, ⟨_, hc⟩ | ⟨_, hc⟩⟩
  · rw [hc]
    exact ⟨cnt, ws, e, hentry, le_refl _⟩
  · rw [hc]
    apply hset
    left
    obtain ⟨_, ws', hval', hws'⟩ := h k' _ hentry
    simp only [Any.fixed.injEq, FixedWindowData.mk.injEq] at hval'
    omega
  · rw [hc]
    exact ⟨cnt, ws, e, hentry, le_refl _⟩
  · rw [hc]
    apply hset
    by_cases hk : k = k'
    · left
      subst hk
      rw [hentry] at hitem
      simp only [Option.some.injEq] at hitem
      rw [← hitem] at hval
      simp only [Any.fixed.injEq, FixedWindowData.mk.injEq] at hval
      omega
    · exact Or.inr hk

theorem FixedWindowLimiter.run_WindowStart_mono (f : FixedWindowLimiter)
    (calls : List Call) (c c1 : Cache) (ds : List Decision) (tl : Int)
    (h : FixedWindowLimiter.StartsLE c tl)
    (hsorted : (tl :: calls.map Call.now).Pairwise (fun a b => a ≤ b))
    (hrun : f.run c calls = some (ds, c1)) :
    ∀ (k' : String) (cnt ws e : Int), mapGet c.items k' = some ⟨Any.fixed ⟨cnt, ws⟩, e⟩ →
      ∃ cnt1 ws1 e1, mapGet c1.items k' = some ⟨Any.fixed ⟨cnt1, ws1⟩, e1⟩ ∧ ws ≤ ws1 := by
  induction calls generalizing c ds tl with
  | nil =>
    simp only [FixedWindowLimiter.run, Option.some.injEq, Prod.mk.injEq] at hrun
    rw [← hrun.2]
    intro k' cnt ws e hentry
    exact ⟨cnt, ws, e, hentry, le_refl _⟩
  | cons call rest ih =>
    rw [List.map_cons, List.pairwise_cons] at hsorted
    have ht : tl ≤ call.now := hsorted.1 call.now (List.mem_cons_self _ _)
    cases hA : f.Allow c call.now call.getNow call.setNow call.key with
    | none => simp [FixedWindowLimiter.run, hA] at hrun
    | some r =>
      obtain ⟨d, c2⟩ := r
      rw [FixedWindowLimiter.run_cons f c c2 call d rest hA] at hrun
      cases hR : f.run c2 rest with
      | none => simp [hR] at hrun
      | some r2 =>
        obtain ⟨ds2, c3⟩ := r2
        simp only [hR, Option.map_some', Option.some.injEq, Prod.mk.injEq] at hrun
        obtain ⟨_, rfl⟩ := hrun
        have h2 : FixedWindowLimiter.StartsLE c2 call.now :=
          FixedWindowLimiter.Allow_StartsLE f c c2 call.now call.getNow call.setNow call.now
            call.key d (FixedWindowLimiter.StartsLE_mono c tl call.now h ht) (le_refl _) hA
        intro k' cnt ws e hentry
        obtain ⟨cnt1, ws1, e1, hentry1, hle1⟩ :=
          FixedWindowLimiter.Allow_WindowStart_mono f c c2 tl call.now call.getNow call.setNow
            call.key d h ht hA k' cnt ws e hentry
        obtain ⟨cnt2, ws2, e2, hentry2, hle2⟩ :=
          ih c2 ds2 call.now h2 hsorted.2 hR k' cnt1 ws1 e1 hentry1
        exact ⟨cnt2, ws2, e2, hentry2, le_trans hle1 hle2⟩

theorem FixedWindowLimiter.CountInv_AllFixed (f : FixedWindowLimiter) (c : Cache)
    (h : f.CountInv c) : FixedWindowLimiter.AllFixed c := by
  intro k item hitem
  obtain ⟨cnt, ws, hval, _⟩ := h k item hitem
  exact ⟨cnt, ws, hval⟩

theorem FixedWindowLimiter.run_from_new_CountInv (f : FixedWindowLimiter) (ttl : Int)
    (calls : List Call) :
    ∃ ds c, f.run (NewCache ttl) calls = some (ds, c) ∧ f.CountInv c := by
  obtain ⟨ds, c, hrun, _, _⟩ := FixedWindowLimiter.run_total f calls (NewCache ttl)
    (FixedWindowLimiter.AllFixed_NewCache ttl)
  exact ⟨ds, c, hrun, FixedWindowLimiter.run_CountInv f calls (NewCache ttl) c ds
    (FixedWindowLimiter.CountInv_NewCache f ttl) hrun⟩

/-! ## Expiry is transparent when `Cache.Get` lags by at most `TTL - window` -/

theorem FixedWindowLimiter.AllowNoExpiry_eq_outcome (f : FixedWindowLimiter) (c : Cache)
    (now setNow : Int) (k : String) :
    f.AllowNoExpiry c now setNow k
      = (f.outcome now (Cache.GetNoExpiry c k)).map (Cache.commit c setNow k) := by
  unfold FixedWindowLimiter.AllowNoExpiry FixedWindowLimiter.outcome
  cases hG : Cache.GetNoExpiry c k with
  | none => simp [FixedWindowLimiter.settle_eq_commit]
  | some v =>
    cases v with
    | sliding data => rfl
    | fixed data =>
      by_cases hel : now - data.WindowStart ≥ f.window
      · simp [hel, FixedWindowLimiter.settle_eq_commit]
      · simp [hel, FixedWindowLimiter.settle_eq_commit]

theorem SlidingWindowLimiter.AllowNoExpiry_eq_outcome_log (s : SlidingWindowLimiter)
    (c : Cache) (now setNow : Int) (k : String) :
    s.AllowNoExpiry c now setNow k
      = (s.outcome now (Cache.GetNoExpiry c k)).map (Cache.commit c setNow k) := by
  unfold SlidingWindowLimiter.AllowNoExpiry SlidingWindowLimiter.outcome
  cases hG : Cache.GetNoExpiry c k with
  | none => exact SlidingWindowLimiter.settle_eq_commit_log s c now setNow k []
  | some v =>
    cases v with
    | fixed data => rfl
    | sliding data => exact SlidingWindowLimiter.settle_eq_commit_log s c now setNow k _

theorem FixedWindowLimiter.AllowNoExpiry_eq_Allow (f : FixedWindowLimiter) (c : Cache)
    (tl t getNow setNow : Int) (k : String) (h : FixedWindowLimiter.ExpInv c tl)
    (hlag : getNow - t ≤ c.cleanupInterval - f.window) :
    f.AllowNoExpiry c t setNow k = f.Allow c t getNow setNow k := by
  rw [FixedWindowLimiter.AllowNoExpiry_eq_outcome, FixedWindowLimiter.Allow_eq_outcome]
  congr 1
  unfold Cache.GetNoExpiry Cache.Get
  cases hm : mapGet c.items k with
  | none => rfl
  | some item =>
    obtain ⟨cnt, ws, hval, _, hexp⟩ := h k item hm
    simp only
    by_cases hgone : getNow > item.Expiration
    · rw [if_pos hgone, hval]
      have hel : t - ws ≥ f.window := by omega
      simp [FixedWindowLimiter.outcome, hel]
    · rw [if_neg hgone]

theorem SlidingWindowLimiter.AllowNoExpiry_eq_Allow_log (s : SlidingWindowLimiter)
    (c : Cache) (tl t getNow setNow : Int) (k : String)
    (h : SlidingWindowLimiter.ExpInvLog c tl)
    (hlag : getNow - t ≤ c.cleanupInterval - s.window) :
    s.AllowNoExpiry c t setNow k = s.Allow c t getNow setNow k := by
  rw [SlidingWindowLimiter.AllowNoExpiry_eq_outcome_log,
    SlidingWindowLimiter.Allow_eq_outcome_log]
  congr 1
  unfold Cache.GetNoExpiry Cache.Get
  cases hm : mapGet c.items k with
  | none => rfl
  | some item =>
    obtain ⟨ts, hval, hts⟩ := h k item hm
    simp only
    by_cases hgone : getNow > item.Expiration
    · rw [if_pos hgone, hval]
      have hnil : ts.filter (fun x => decide (x > t + (-s.window))) = [] := by
        rw [List.filter_eq_nil_iff]
        intro x hx
        have := (hts x hx).2
        have hnot : ¬ x > t + (-s.window) := by omega
        simpa using hnot
      simp only [SlidingWindowLimiter.outcome]
      rw [hnil]
    · rw [if_neg hgone]

theorem FixedWindowLimiter.Allow_ExpInv (f : FixedWindowLimiter) (c c1 : Cache)
    (tl t getNow setNow : Int) (k : String) (d : Decision)
    (h : FixedWindowLimiter.ExpInv c tl) (ht : tl ≤ t) (hset : t ≤ setNow)
    (hA : f.Allow c t getNow setNow k = some (d, c1)) :
    FixedWindowLimiter.ExpInv c1 t ∧ c1.cleanupInterval = c.cleanupInterval := by
  have hmono : FixedWindowLimiter.ExpInv c t := by
    intro k' item hitem
    obtain ⟨cnt, ws, hval, hws, hexp⟩ := h k' item hitem
    exact ⟨cnt, ws, hval, by omega, hexp⟩
  have hput : ∀ cnt ws, ws ≤ t →
      FixedWindowLimiter.ExpInv (Cache.Set c setNow k (Any.fixed ⟨cnt, ws⟩)) t := by
    intro cnt ws hws k' item hitem
    simp only [Cache.Set, mapGet_mapSet] at hitem
    by_cases hk : k = k'
    · rw [if_pos hk] at hitem
      cases hitem
      exact ⟨cnt, ws, rfl, hws,
        by show ws + c.cleanupInterval ≤ setNow + c.cleanupInterval; omega⟩
    · rw [if_neg hk] at hitem
      exact hmono k' item hitem
  rcases FixedWindowLimiter.Allow_written f c c1 t getNow setNow k d hA with
    ⟨_, ⟨_, hc⟩ | ⟨_, hc⟩⟩ | ⟨item, cnt, ws, hitem, hval, _, _, _, ⟨_, hc⟩ | ⟨_, hc⟩⟩
  · rw [hc]
    exact ⟨hmono, rfl⟩
  · rw [hc]
    exact ⟨hput _ t (le_refl _), rfl⟩
  · rw [hc]
    exact ⟨hmono, rfl⟩
  · rw [hc]
    obtain ⟨cnt', ws', hval', hws', _⟩ := h k item hitem
    rw [hval] at hval'
    simp only [Any.fixed.injEq, FixedWindowData.mk.injEq] at hval'
    exact ⟨hput _ ws (by omega), rfl⟩

theorem SlidingWindowLimiter.Allow_ExpInvLog (s : SlidingWindowLimiter) (c c1 : Cache)
    (tl t getNow setNow : Int) (k : String) (d : Decision)
    (h : SlidingWindowLimiter.ExpInvLog c tl) (ht : tl ≤ t) (hset : t ≤ setNow)
    (hA : s.Allow c t getNow setNow k = some (d, c1)) :
    SlidingWindowLimiter.ExpInvLog c1 t ∧ c1.cleanupInterval = c.cleanupInterval := by
  have hmono : SlidingWindowLimiter.ExpInvLog c t := by
    intro k' item hitem
    obtain ⟨ts, hval, hts⟩ := h k' item hitem
    exact ⟨ts, hval, fun x hx => ⟨by have := (hts x hx).1; omega, (hts x hx).2⟩⟩
  obtain ⟨ts0, hread, hcase⟩ :=
    SlidingWindowLimiter.Allow_written_log s c c1 t getNow setNow k d hA
  have hle : ∀ x ∈ ts0, x ≤ t := by
    rcases SlidingWindowLimiter.readLog_cases c getNow k ts0 hread with
      h0 | ⟨item, hitem, hval, _⟩
    · rw [h0]
      simp
    · obtain ⟨ts, hts, hx⟩ := hmono k item hitem
      rw [hval] at hts
      simp only [Any.sliding.injEq, SlidingWindowData.mk.injEq] at hts
      rw [hts]
      exact fun x hmem => (hx x hmem).1
  rcases hcase with ⟨_, _, _, _, hc⟩ | ⟨_, _, _, hc⟩
  · rw [hc]
    exact ⟨hmono, rfl⟩
  · rw [hc]
    refine ⟨?_, rfl⟩
    intro k' item hitem
    simp only [Cache.Set, mapGet_mapSet] at hitem
    by_cases hk : k = k'
    · rw [if_pos hk] at hitem
      cases hitem
      refine ⟨_, rfl, ?_⟩
      intro x hx
      have hxt : x ≤ t := by
        rcases List.mem_append.mp hx with hx1 | hx1
        · exact hle x (List.mem_filter.mp hx1).1
        · rw [List.mem_singleton] at hx1
          omega
      exact ⟨hxt, by show x + c.cleanupInterval ≤ setNow + c.cleanupInterval; omega⟩
    · rw [if_neg hk] at hitem
      exact hmono k' item hitem

theorem FixedWindowLimiter.runNoExpiry_eq_run (f : FixedWindowLimiter) (ttl : Int)
    (calls : List Call) (c : Cache) (tl : Int) (httl : c.cleanupInterval = ttl)
    (h : FixedWindowLimiter.ExpInv c tl)
    (hsorted : (tl :: calls.map Call.now).Pairwise (fun a b => a ≤ b))
    (htimely : ∀ call ∈ calls, call.now ≤ call.setNow ∧
      call.getNow - call.now ≤ ttl - f.window) :
    f.runNoExpiry c calls = f.run c calls := by
  induction calls generalizing c tl with
  | nil => rfl
  | cons call rest ih =>
    rw [List.map_cons, List.pairwise_cons] at hsorted
    have ht : tl ≤ call.now := hsorted.1 call.now (List.mem_cons_self _ _)
    obtain ⟨hset, hlag⟩ := htimely call (List.mem_cons_self _ _)
    simp only [FixedWindowLimiter.runNoExpiry, FixedWindowLimiter.run]
    rw [FixedWindowLimiter.AllowNoExpiry_eq_Allow f c tl call.now call.getNow call.setNow
      call.key h (by rw [httl]; exact hlag)]
    cases hA : f.Allow c call.now call.getNow call.setNow call.key with
    | none => rfl
    | some r =>
      obtain ⟨d, c1⟩ := r
      obtain ⟨h1, httl1⟩ := FixedWindowLimiter.Allow_ExpInv f c c1 tl call.now call.getNow
        call.setNow call.key d h ht hset hA
      simp only
      rw [ih c1 call.now (by rw [httl1]; exact httl) h1 hsorted.2
        (fun u hu => htimely u (List.mem_cons_of_mem _ hu))]

theorem SlidingWindowLimiter.runNoExpiry_eq_run_log (s : SlidingWindowLimiter) (ttl : Int)
    (calls : List Call) (c : Cache) (tl : Int) (httl : c.cleanupInterval = ttl)
    (h : SlidingWindowLimiter.ExpInvLog c tl)
    (hsorted : (tl :: calls.map Call.now).Pairwise (fun a b => a ≤ b))
    (htimely : ∀ call ∈ calls, call.now ≤ call.setNow ∧
      call.getNow - call.now ≤ ttl - s.window) :
    s.runNoExpiry c calls = s.run c calls := by
  induction calls generalizing c tl with
  | nil => rfl
  | cons call rest ih =>
    rw [List.map_cons, List.pairwise_cons] at hsorted
    have ht : tl ≤ call.now := hsorted.1 call.now (List.mem_cons_self _ _)
    obtain ⟨hset, hlag⟩ := htimely call (List.mem_cons_self _ _)
    simp only [SlidingWindowLimiter.runNoExpiry, SlidingWindowLimiter.run]
    rw [SlidingWindowLimiter.AllowNoExpiry_eq_Allow_log s c tl call.now call.getNow call.setNow
      call.key h (by rw [httl]; exact hlag)]
    cases hA : s.Allow c call.now call.getNow call.setNow call.key with
    | none => rfl
    | some r =>
      obtain ⟨d, c1⟩ := r
      obtain ⟨h1, httl1⟩ := SlidingWindowLimiter.Allow_ExpInvLog s c c1 tl call.now call.getNow
        call.setNow call.key d h ht hset hA
      simp only
      rw [ih c1 call.now (by rw [httl1]; exact httl) h1 hsorted.2
        (fun u hu => htimely u (List.mem_cons_of_mem _ hu))]

theorem sorted_with_head (calls : List Call)
    (hsorted : (calls.map Call.now).Pairwise (fun a b => a ≤ b)) :
    ∃ tl, (tl :: calls.map Call.now).Pairwise (fun a b => a ≤ b) := by
  cases calls with
  | nil => exact ⟨0, by simp⟩
  | cons call rest =>
    refine ⟨call.now, ?_⟩
    rw [List.pairwise_cons]
    refine ⟨?_, hsorted⟩
    intro x hx
    rw [List.map_cons, List.mem_cons] at hx
    rcases hx with h | h
    · rw [h]
    · exact (List.pairwise_cons.mp hsorted).1 x h
/-! ## Claims -/

/-- C1 fails as stated: with limit 1 and window and TTL both 1000, the first call
for "k" reads the clock at 0 and writes at 1, so the entry expires after 1001;
the second call reads the clock at 999, inside the window, but its `Cache.Get`
reads it at 1002 and finds the entry expired. The second call is permitted with
`resetAt = 1999`, where the claim has it denied with `resetAt = 1000`. The six
readings 0, 0, 1, 999, 1002, 1003 are non-decreasing in program order. -/
theorem FixedWindowLimiter.limit_broken_by_late_read :
    Call.Ordered [⟨"k", 0, 0, 1⟩, ⟨"k", 999, 1002, 1003⟩] ∧
      Cache.Get (NewCache 1000) 0 "k" = none ∧ (999 : Int) - 0 < 1000 ∧
      ((⟨1, 1000⟩ : FixedWindowLimiter).run (NewCache 1000)
          [⟨"k", 0, 0, 1⟩, ⟨"k", 999, 1002, 1003⟩]).map Prod.fst
        = some [⟨true, 0, 1000⟩, ⟨true, 0, 1999⟩] :=
  ⟨by simp [Call.Ordered, Call.readings], by decide, by decide, by decide⟩

/-- C1, as the code has it: with `limit ≥ 1`, `window > 0`, store TTL at least
the window and no live record for `k`, a run of `n` calls `Allow(k)` whose own
readings are non-decreasing, `t1 ≤ ... ≤ tn` with `tn - t1 < window`, and in
which each call's `Cache.Get` reads the clock at most `TTL - window` after the
call's own reading and its `Cache.Set` not before it, returns a decision for
every call: call `i` (counted from 1) is permitted iff `i ≤ limit`, a permitted
call returns `remaining = limit - i`, a denied call returns `remaining = 0`, and
every call returns `resetAt = t1 + window`. -/
theorem FixedWindowLimiter.limit_enforcement (f : FixedWindowLimiter) (c : Cache)
    (k : String) (first : Call) (rest : List Call)
    (hL : 1 ≤ f.limit) (_hW : 0 < f.window) (_hTTL : f.window ≤ c.cleanupInterval)
    (hkey : ∀ call ∈ first :: rest, call.key = k)
    (hfresh : Cache.Get c first.getNow k = none)
    (hmono : List.Pairwise (fun a b => a ≤ b) ((first :: rest).map Call.now))
    (hspan : ∀ call ∈ rest, call.now - first.now < f.window)
    (htimely : ∀ call ∈ first :: rest, call.now ≤ call.setNow ∧
      call.getNow - call.now ≤ c.cleanupInterval - f.window) :
    ∃ c1, f.run c (first :: rest)
      = some ((List.range (rest.length + 1)).map (fun (i : Nat) =>
          if ((i : Int) + 1 ≤ f.limit) then
            (⟨true, f.limit - ((i : Int) + 1), first.now + f.window⟩ : Decision)
          else ⟨false, 0, first.now + f.window⟩), c1) := by
  have hcalls : ∀ call ∈ rest, call.key = k ∧ first.now ≤ call.now ∧
      call.now - first.now < f.window ∧ call.now ≤ call.setNow ∧
      call.getNow - call.now ≤ c.cleanupInterval - f.window := by
    intro call hcall
    have hmem : call ∈ first :: rest := List.mem_cons_of_mem _ hcall
    rw [List.map_cons, List.pairwise_cons] at hmono
    exact ⟨hkey call hmem, hmono.1 call.now (List.mem_map_of_mem _ hcall), hspan call hcall,
      htimely call hmem⟩
  obtain ⟨c1, _, hc1, _⟩ := FixedWindowLimiter.run_window_of_first f c k first rest hL
    (hkey first (List.mem_cons_self _ _)) (htimely first (List.mem_cons_self _ _)).1
    (FixedWindowLimiter.Allow_of_absent f c k first.now first.getNow first.setNow hL hfresh)
    hcalls
  refine ⟨c1, ?_⟩
  rw [hc1]
  simp only [Option.some.injEq, Prod.mk.injEq, and_true]
  apply List.map_congr_left
  intro i _
  simp only [FixedWindowLimiter.inWindow, zero_add]

/-- C1 at the spec's example: limit 3, window 1000 (TTL 600000), four calls
within the window, each reading the clock three times one tick apart, give
permitted, permitted, permitted, denied, with remaining 2, 1, 0, 0 and
`resetAt = 1000` throughout. -/
theorem FixedWindowLimiter.limit_enforcement_witness :
    ∃ c1, (⟨3, 1000⟩ : FixedWindowLimiter).run (NewCache 600000)
        [⟨"k", 0, 1, 2⟩, ⟨"k", 10, 11, 12⟩, ⟨"k", 20, 21, 22⟩, ⟨"k", 996, 997, 998⟩]
      = some ([⟨true, 2, 1000⟩, ⟨true, 1, 1000⟩, ⟨true, 0, 1000⟩, ⟨false, 0, 1000⟩], c1) :=
  FixedWindowLimiter.limit_enforcement ⟨3, 1000⟩ (NewCache 600000) "k" ⟨"k", 0, 1, 2⟩
    [⟨"k", 10, 11, 12⟩, ⟨"k", 20, 21, 22⟩, ⟨"k", 996, 997, 998⟩]
    (by decide) (by decide) (by decide) (by decide) (by decide) (by simp) (by decide)
    (by decide)

/-- C2 fails as stated: with limit 1 and window and TTL both 1000, after the
permitted call for "k" at 0 (written at 1, entry expired after 1001) the call
whose own reading is 999 and whose `Cache.Get` reads the clock at 1002 is
permitted, although one earlier permitted call for "k" lies in `(999 - 1000, 999]`
and 1 is not below the limit. -/
theorem SlidingWindowLimiter.exactness_broken_by_late_read :
    Call.Ordered [⟨"k", 0, 0, 1⟩, ⟨"k", 999, 1002, 1003⟩] ∧
      ((⟨1, 1000⟩ : SlidingWindowLimiter).run (NewCache 1000)
          [⟨"k", 0, 0, 1⟩, ⟨"k", 999, 1002, 1003⟩]).map Prod.fst
        = some [⟨true, 0, 1000⟩, ⟨true, 0, 1999⟩] ∧
      permittedCount [((⟨"k", 0, 0, 1⟩ : Call), (⟨true, 0, 1000⟩ : Decision))]
        "k" (999 - 1000) 999 = 1 :=
  ⟨by simp [Call.Ordered, Call.readings], by decide, by decide⟩

/-- C2, as the code has it: with `limit ≥ 1`, `window > 0` and store TTL at
least the window, every sequence of `SlidingWindowLimiter.Allow` calls from a
new store whose own readings are non-decreasing, and in which each call's
`Cache.Get` reads the clock at most `TTL - window` after the call's own reading
and its `Cache.Set` not before it, returns a decision for every call, and the
call for `k` at `t` that follows the calls `pre` is permitted iff the number `c`
of permitted calls for `k` in `pre` with reading in `(t - window, t]` is below
`limit`; when permitted it returns `remaining = limit - c - 1`. -/
theorem SlidingWindowLimiter.exactness (s : SlidingWindowLimiter) (ttl : Int)
    (calls : List Call) (hL : 1 ≤ s.limit) (_hW : 0 < s.window)
    (_hTTL : s.window ≤ ttl)
    (hsorted : (calls.map Call.now).Pairwise (fun a b => a ≤ b))
    (htimely : ∀ call ∈ calls, call.now ≤ call.setNow ∧
      call.getNow - call.now ≤ ttl - s.window) :
    ∃ ds c1, s.run (NewCache ttl) calls = some (ds, c1) ∧
      ∀ pre call post, calls = pre ++ call :: post →
        ∃ dpre d dpost, ds = dpre ++ d :: dpost ∧ dpre.length = pre.length ∧
          (d.allowed = true ↔
            (permittedCount (pre.zip dpre) call.key (call.now - s.window) call.now : Int)
              < s.limit) ∧
          (d.allowed = true → d.remaining
            = s.limit
              - (permittedCount (pre.zip dpre) call.key (call.now - s.window) call.now : Int)
              - 1) := by
  obtain ⟨ds, c1, hrun, _, hpre⟩ :=
    SlidingWindowLimiter.run_from_new s ttl calls hL hsorted htimely
  refine ⟨ds, c1, hrun, ?_⟩
  intro pre call post h
  obtain ⟨dpre, d, dpost, h1, h2, h3⟩ := hpre pre call post h
  exact ⟨dpre, d, dpost, h1, h2, h3.1, h3.2.1⟩

/-- C2 at the spec's example: limit 2, window 1 s (TTL 10 min), calls at 0,
0.5 s, 0.9 s and 1.1 s, each reading the clock three times one tick apart, give
permitted, permitted, denied, permitted. -/
theorem SlidingWindowLimiter.exactness_witness :
    ((⟨2, Second⟩ : SlidingWindowLimiter).run (NewCache (Minute * 10))
        [⟨"k", 0, 1, 2⟩, ⟨"k", 500000000, 500000001, 500000002⟩,
          ⟨"k", 900000000, 900000001, 900000002⟩,
          ⟨"k", 1100000000, 1100000001, 1100000002⟩]).map
          (fun r => r.1.map (fun d => d.allowed))
      = some [true, true, false, true] ∧
    ∃ ds c1, (⟨2, Second⟩ : SlidingWindowLimiter).run (NewCache (Minute * 10))
        [⟨"k", 0, 1, 2⟩, ⟨"k", 500000000, 500000001, 500000002⟩,
          ⟨"k", 900000000, 900000001, 900000002⟩,
          ⟨"k", 1100000000, 1100000001, 1100000002⟩] = some (ds, c1) ∧
      ∀ pre call post,
        [(⟨"k", 0, 1, 2⟩ : Call), ⟨"k", 500000000, 500000001, 500000002⟩,
          ⟨"k", 900000000, 900000001, 900000002⟩,
          ⟨"k", 1100000000, 1100000001, 1100000002⟩]
          = pre ++ call :: post →
        ∃ dpre d dpost, ds = dpre ++ d :: dpost ∧ dpre.length = pre.length ∧
          (d.allowed = true ↔
            (permittedCount (pre.zip dpre) call.key (call.now - Second) call.now : Int) < 2) ∧
          (d.allowed = true → d.remaining
            = 2 - (permittedCount (pre.zip dpre) call.key (call.now - Second) call.now : Int)
              - 1) :=
  ⟨by decide, SlidingWindowLimiter.exactness ⟨2, Second⟩ (Minute * 10)
    [⟨"k", 0, 1, 2⟩, ⟨"k", 500000000, 500000001, 500000002⟩,
      ⟨"k", 900000000, 900000001, 900000002⟩,
      ⟨"k", 1100000000, 1100000001, 1100000002⟩]
    (by decide) (by decide) (by decide) (by simp) (by decide)⟩

/-- C3 fails as stated: with limit 1 and window and TTL both 1000, the calls for
"k" at 0 and at 999, the second with its `Cache.Get` reading the clock at 1002
after the entry expired, are both permitted, so the interval `(999 - 1000, 999]`
holds 2 permitted calls although the limit is 1. -/
theorem SlidingWindowLimiter.quota_broken_by_late_read :
    Call.Ordered [⟨"k", 0, 0, 1⟩, ⟨"k", 999, 1002, 1003⟩] ∧
      ((⟨1, 1000⟩ : SlidingWindowLimiter).run (NewCache 1000)
          [⟨"k", 0, 0, 1⟩, ⟨"k", 999, 1002, 1003⟩]).map Prod.fst
        = some [⟨true, 0, 1000⟩, ⟨true, 0, 1999⟩] ∧
      permittedCount
        ([(⟨"k", 0, 0, 1⟩ : Call), ⟨"k", 999, 1002, 1003⟩].zip
          [(⟨true, 0, 1000⟩ : Decision), ⟨true, 0, 1999⟩])
        "k" (999 - 1000) 999 = 2 :=
  ⟨by simp [Call.Ordered, Call.readings], by decide, by decide⟩

/-- C3, as the code has it: with `limit ≥ 1`, `window > 0` and store TTL at
least the window, for every sequence of `SlidingWindowLimiter.Allow` calls from
a new store whose own readings are non-decreasing, and in which each call's
`Cache.Get` reads the clock at most `TTL - window` after the call's own reading
and its `Cache.Set` not before it, every key `k` and every instant `t`, at most
`limit` permitted calls for `k` have their reading in `(t - window, t]`. -/
theorem SlidingWindowLimiter.no_boundary_burst (s : SlidingWindowLimiter) (ttl : Int)
    (calls : List Call) (hL : 1 ≤ s.limit) (_hW : 0 < s.window)
    (_hTTL : s.window ≤ ttl)
    (hsorted : (calls.map Call.now).Pairwise (fun a b => a ≤ b))
    (htimely : ∀ call ∈ calls, call.now ≤ call.setNow ∧
      call.getNow - call.now ≤ ttl - s.window) :
    ∃ ds c1, s.run (NewCache ttl) calls = some (ds, c1) ∧
      ∀ (k : String) (t : Int),
        (permittedCount (calls.zip ds) k (t - s.window) t : Int) ≤ s.limit := by
  obtain ⟨ds, c1, hrun, hb, _⟩ :=
    SlidingWindowLimiter.run_from_new s ttl calls hL hsorted htimely
  refine ⟨ds, c1, hrun, ?_⟩
  intro k t
  exact hb k t

/-- C3 at limit 2, window 10 and TTL 12: of the calls at 0, 5, 9, 10, 11 for one
key, each with `Cache.Get` one tick and `Cache.Set` two ticks after its own
reading, no window `(t - 10, t]` holds more than 2 permitted ones. -/
theorem SlidingWindowLimiter.no_boundary_burst_witness :
    ∃ ds c1, (⟨2, 10⟩ : SlidingWindowLimiter).run (NewCache 12)
        [⟨"k", 0, 1, 2⟩, ⟨"k", 5, 6, 7⟩, ⟨"k", 9, 10, 10⟩, ⟨"k", 10, 11, 11⟩,
          ⟨"k", 11, 12, 13⟩] = some (ds, c1) ∧
      ∀ (k : String) (t : Int),
        (permittedCount
          ([(⟨"k", 0, 1, 2⟩ : Call), ⟨"k", 5, 6, 7⟩, ⟨"k", 9, 10, 10⟩, ⟨"k", 10, 11, 11⟩,
            ⟨"k", 11, 12, 13⟩].zip ds)
          k (t - 10) t : Int) ≤ 2 :=
  SlidingWindowLimiter.no_boundary_burst ⟨2, 10⟩ 12
    [⟨"k", 0, 1, 2⟩, ⟨"k", 5, 6, 7⟩, ⟨"k", 9, 10, 10⟩, ⟨"k", 10, 11, 11⟩, ⟨"k", 11, 12, 13⟩]
    (by decide) (by decide) (by decide) (by simp) (by decide)

/-- C4, the code at a failing input: with `REQUESTS_LIMIT=1` and
`WINDOW_SECONDS=3600`, `main` builds the sliding-window limiter with a one-hour
window over the store whose TTL is ten minutes; two calls for the same key at 0
and at 601 s are both permitted, so the trailing hour ending at 601 s holds two
permitted calls although the limit is 1. -/
theorem main_sliding_quota_broken_beyond_ttl :
    mainRateLimiter ⟨"8080", "sliding", 1, 3600⟩
        = RateLimiter.sliding ⟨1, 3600 * Second⟩ ∧
      Call.Ordered [⟨"k", 0, 1, 2⟩, ⟨"k", 601 * Second, 601 * Second + 1, 601 * Second + 2⟩] ∧
      ((⟨1, 3600 * Second⟩ : SlidingWindowLimiter).run mainCache
          [⟨"k", 0, 1, 2⟩,
            ⟨"k", 601 * Second, 601 * Second + 1, 601 * Second + 2⟩]).map Prod.fst
        = some [⟨true, 0, 3600 * Second⟩, ⟨true, 0, 601 * Second + 3600 * Second⟩] ∧
      permittedCount
          ([(⟨"k", 0, 1, 2⟩ : Call),
              ⟨"k", 601 * Second, 601 * Second + 1, 601 * Second + 2⟩].zip
            [(⟨true, 0, 3600 * Second⟩ : Decision),
              ⟨true, 0, 601 * Second + 3600 * Second⟩])
          "k" (601 * Second - 3600 * Second) (601 * Second) = 2 :=
  ⟨by decide, by simp [Call.Ordered, Call.readings, Second], by decide, by decide⟩

/-- C5: when key `k` holds a record `{count, windowStart}` (any count) and
`now - windowStart ≥ window`, `FixedWindowLimiter.Allow(k)` reading the clock at
`now` is permitted, whatever the readings inside `Cache.Get` and `Cache.Set`,
returns `remaining = limit - 1` and `resetAt = now + window`, and leaves
`{Count: 1, WindowStart: now}` stored for `k` (expiring one TTL after the
reading inside `Cache.Set`). -/
theorem FixedWindowLimiter.Allow_reset (f : FixedWindowLimiter) (c : Cache) (k : String)
    (now getNow setNow count windowStart expiration : Int)
    (hL : 1 ≤ f.limit)
    (hrec : mapGet c.items k = some ⟨Any.fixed ⟨count, windowStart⟩, expiration⟩)
    (helapsed : now - windowStart ≥ f.window) :
    f.Allow c now getNow setNow k
        = some (⟨true, f.limit - 1, now + f.window⟩,
            Cache.Set c setNow k (Any.fixed ⟨1, now⟩)) ∧
      mapGet (Cache.Set c setNow k (Any.fixed ⟨1, now⟩)).items k
        = some ⟨Any.fixed ⟨1, now⟩, setNow + c.cleanupInterval⟩ := by
  have hnot : ¬ (0 : Int) ≥ f.limit := by omega
  constructor
  · unfold FixedWindowLimiter.Allow Cache.Get
    rw [hrec]
    by_cases hexp : getNow > expiration
    · simp [hexp, FixedWindowLimiter.settle, hnot]
    · simp [hexp, helapsed, FixedWindowLimiter.settle, hnot]
  · simp [Cache.Set, mapGet_mapSet]

/-- C5 at the spec's example: limit 3, window 1000; after three permitted calls
and a denial in the window starting at 0, a call at 1000 is permitted with
`remaining = 2` and `resetAt = 2000`. -/
theorem FixedWindowLimiter.Allow_reset_witness :
    (⟨3, 1000⟩ : FixedWindowLimiter).Allow
        ⟨[("k", ⟨Any.fixed ⟨3, 0⟩, 600022⟩)], 600000, 3⟩ 1000 1001 1002 "k"
        = some (⟨true, 3 - 1, 1000 + 1000⟩,
            Cache.Set ⟨[("k", ⟨Any.fixed ⟨3, 0⟩, 600022⟩)], 600000, 3⟩ 1002 "k"
              (Any.fixed ⟨1, 1000⟩)) :=
  (FixedWindowLimiter.Allow_reset ⟨3, 1000⟩ ⟨[("k", ⟨Any.fixed ⟨3, 0⟩, 600022⟩)], 600000, 3⟩
    "k" 1000 1001 1002 3 0 600022 (by decide) (by decide) (by decide)).1

/-- C6: in a store reached from a new one by `SlidingWindowLimiter.Allow` calls
at non-decreasing readings, whenever `Allow(k)` at `t` is denied, `k` has a
stored log and the returned `resetAt` is `m + window`, where `m` is the least
stored timestamp of `k` that is `> t - window`; and after any further calls
among which no call for `k` is permitted, `Allow(k)` at the reading `resetAt`
is permitted, whatever the readings inside `Cache.Get` and `Cache.Set`. -/
theorem SlidingWindowLimiter.resetAt_on_denial (s : SlidingWindowLimiter) (ttl : Int)
    (calls : List Call) (ds : List Decision) (c c1 : Cache) (k : String)
    (t getNow setNow : Int) (d : Decision) (hL : 1 ≤ s.limit) (_hW : 0 < s.window)
    (hsorted : (calls.map Call.now ++ [t]).Pairwise (fun a b => a ≤ b))
    (hrun : s.run (NewCache ttl) calls = some (ds, c))
    (hallow : s.Allow c t getNow setNow k = some (d, c1)) (hden : d.allowed = false) :
    ∃ ts e, mapGet c.items k = some ⟨Any.sliding ⟨ts⟩, e⟩ ∧
      (∃ m, m ∈ ts ∧ m > t - s.window ∧ (∀ x ∈ ts, x > t - s.window → m ≤ x) ∧
        d.resetTime = m + s.window) ∧
      ∀ between dsb c2 getNow2 setNow2, s.run c1 between = some (dsb, c2) →
        (∀ e ∈ between.zip dsb, e.1.key = k → e.2.allowed = false) →
        ∃ d2 c3, s.Allow c2 d.resetTime getNow2 setNow2 k = some (d2, c3) ∧
          d2.allowed = true := by
  have hinv : s.LogInv c t :=
    SlidingWindowLimiter.LogInv_of_run s hL ttl calls ds c t hsorted hrun
  obtain ⟨ts, hread, hasc, _, hlen, hentry⟩ :=
    SlidingWindowLimiter.readLog_of_LogInv s c t getNow k hL hinv
  rcases SlidingWindowLimiter.Allow_of_readLog s c t getNow setNow k ts hL hread with
    ⟨_, o, r, hP, hA⟩ | ⟨_, rt, hA⟩
  · rw [hA] at hallow
    simp only [Option.some.injEq, Prod.mk.injEq] at hallow
    obtain ⟨hd, hc⟩ := hallow
    subst hd hc
    have hne : ts ≠ [] := by
      intro h
      rw [h] at hP
      simp at hP
    obtain ⟨e, he⟩ := hentry hne
    have hPasc : (o :: r).Pairwise (fun a b => a ≤ b) := by
      rw [← hP]
      exact hasc.filter _
    have homem : o ∈ ts.filter (fun x => decide (x > t + (-s.window))) := by
      rw [hP]
      exact List.mem_cons_self _ _
    refine ⟨ts, e, he, ⟨o, (List.mem_filter.mp homem).1, ?_, ?_, rfl⟩, ?_⟩
    · have := (List.mem_filter.mp homem).2
      simp only [decide_eq_true_eq] at this
      omega
    · intro x hx hgt
      have hxP : x ∈ ts.filter (fun x => decide (x > t + (-s.window))) := by
        refine List.mem_filter.mpr ⟨hx, ?_⟩
        simp only [decide_eq_true_eq]
        omega
      rw [hP, List.mem_cons] at hxP
      rcases hxP with h | h
      · rw [h]
      · exact (List.pairwise_cons.mp hPasc).1 x h
    · intro between dsb c2 getNow2 setNow2 hrun2 hquiet
      have hsame := SlidingWindowLimiter.run_frame s k between c c2 dsb hrun2 hquiet
      rw [he] at hsame
      exact SlidingWindowLimiter.permitted_at_reset s c2 k ts r e t o getNow2 setNow2 hL
        hsame hlen hP
  · rw [hA] at hallow
    simp only [Option.some.injEq, Prod.mk.injEq] at hallow
    rw [← hallow.1] at hden
    cases hden

/-- C6 at limit 2, window 1000: after permitted calls at 0 and 500, the call at
900 is denied with `resetAt = 0 + 1000`, and after any calls among which none
for `k` is permitted, the call at 1000 is permitted. -/
theorem SlidingWindowLimiter.resetAt_on_denial_witness :
    ∃ ts e, mapGet
        (⟨[("k", ⟨Any.sliding ⟨[0, 500]⟩, 600502⟩)], 600000, 2⟩ : Cache).items "k"
          = some ⟨Any.sliding ⟨ts⟩, e⟩ ∧
      (∃ m, m ∈ ts ∧ m > 900 - 1000 ∧ (∀ x ∈ ts, x > 900 - 1000 → m ≤ x) ∧
        (1000 : Int) = m + 1000) ∧
      ∀ between dsb c2 getNow2 setNow2,
        (⟨2, 1000⟩ : SlidingWindowLimiter).run
          ⟨[("k", ⟨Any.sliding ⟨[0, 500]⟩, 600502⟩)], 600000, 2⟩ between = some (dsb, c2) →
        (∀ e ∈ between.zip dsb, e.1.key = "k" → e.2.allowed = false) →
        ∃ d2 c3, (⟨2, 1000⟩ : SlidingWindowLimiter).Allow c2 1000 getNow2 setNow2 "k"
            = some (d2, c3) ∧
          d2.allowed = true :=
  SlidingWindowLimiter.resetAt_on_denial ⟨2, 1000⟩ 600000
    [⟨"k", 0, 1, 2⟩, ⟨"k", 500, 501, 502⟩]
    [⟨true, 1, 1000⟩, ⟨true, 0, 1000⟩]
    ⟨[("k", ⟨Any.sliding ⟨[0, 500]⟩, 600502⟩)], 600000, 2⟩
    ⟨[("k", ⟨Any.sliding ⟨[0, 500]⟩, 600502⟩)], 600000, 2⟩ "k" 900 901 902 ⟨false, 0, 1000⟩
    (by decide) (by decide) (by simp) (by decide) (by decide) (by decide)

/-- C7, as the code has it: `Cache.Get` at clock reading `now` returns the stored
value with `found = true` exactly when the key has an entry and `now` is not
after the entry's expiration (`now ≤ expiresAt`); the instant `now = expiresAt`
is still a hit. -/
theorem Cache.Get_found_iff_not_after (c : Cache) (now : Int) (key : String) (v : Any) :
    Cache.Get c now key = some v ↔
      ∃ item, mapGet c.items key = some item ∧ now ≤ item.Expiration ∧ item.Value = v := by
  unfold Cache.Get
  cases hm : mapGet c.items key with
  | none => simp
  | some item =>
    by_cases hexp : now > item.Expiration
    · simp only [hexp, if_true, Option.some.injEq, exists_eq_left']
      constructor
      · intro hv
        cases hv
      · intro hv
        omega
    · simp only [hexp, if_false, Option.some.injEq, exists_eq_left']
      constructor
      · intro hv
        exact ⟨by omega, hv⟩
      · intro hv
        exact hv.2

/-- C7 fails as stated: an entry written at reading 0 with TTL 5 expires at 5,
and `Cache.Get` at reading 5 (so `now = expiresAt`, not `now < expiresAt`) still
returns the value with `found = true`. -/
theorem Cache.Get_at_expiration_found :
    mapGet (Cache.Set (NewCache 5) 0 "k" (Any.fixed ⟨1, 0⟩)).items "k"
        = some ⟨Any.fixed ⟨1, 0⟩, 5⟩ ∧
      ¬ ((5 : Int) < 5) ∧
      Cache.Get (Cache.Set (NewCache 5) 0 "k" (Any.fixed ⟨1, 0⟩)) 5 "k"
        = some (Any.fixed ⟨1, 0⟩) := by
  decide

/-- C8: on a store whose map holds one pair per key, after `Cache.Set(k, v)` at
reading `t` (expiration `t + TTL`) and any later store operations that do not
write, delete or clear `k` and that read the clock no later than `t'` (sweeps
included), `Cache.Get(k)` at `t'` returns `(v, true)` whenever `t ≤ t' < t + TTL`
and `found = false` whenever `t' > t + TTL`. -/
theorem Cache.Set_Get_round_trip (c : Cache) (k : String) (v : Any) (t t' : Int)
    (ops : List StoreOp) (hWF : Cache.WF c)
    (hops : ∀ op ∈ ops, StoreOp.writes k op = false ∧ StoreOp.notAfter t' op = true) :
    (t ≤ t' → t' < t + c.cleanupInterval →
      Cache.Get (StoreOp.applyAll (Cache.Set c t k v) ops) t' k = some v) ∧
    (t' > t + c.cleanupInterval →
      Cache.Get (StoreOp.applyAll (Cache.Set c t k v) ops) t' k = none) := by
  have hget := StoreOp.Get_applyAll ops (Cache.Set c t k v) t' k (Cache.WF_Set c t k v hWF) hops
  rw [hget, Cache.Get_Set_same]
  constructor
  · intro _ hlt
    have : ¬ t' > t + c.cleanupInterval := by omega
    simp [this]
  · intro hgt
    simp [hgt]

/-- C8 at a concrete store: a value written at 0 with TTL 10 is read back at 7
after a sweep at 3, a write and a delete of another key and a sweep at 7. -/
theorem Cache.Set_Get_round_trip_witness :
    Cache.Get (StoreOp.applyAll (Cache.Set (NewCache 10) 0 "k" (Any.fixed ⟨1, 0⟩))
        [StoreOp.sweep 3, StoreOp.set 4 "j" (Any.fixed ⟨2, 4⟩), StoreOp.delete "j",
          StoreOp.sweep 7]) 7 "k" = some (Any.fixed ⟨1, 0⟩) :=
  (Cache.Set_Get_round_trip (NewCache 10) "k" (Any.fixed ⟨1, 0⟩) 0 7
    [StoreOp.sweep 3, StoreOp.set 4 "j" (Any.fixed ⟨2, 4⟩), StoreOp.delete "j", StoreOp.sweep 7]
    (Cache.WF_NewCache 10) (by decide)).1 (by decide) (by decide)

/-- C9: for `limit ≥ 1` and `window > 0`, in every store reached from a new one
through the limiter, `Allow` returns a decision whose `remaining` is
non-negative, is 0 when the call is denied, and when the call is permitted is at
most `limit - 1` and equals `limit` minus the count (fixed window) or the log
length (sliding window) that the call has just stored for the key. -/
theorem decision_shape (L W : Int) (hL : 1 ≤ L) (_hW : 0 < W) :
    (∀ (ttl : Int) (calls : List Call) (ds : List Decision) (c : Cache)
        (k : String) (now getNow setNow : Int),
        (⟨L, W⟩ : FixedWindowLimiter).run (NewCache ttl) calls = some (ds, c) →
        ∃ d c1, (⟨L, W⟩ : FixedWindowLimiter).Allow c now getNow setNow k = some (d, c1) ∧
          0 ≤ d.remaining ∧ (d.allowed = false → d.remaining = 0) ∧
          (d.allowed = true → d.remaining ≤ L - 1 ∧
            ∃ cnt ws e, mapGet c1.items k = some ⟨Any.fixed ⟨cnt, ws⟩, e⟩ ∧
              d.remaining = L - cnt)) ∧
    (∀ (ttl : Int) (calls : List Call) (ds : List Decision) (c : Cache)
        (k : String) (now getNow setNow : Int),
        (⟨L, W⟩ : SlidingWindowLimiter).run (NewCache ttl) calls = some (ds, c) →
        ∃ d c1, (⟨L, W⟩ : SlidingWindowLimiter).Allow c now getNow setNow k = some (d, c1) ∧
          0 ≤ d.remaining ∧ (d.allowed = false → d.remaining = 0) ∧
          (d.allowed = true → d.remaining ≤ L - 1 ∧
            ∃ ts e, mapGet c1.items k = some ⟨Any.sliding ⟨ts⟩, e⟩ ∧
              d.remaining = L - (ts.length : Int))) := by
  constructor
  · intro ttl calls ds c k now getNow setNow hrun
    have hinv := FixedWindowLimiter.run_CountInv ⟨L, W⟩ calls (NewCache ttl) c ds
      (FixedWindowLimiter.CountInv_NewCache ⟨L, W⟩ ttl) hrun
    obtain ⟨d, c1, hA, _, h0, hden, hper⟩ :=
      FixedWindowLimiter.Allow_shape ⟨L, W⟩ c now getNow setNow k hinv
    exact ⟨d, c1, hA, h0, hden, hper⟩
  · intro ttl calls ds c k now getNow setNow hrun
    have hinv := SlidingWindowLimiter.run_AllSliding ⟨L, W⟩ hL calls (NewCache ttl) c ds
      (SlidingWindowLimiter.AllSliding_NewCache ttl) hrun
    obtain ⟨d, c1, hA, _, h0, hden, hper⟩ :=
      SlidingWindowLimiter.Allow_log_shape ⟨L, W⟩ c now getNow setNow k hL hinv
    exact ⟨d, c1, hA, h0, hden, hper⟩

/-- C9 at limit 3, window 1000: after three permitted calls the fourth, denied,
call of the fixed-window limiter returns `remaining = 0`, and the second call of
the sliding-window limiter stores a log of length 2 and returns `3 - 2`. -/
theorem decision_shape_witness :
    (∃ d c1, (⟨3, 1000⟩ : FixedWindowLimiter).Allow
        ⟨[("k", ⟨Any.fixed ⟨3, 0⟩, 600022⟩)], 600000, 3⟩ 997 998 999 "k" = some (d, c1) ∧
      0 ≤ d.remaining ∧ (d.allowed = false → d.remaining = 0) ∧
      (d.allowed = true → d.remaining ≤ 3 - 1 ∧
        ∃ cnt ws e, mapGet c1.items "k" = some ⟨Any.fixed ⟨cnt, ws⟩, e⟩ ∧
          d.remaining = 3 - cnt)) ∧
    (∃ d c1, (⟨3, 1000⟩ : SlidingWindowLimiter).Allow
        ⟨[("k", ⟨Any.sliding ⟨[0]⟩, 600002⟩)], 600000, 1⟩ 10 11 12 "k" = some (d, c1) ∧
      0 ≤ d.remaining ∧ (d.allowed = false → d.remaining = 0) ∧
      (d.allowed = true → d.remaining ≤ 3 - 1 ∧
        ∃ ts e, mapGet c1.items "k" = some ⟨Any.sliding ⟨ts⟩, e⟩ ∧
          d.remaining = 3 - (ts.length : Int))) :=
  ⟨(decision_shape 3 1000 (by decide) (by decide)).1 600000
      [⟨"k", 0, 1, 2⟩, ⟨"k", 10, 11, 12⟩, ⟨"k", 20, 21, 22⟩]
      [⟨true, 2, 1000⟩, ⟨true, 1, 1000⟩, ⟨true, 0, 1000⟩]
      ⟨[("k", ⟨Any.fixed ⟨3, 0⟩, 600022⟩)], 600000, 3⟩ "k" 997 998 999 (by decide),
    (decision_shape 3 1000 (by decide) (by decide)).2 600000
      [⟨"k", 0, 1, 2⟩] [⟨true, 2, 1000⟩]
      ⟨[("k", ⟨Any.sliding ⟨[0]⟩, 600002⟩)], 600000, 1⟩ "k" 10 11 12 (by decide)⟩

/-- C10 fails as stated. With a window of one nanosecond and any limit `L ≥ 2`,
whatever the TTL (at least the window), the key and the clock readings
(non-decreasing in program order), no run of `FixedWindowLimiter.Allow` from a
new store has `2 * L` permitted calls less than one window apart: such calls
share their reading, a window holds `L` of them and a late reading inside
`Cache.Get` lets through one more, so there are at most `L + 1`. And with
`limit = 1`, whatever the window `W > 0`, the TTL (at least `W`) and the key, no
run in which every call's `Cache.Get` reads the clock at most `TTL - W` after the
call's own reading, and its `Cache.Set` not before it, has `2 * limit = 2`
permitted calls less than `W` apart. -/
theorem FixedWindowLimiter.no_double_burst :
    (¬ ∃ (L ttl : Int) (k : String) (calls : List Call),
        2 ≤ L ∧ 1 ≤ ttl ∧ Call.Ordered calls ∧
        (⟨L, 1⟩ : FixedWindowLimiter).Burst ttl k calls (2 * L)) ∧
    (¬ ∃ (W ttl : Int) (k : String) (calls : List Call),
        0 < W ∧ W ≤ ttl ∧
        (∀ call ∈ calls, call.now ≤ call.setNow ∧ call.getNow - call.now ≤ ttl - W) ∧
        (⟨1, W⟩ : FixedWindowLimiter).Burst ttl k calls (2 * 1)) := by
  constructor
  · rintro ⟨L, ttl, k, calls, hL, httl, hord, ds, c1, sub, hkey, hrun, hsub, hlen, hallow,
      hclose⟩
    cases sub with
    | nil =>
      simp only [List.length_nil, Nat.cast_zero] at hlen
      omega
    | cons p0 sub' =>
      have hnow : ∀ q ∈ p0 :: sub', q.1.now = p0.1.now := by
        intro q hq
        have h1 := hclose p0 (List.mem_cons_self _ _) q hq
        have h2 := hclose q hq p0 (List.mem_cons_self _ _)
        change q.1.now - p0.1.now < 1 at h1
        change p0.1.now - q.1.now < 1 at h2
        omega
      have hb : ∃ b, ∀ call ∈ calls, b ≤ call.now := by
        cases calls with
        | nil => exact ⟨0, by simp⟩
        | cons call0 rest =>
          obtain ⟨h1, h2, h3, _⟩ := Call.Ordered_cons call0 rest hord
          refine ⟨call0.now, ?_⟩
          intro call hcall
          rw [List.mem_cons] at hcall
          rcases hcall with h | h
          · rw [h]
          · have := h3 call h
            omega
      obtain ⟨b, hb⟩ := hb
      obtain ⟨ds', c1', hrun', hle⟩ := FixedWindowLimiter.budget_run ⟨L, 1⟩ k rfl
        (by show (1 : Int) ≤ L; omega) ttl p0.1.now httl calls (NewCache ttl) b rfl
        (by
          intro item hitem
          simp [NewCache, mapGet] at hitem)
        hord hb hkey
      rw [hrun] at hrun'
      simp only [Option.some.injEq, Prod.mk.injEq] at hrun'
      rw [← hrun'.1] at hle
      have hfil : (p0 :: sub').filter
          (fun p => p.2.allowed && decide (p.1.now = p0.1.now)) = p0 :: sub' := by
        rw [List.filter_eq_self]
        intro q hq
        simp [hallow q hq, hnow q hq]
      have hlen2 := (hsub.filter
        (fun p => p.2.allowed && decide (p.1.now = p0.1.now))).length_le
      rw [hfil] at hlen2
      have hbud : FixedWindowLimiter.budget ⟨L, 1⟩ (NewCache ttl) k b p0.1.now ≤ L + 1 := by
        simp only [FixedWindowLimiter.budget, NewCache, mapGet]
        split_ifs <;> omega
      unfold permittedAt at hle
      omega
  · rintro ⟨W, ttl, k, calls, hW, _, htimely, ds, c1, sub, hkey, hrun, hsub, hlen, hallow,
      hclose⟩
    obtain ⟨ds', c1', hrun', hpair⟩ := FixedWindowLimiter.spaced_from_new W ttl k hW calls
      (fun call hcall => ⟨hkey call hcall, htimely call hcall⟩)
    rw [hrun] at hrun'
    simp only [Option.some.injEq, Prod.mk.injEq] at hrun'
    obtain ⟨hds, _⟩ := hrun'
    subst hds
    have hpair' := hpair.sublist hsub
    match sub, hlen, hallow, hclose, hpair' with
    | [p, q], _, hallow, hclose, hpair' =>
      have h1 := (List.pairwise_cons.mp hpair').1 q (by simp) (hallow p (by simp))
        (hallow q (by simp))
      have h2 := hclose p (by simp) q (by simp)
      change q.1.now - p.1.now < W at h2
      omega
    | [], hlen, _, _, _ => simp at hlen
    | [_], hlen, _, _, _ => simp at hlen
    | _ :: _ :: _ :: r, hlen, _, _, _ =>
      simp only [List.length_cons] at hlen
      push_cast at hlen
      omega

/-- C10, as the code has it: for every `limit ≥ 1`, window of at least 2
nanoseconds and store TTL at least the window, there is a run of
`FixedWindowLimiter.Allow` on one key, at non-decreasing readings from a new
store, in which `2 * limit - 1` calls are all permitted although any two of them
are less than `window` apart (`limit - 1` just before the window resets and
`limit` just after). -/
theorem FixedWindowLimiter.boundary_burst (f : FixedWindowLimiter) (ttl : Int) (k : String)
    (hL : 1 ≤ f.limit) (hW : 2 ≤ f.window) (hTTL : f.window ≤ ttl) :
    ∃ calls : List Call, Call.Ordered calls ∧ f.Burst ttl k calls (2 * f.limit - 1) := by
  have hn : ((f.limit.toNat : Nat) : Int) = f.limit := Int.toNat_of_nonneg (by omega)
  generalize f.limit.toNat = n at hn
  have hn1 : 1 ≤ n := by omega
  obtain ⟨c2, hrun⟩ := FixedWindowLimiter.boundary_run f ttl k n hn hn1 hW hTTL
  refine ⟨((0 :: List.replicate (n - 1) (f.window - 1))
    ++ (f.window :: List.replicate (n - 1) f.window)).map (Call.instant k), ?_, _, c2,
    List.tail (List.zip _ _), ?_, hrun, List.tail_sublist _, ?_, ?_, ?_⟩
  · apply Call.Ordered_instant
    simp only [List.cons_append, List.pairwise_cons, List.pairwise_append, List.mem_append,
      List.mem_cons, List.mem_replicate, List.pairwise_replicate]
    refine ⟨?_, ⟨?_, ⟨?_, ?_⟩, ?_⟩⟩
    · rintro a (⟨_, rfl⟩ | rfl | ⟨_, rfl⟩) <;> omega
    · exact Or.inr (le_refl _)
    · rintro a ⟨_, rfl⟩
      exact le_refl _
    · exact Or.inr (le_refl _)
    · rintro a ⟨_, rfl⟩ b (rfl | ⟨_, rfl⟩) <;> omega
  · intro call hcall
    obtain ⟨t, _, rfl⟩ := List.mem_map.mp hcall
    rfl
  · simp only [List.length_tail, List.length_zip, List.length_append, List.length_cons,
      List.length_replicate, List.length_map, List.length_range]
    omega
  · intro p hp
    have hp2 := (List.of_mem_zip (List.mem_of_mem_tail hp)).2
    rcases List.mem_append.mp hp2 with h | h
    · exact FixedWindowLimiter.inWindow_allowed f 0 n hn _ h
    · exact FixedWindowLimiter.inWindow_allowed f f.window n hn _ h
  · have hmem : ∀ p ∈ List.tail (List.zip
        (((0 :: List.replicate (n - 1) (f.window - 1))
          ++ (f.window :: List.replicate (n - 1) f.window)).map (Call.instant k))
        ((List.range n).map (f.inWindow 0 0) ++ (List.range n).map (f.inWindow f.window 0))),
        p.1.now = f.window - 1 ∨ p.1.now = f.window := by
      intro p hp
      rw [zip_tail_eq] at hp
      have hp1 := (List.of_mem_zip hp).1
      simp only [List.cons_append, List.map_cons, List.tail_cons, List.map_append,
        List.mem_append, List.mem_cons, List.mem_map, List.mem_replicate] at hp1
      rcases hp1 with ⟨t, ⟨_, rfl⟩, h⟩ | h | ⟨t, ⟨_, rfl⟩, h⟩
      · exact Or.inl (by rw [← h]; rfl)
      · exact Or.inr (by rw [h]; rfl)
      · exact Or.inr (by rw [← h]; rfl)
    intro p hp q hq
    rcases hmem p hp with h1 | h1 <;> rcases hmem q hq with h2 | h2 <;> omega

/-- C10 amended, at limit 2 and window 10 (TTL 10): the readings 0, 9, 10, 10
are all permitted and the last three lie within one nanosecond. -/
theorem FixedWindowLimiter.boundary_burst_witness :
    ∃ calls : List Call, Call.Ordered calls ∧
      (⟨2, 10⟩ : FixedWindowLimiter).Burst 10 "k" calls (2 * 2 - 1) :=
  FixedWindowLimiter.boundary_burst ⟨2, 10⟩ 10 "k" (by decide) (by decide) (by decide)

/-- C11: for both limiters, every store, key `k` and clock readings, an
`Allow(k)` call that returns leaves the entry of every key other than `k`
unchanged; a denied call leaves the whole store unchanged (every entry, `k`'s
un-pruned log included, and `totalRequests`); a permitted call replaces only
`k`'s entry (written with expiration one TTL after the reading inside
`Cache.Set`) and increases `totalRequests` by exactly 1. -/
theorem Allow_frame_both (c : Cache) (now getNow setNow : Int) (k : String) :
    (∀ (f : FixedWindowLimiter) (d : Decision) (c1 : Cache),
        f.Allow c now getNow setNow k = some (d, c1) →
        (∀ k', k' ≠ k → mapGet c1.items k' = mapGet c.items k') ∧
        (d.allowed = false → c1 = c) ∧
        (d.allowed = true → c1.totalRequests = c.totalRequests + 1 ∧
          ∃ v, mapGet c1.items k = some ⟨v, setNow + c.cleanupInterval⟩)) ∧
    (∀ (s : SlidingWindowLimiter) (d : Decision) (c1 : Cache),
        s.Allow c now getNow setNow k = some (d, c1) →
        (∀ k', k' ≠ k → mapGet c1.items k' = mapGet c.items k') ∧
        (d.allowed = false → c1 = c) ∧
        (d.allowed = true → c1.totalRequests = c.totalRequests + 1 ∧
          ∃ v, mapGet c1.items k = some ⟨v, setNow + c.cleanupInterval⟩)) := by
  constructor
  · intro f d c1 hA
    have h := Cache.frame_of_outcome c c1 setNow k d
      (FixedWindowLimiter.Allow_outcome f c c1 now getNow setNow k d hA)
    exact ⟨h.2.1, h.2.2.1, h.2.2.2⟩
  · intro s d c1 hA
    have h := Cache.frame_of_outcome c c1 setNow k d
      (SlidingWindowLimiter.Allow_result s c c1 now getNow setNow k d hA)
    exact ⟨h.2.1, h.2.2.1, h.2.2.2⟩

/-- C11 at a store holding a full fixed-window record for `k` and a record for
`j`: the denied call for `k` at 997 returns the store unchanged. -/
theorem Allow_frame_both_witness :
    (∀ k', k' ≠ "k" →
        mapGet (⟨[("k", ⟨Any.fixed ⟨3, 0⟩, 600020⟩), ("j", ⟨Any.fixed ⟨1, 5⟩, 600005⟩)],
          600000, 4⟩ : Cache).items k'
        = mapGet (⟨[("k", ⟨Any.fixed ⟨3, 0⟩, 600020⟩), ("j", ⟨Any.fixed ⟨1, 5⟩, 600005⟩)],
          600000, 4⟩ : Cache).items k') ∧
      ((⟨false, 0, 1000⟩ : Decision).allowed = false →
        (⟨[("k", ⟨Any.fixed ⟨3, 0⟩, 600020⟩), ("j", ⟨Any.fixed ⟨1, 5⟩, 600005⟩)],
          600000, 4⟩ : Cache)
        = ⟨[("k", ⟨Any.fixed ⟨3, 0⟩, 600020⟩), ("j", ⟨Any.fixed ⟨1, 5⟩, 600005⟩)],
          600000, 4⟩) ∧
      ((⟨false, 0, 1000⟩ : Decision).allowed = true →
        (⟨[("k", ⟨Any.fixed ⟨3, 0⟩, 600020⟩), ("j", ⟨Any.fixed ⟨1, 5⟩, 600005⟩)],
          600000, 4⟩ : Cache).totalRequests = 4 + 1 ∧
        ∃ v, mapGet (⟨[("k", ⟨Any.fixed ⟨3, 0⟩, 600020⟩),
            ("j", ⟨Any.fixed ⟨1, 5⟩, 600005⟩)], 600000, 4⟩ : Cache).items "k"
          = some ⟨v, 999 + 600000⟩) :=
  (Allow_frame_both
    ⟨[("k", ⟨Any.fixed ⟨3, 0⟩, 600020⟩), ("j", ⟨Any.fixed ⟨1, 5⟩, 600005⟩)], 600000, 4⟩
    997 998 999 "k").1 ⟨3, 1000⟩ ⟨false, 0, 1000⟩
    ⟨[("k", ⟨Any.fixed ⟨3, 0⟩, 600020⟩), ("j", ⟨Any.fixed ⟨1, 5⟩, 600005⟩)], 600000, 4⟩
    (by decide)

/-- C12: `Cache.Set` increases `totalRequests` by exactly 1; `Delete`, `Clear`,
the sweep `cleanup` and the reads `Get` and `GetStats` leave it unchanged; and
along every finite sequence of store operations and `Allow` calls of either
limiter the counter never decreases. -/
theorem totalRequests_monotone :
    (∀ (c : Cache) (now : Int) (k : String) (v : Any),
        (Cache.Set c now k v).totalRequests = c.totalRequests + 1) ∧
    (∀ (c : Cache) (k : String), (Cache.Delete c k).totalRequests = c.totalRequests) ∧
    (∀ (c : Cache), (Cache.Clear c).totalRequests = c.totalRequests) ∧
    (∀ (c : Cache) (now : Int), (Cache.cleanup c now).totalRequests = c.totalRequests) ∧
    (∀ (c : Cache), (Cache.GetStats c).TotalRequests = c.totalRequests) ∧
    (∀ (c : Cache) (op : StoreOp),
        (StoreOp.apply c op).totalRequests
          = c.totalRequests + (match op with | StoreOp.set _ _ _ => 1 | _ => 0)) ∧
    (∀ (c : Cache) (ops1 ops2 : List SysOp),
        (SysOp.applyAll c ops1).totalRequests
          ≤ (SysOp.applyAll c (ops1 ++ ops2)).totalRequests) := by
  refine ⟨fun _ _ _ _ => rfl, fun _ _ => rfl, fun _ => rfl, fun _ _ => rfl, fun _ => rfl,
    StoreOp.totalRequests_apply, ?_⟩
  intro c ops1 ops2
  have h : SysOp.applyAll c (ops1 ++ ops2) = SysOp.applyAll (SysOp.applyAll c ops1) ops2 := by
    simp [SysOp.applyAll, List.foldl_append]
  rw [h]
  exact SysOp.totalRequests_applyAll_le ops2 (SysOp.applyAll c ops1)

/-- C14: for `limit ≥ 1` and `window > 0`, along `SlidingWindowLimiter.Allow`
calls at non-decreasing readings from a new store, the next call returns, and
if it is a permitted `Allow(k)` at `now`, whatever the readings inside
`Cache.Get` and `Cache.Set`, the log then stored for `k` is in
ascending order, ends with `now`, has every element in `(now - window, now]` and
has between 1 and `limit` elements; its element 0 is its oldest timestamp, as is
the element 0 of every stored log. -/
theorem SlidingWindowLimiter.record_invariant (s : SlidingWindowLimiter) (ttl : Int)
    (calls : List Call) (ds : List Decision) (c : Cache) (k : String)
    (now getNow setNow : Int) (hL : 1 ≤ s.limit) (hW : 0 < s.window)
    (hsorted : (calls.map Call.now ++ [now]).Pairwise (fun a b => a ≤ b))
    (hrun : s.run (NewCache ttl) calls = some (ds, c)) :
    (∃ d c1, s.Allow c now getNow setNow k = some (d, c1) ∧
      (d.allowed = true →
        ∃ ts e, mapGet c1.items k = some ⟨Any.sliding ⟨ts⟩, e⟩ ∧
          ts.Pairwise (fun a b => a ≤ b) ∧ ts.getLast? = some now ∧
          (∀ x ∈ ts, now - s.window < x ∧ x ≤ now) ∧
          1 ≤ ts.length ∧ (ts.length : Int) ≤ s.limit ∧
          ∃ o, ts.head? = some o ∧ ∀ x ∈ ts, o ≤ x)) ∧
    (∀ (k' : String) (ts : List Int) (e o : Int),
        mapGet c.items k' = some ⟨Any.sliding ⟨ts⟩, e⟩ → ts.head? = some o →
        ∀ x ∈ ts, o ≤ x) := by
  have hinv := SlidingWindowLimiter.LogInv_of_run s hL ttl calls ds c now hsorted hrun
  constructor
  · have hsl : SlidingWindowLimiter.AllSliding c := by
      intro k' item hitem
      obtain ⟨ts, hval, _⟩ := hinv k' item hitem
      exact ⟨ts, hval⟩
    obtain ⟨d, c1, hA, _⟩ :=
      SlidingWindowLimiter.Allow_log_shape s c now getNow setNow k hL hsl
    refine ⟨d, c1, hA, ?_⟩
    intro hd
    obtain ⟨ts0, hread, hasc, hle, _, _⟩ :=
      SlidingWindowLimiter.readLog_of_LogInv s c now getNow k hL hinv
    obtain ⟨ts1, hread1, hcase⟩ :=
      SlidingWindowLimiter.Allow_written_log s c c1 now getNow setNow k d hA
    rw [hread] at hread1
    simp only [Option.some.injEq] at hread1
    subst hread1
    rcases hcase with ⟨_, _, _, hden, _⟩ | ⟨hlt, _, _, hc⟩
    · rw [hden] at hd
      cases hd
    · obtain ⟨h1, h2, h3, h4, h5⟩ :=
        SlidingWindowLimiter.written_log_props s ts0 now hW hasc hle hlt
      refine ⟨ts0.filter (fun x => decide (x > now + (-s.window))) ++ [now],
        setNow + c.cleanupInterval, ?_, h1, h2, h3, h4, h5, ?_⟩
      · rw [hc]
        simp [Cache.Set, mapGet_mapSet]
      · cases hP : ts0.filter (fun x => decide (x > now + (-s.window))) with
        | nil =>
          refine ⟨now, rfl, ?_⟩
          intro x hx
          simp only [List.nil_append, List.mem_singleton] at hx
          omega
        | cons o r =>
          rw [hP] at h1
          exact ⟨o, rfl, head_le_of_pairwise _ o h1 rfl⟩
  · intro k' ts e o hitem ho
    obtain ⟨ts', hval, hasc, _, _⟩ := hinv k' _ hitem
    simp only [Any.sliding.injEq, SlidingWindowData.mk.injEq] at hval
    subst hval
    exact head_le_of_pairwise ts o hasc ho

/-- C14 at limit 3, window 1000: after permitted calls at 0 and 500, the
permitted call at 1200 stores the log `[500, 1200]`. -/
theorem SlidingWindowLimiter.record_invariant_witness :
    (⟨3, 1000⟩ : SlidingWindowLimiter).Allow
        ⟨[("k", ⟨Any.sliding ⟨[0, 500]⟩, 600502⟩)], 600000, 2⟩ 1200 1201 1202 "k"
      = some (⟨true, 1, 1500⟩,
          ⟨[("k", ⟨Any.sliding ⟨[500, 1200]⟩, 601202⟩)], 600000, 3⟩) ∧
    ∃ d c1, (⟨3, 1000⟩ : SlidingWindowLimiter).Allow
        ⟨[("k", ⟨Any.sliding ⟨[0, 500]⟩, 600502⟩)], 600000, 2⟩ 1200 1201 1202 "k"
          = some (d, c1) ∧
      (d.allowed = true →
        ∃ ts e, mapGet c1.items "k" = some ⟨Any.sliding ⟨ts⟩, e⟩ ∧
          ts.Pairwise (fun a b => a ≤ b) ∧ ts.getLast? = some 1200 ∧
          (∀ x ∈ ts, 1200 - 1000 < x ∧ x ≤ 1200) ∧
          1 ≤ ts.length ∧ (ts.length : Int) ≤ 3 ∧
          ∃ o, ts.head? = some o ∧ ∀ x ∈ ts, o ≤ x) :=
  ⟨by decide, (SlidingWindowLimiter.record_invariant ⟨3, 1000⟩ 600000
    [⟨"k", 0, 1, 2⟩, ⟨"k", 500, 501, 502⟩] [⟨true, 2, 1000⟩, ⟨true, 1, 1000⟩]
    ⟨[("k", ⟨Any.sliding ⟨[0, 500]⟩, 600502⟩)], 600000, 2⟩ "k" 1200 1201 1202
    (by decide) (by decide) (by simp) (by decide)).1⟩

/-- C15: for `limit ≥ 1` and `window > 0`, every sequence of
`FixedWindowLimiter.Allow` calls from a new store returns, and every record then
stored satisfies `1 ≤ Count ≤ limit`; and along calls at non-decreasing readings
a key that holds a record keeps holding one whose `WindowStart` is never smaller
than before. -/
theorem FixedWindowLimiter.record_invariant_fixed (f : FixedWindowLimiter) (ttl : Int)
    (_hL : 1 ≤ f.limit) (_hW : 0 < f.window) :
    (∀ (calls : List Call),
        ∃ ds c, f.run (NewCache ttl) calls = some (ds, c) ∧
          ∀ (k : String) (item : CacheItem), mapGet c.items k = some item →
            ∃ cnt ws, item.Value = Any.fixed ⟨cnt, ws⟩ ∧ 1 ≤ cnt ∧ cnt ≤ f.limit) ∧
    (∀ (pre post : List Call),
        ((pre ++ post).map Call.now).Pairwise (fun a b => a ≤ b) →
        ∃ ds1 cmid ds2 c1, f.run (NewCache ttl) pre = some (ds1, cmid) ∧
          f.run cmid post = some (ds2, c1) ∧
          ∀ (k : String) (cnt ws e : Int),
            mapGet cmid.items k = some ⟨Any.fixed ⟨cnt, ws⟩, e⟩ →
            ∃ cnt1 ws1 e1, mapGet c1.items k = some ⟨Any.fixed ⟨cnt1, ws1⟩, e1⟩ ∧
              ws ≤ ws1) := by
  constructor
  · intro calls
    exact FixedWindowLimiter.run_from_new_CountInv f ttl calls
  · intro pre post hsorted
    obtain ⟨ds1, cmid, hrun1, hinv1⟩ := FixedWindowLimiter.run_from_new_CountInv f ttl pre
    obtain ⟨ds2, c1, hrun2, _, _⟩ := FixedWindowLimiter.run_total f post cmid
      (FixedWindowLimiter.CountInv_AllFixed f cmid hinv1)
    refine ⟨ds1, cmid, ds2, c1, hrun1, hrun2, ?_⟩
    rw [List.map_append, List.pairwise_append] at hsorted
    obtain ⟨_, hpost, hcross⟩ := hsorted
    cases post with
    | nil =>
      simp only [FixedWindowLimiter.run, Option.some.injEq, Prod.mk.injEq] at hrun2
      rw [← hrun2.2]
      intro k cnt ws e hentry
      exact ⟨cnt, ws, e, hentry, le_refl _⟩
    | cons call rest =>
      have hmid : FixedWindowLimiter.StartsLE cmid call.now :=
        FixedWindowLimiter.run_StartsLE f pre (NewCache ttl) cmid ds1 call.now
          (FixedWindowLimiter.StartsLE_NewCache ttl call.now)
          (fun p hp => hcross p.now (List.mem_map_of_mem Call.now hp) call.now (by simp)) hrun1
      refine FixedWindowLimiter.run_WindowStart_mono f (call :: rest) cmid c1 ds2 call.now hmid
        ?_ hrun2
      rw [List.pairwise_cons]
      refine ⟨?_, hpost⟩
      intro x hx
      rw [List.map_cons, List.mem_cons] at hx
      rcases hx with h | h
      · rw [h]
      · exact (List.pairwise_cons.mp hpost).1 x h

/-- C15 at limit 2, window 1000: after calls at 0 and 10 the record `{2, 0}` is
stored, and two further calls at 500 and 1500 leave a record for the same key
whose `WindowStart` is at least 0. -/
theorem FixedWindowLimiter.record_invariant_fixed_witness :
    (∃ ds c, (⟨2, 1000⟩ : FixedWindowLimiter).run (NewCache 600000)
        [⟨"k", 0, 1, 2⟩, ⟨"k", 10, 11, 12⟩] = some (ds, c) ∧
      ∀ (k : String) (item : CacheItem), mapGet c.items k = some item →
        ∃ cnt ws, item.Value = Any.fixed ⟨cnt, ws⟩ ∧ 1 ≤ cnt ∧ cnt ≤ 2) ∧
    (∃ ds1 cmid ds2 c1,
      (⟨2, 1000⟩ : FixedWindowLimiter).run (NewCache 600000)
        [⟨"k", 0, 1, 2⟩, ⟨"k", 10, 11, 12⟩] = some (ds1, cmid) ∧
      (⟨2, 1000⟩ : FixedWindowLimiter).run cmid
        [⟨"k", 500, 501, 502⟩, ⟨"k", 1500, 1501, 1502⟩] = some (ds2, c1) ∧
      ∀ (k : String) (cnt ws e : Int),
        mapGet cmid.items k = some ⟨Any.fixed ⟨cnt, ws⟩, e⟩ →
        ∃ cnt1 ws1 e1, mapGet c1.items k = some ⟨Any.fixed ⟨cnt1, ws1⟩, e1⟩ ∧ ws ≤ ws1) :=
  ⟨(FixedWindowLimiter.record_invariant_fixed ⟨2, 1000⟩ 600000 (by decide) (by decide)).1
      [⟨"k", 0, 1, 2⟩, ⟨"k", 10, 11, 12⟩],
    (FixedWindowLimiter.record_invariant_fixed ⟨2, 1000⟩ 600000 (by decide) (by decide)).2
      [⟨"k", 0, 1, 2⟩, ⟨"k", 10, 11, 12⟩] [⟨"k", 500, 501, 502⟩, ⟨"k", 1500, 1501, 1502⟩]
      (by simp)⟩

/-- C16: on a store whose map holds one pair per key, `Cache.cleanup` at `t`
removes exactly the entries whose expiration is strictly before `t` and leaves
every other entry and `totalRequests` unchanged; so `Cache.Get` at any reading
`t' ≥ t` returns the same result whether or not the sweep ran at `t`, and so do
all decisions of either limiter along any later calls, those whose `Cache.Get`
reads the clock at `t` or later. -/
theorem Cache.cleanup_invisible (c : Cache) (t : Int) (hWF : Cache.WF c) :
    (∀ (k : String), mapGet (Cache.cleanup c t).items k
        = match mapGet c.items k with
          | some item => if item.Expiration < t then none else some item
          | none => none) ∧
    (Cache.cleanup c t).totalRequests = c.totalRequests ∧
    (∀ (k : String) (t' : Int), t ≤ t' →
        Cache.Get (Cache.cleanup c t) t' k = Cache.Get c t' k) ∧
    (∀ (f : FixedWindowLimiter) (calls : List Call),
        (∀ call ∈ calls, t ≤ call.getNow) →
        (f.run (Cache.cleanup c t) calls).map Prod.fst = (f.run c calls).map Prod.fst) ∧
    (∀ (s : SlidingWindowLimiter) (calls : List Call),
        (∀ call ∈ calls, t ≤ call.getNow) →
        (s.run (Cache.cleanup c t) calls).map Prod.fst = (s.run c calls).map Prod.fst) := by
  refine ⟨?_, rfl, fun k t' ht' => Cache.Get_cleanup c t t' k hWF ht', ?_, ?_⟩
  · intro k
    unfold Cache.cleanup
    simp only
    rw [mapGet_filter c.items k (fun it => !decide (t > it.Expiration)) hWF]
    cases mapGet c.items k with
    | none => rfl
    | some item =>
      by_cases hexp : item.Expiration < t
      · have : t > item.Expiration := hexp
        simp [Option.filter, hexp, this]
      · have : ¬ t > item.Expiration := hexp
        simp [Option.filter, hexp, this]
  · intro f calls hsorted
    exact FixedWindowLimiter.run_SameReads f calls (Cache.cleanup c t) c t
      (Cache.SameReads_of_cleanup c t hWF) hsorted
  · intro s calls hsorted
    exact SlidingWindowLimiter.run_SameReads_log s calls (Cache.cleanup c t) c t
      (Cache.SameReads_of_cleanup c t hWF) hsorted

/-- C16 at a store with an entry expired at 5 and an entry live until 8: the
sweep at 6 removes the first only, and `Get` at 7 answers alike with or without
the sweep. -/
theorem Cache.cleanup_invisible_witness :
    mapGet (Cache.cleanup
        ⟨[("a", ⟨Any.fixed ⟨1, 0⟩, 5⟩), ("b", ⟨Any.fixed ⟨1, 3⟩, 8⟩)], 5, 2⟩ 6).items "a" = none ∧
      Cache.Get (Cache.cleanup
        ⟨[("a", ⟨Any.fixed ⟨1, 0⟩, 5⟩), ("b", ⟨Any.fixed ⟨1, 3⟩, 8⟩)], 5, 2⟩ 6) 7 "b"
        = Cache.Get ⟨[("a", ⟨Any.fixed ⟨1, 0⟩, 5⟩), ("b", ⟨Any.fixed ⟨1, 3⟩, 8⟩)], 5, 2⟩ 7 "b" :=
  ⟨((Cache.cleanup_invisible
      ⟨[("a", ⟨Any.fixed ⟨1, 0⟩, 5⟩), ("b", ⟨Any.fixed ⟨1, 3⟩, 8⟩)], 5, 2⟩ 6
      (by simp [Cache.WF])).1 "a").trans (by decide),
    (Cache.cleanup_invisible
      ⟨[("a", ⟨Any.fixed ⟨1, 0⟩, 5⟩), ("b", ⟨Any.fixed ⟨1, 3⟩, 8⟩)], 5, 2⟩ 6
      (by simp [Cache.WF])).2.2.1 "b" 7 (by decide)⟩

/-- C17: for every limit `L ≥ 1` and every window, on a store that only one
limiter variant has written, `Allow` always returns a decision: every sequence
of calls from a new store returns one decision per call, a call on any store
holding only records of the limiter's own shape returns and leaves such a store,
and a pruned log of length at least `L` is non-empty, so its element 0
exists. -/
theorem Allow_never_panics (L W : Int) (hL : 1 ≤ L) :
    (∀ (ttl : Int) (calls : List Call),
        ∃ ds c1, (⟨L, W⟩ : FixedWindowLimiter).run (NewCache ttl) calls = some (ds, c1) ∧
          ds.length = calls.length) ∧
    (∀ (ttl : Int) (calls : List Call),
        ∃ ds c1, (⟨L, W⟩ : SlidingWindowLimiter).run (NewCache ttl) calls = some (ds, c1) ∧
          ds.length = calls.length) ∧
    (∀ (c : Cache) (now getNow setNow : Int) (k : String), FixedWindowLimiter.AllFixed c →
        ∃ d c1, (⟨L, W⟩ : FixedWindowLimiter).Allow c now getNow setNow k = some (d, c1) ∧
          FixedWindowLimiter.AllFixed c1) ∧
    (∀ (c : Cache) (now getNow setNow : Int) (k : String),
        SlidingWindowLimiter.AllSliding c →
        ∃ d c1, (⟨L, W⟩ : SlidingWindowLimiter).Allow c now getNow setNow k = some (d, c1) ∧
          SlidingWindowLimiter.AllSliding c1) ∧
    (∀ (ts : List Int), (ts.length : Int) ≥ L → ts ≠ []) := by
  refine ⟨?_, ?_, ?_, ?_, ?_⟩
  · intro ttl calls
    obtain ⟨ds, c1, hrun, hlen, _⟩ := FixedWindowLimiter.run_total ⟨L, W⟩ calls (NewCache ttl)
      (FixedWindowLimiter.AllFixed_NewCache ttl)
    exact ⟨ds, c1, hrun, hlen⟩
  · intro ttl calls
    obtain ⟨ds, c1, hrun, hlen, _⟩ := SlidingWindowLimiter.run_total_log ⟨L, W⟩ hL calls
      (NewCache ttl) (SlidingWindowLimiter.AllSliding_NewCache ttl)
    exact ⟨ds, c1, hrun, hlen⟩
  · intro c now getNow setNow k h
    exact FixedWindowLimiter.Allow_total ⟨L, W⟩ c now getNow setNow k h
  · intro c now getNow setNow k h
    obtain ⟨d, c1, hA, h1, _⟩ :=
      SlidingWindowLimiter.Allow_log_shape ⟨L, W⟩ c now getNow setNow k hL h
    exact ⟨d, c1, hA, h1⟩
  · intro ts hlen hnil
    rw [hnil] at hlen
    simp only [List.length_nil, Nat.cast_zero] at hlen
    omega

/-- C17 at limit 2, window 1000: four calls of either limiter from a new store,
at readings in any order, return four decisions. -/
theorem Allow_never_panics_witness :
    (∃ ds c1, (⟨2, 1000⟩ : FixedWindowLimiter).run (NewCache 600000)
        [⟨"k", 5, 6, 7⟩, ⟨"j", 0, 1, 2⟩, ⟨"k", 2000, 2001, 2002⟩, ⟨"k", 7, 8, 9⟩]
          = some (ds, c1) ∧
      ds.length = [(⟨"k", 5, 6, 7⟩ : Call), ⟨"j", 0, 1, 2⟩, ⟨"k", 2000, 2001, 2002⟩,
        ⟨"k", 7, 8, 9⟩].length) ∧
    (∃ ds c1, (⟨2, 1000⟩ : SlidingWindowLimiter).run (NewCache 600000)
        [⟨"k", 5, 6, 7⟩, ⟨"j", 0, 1, 2⟩, ⟨"k", 2000, 2001, 2002⟩, ⟨"k", 7, 8, 9⟩]
          = some (ds, c1) ∧
      ds.length = [(⟨"k", 5, 6, 7⟩ : Call), ⟨"j", 0, 1, 2⟩, ⟨"k", 2000, 2001, 2002⟩,
        ⟨"k", 7, 8, 9⟩].length) :=
  ⟨(Allow_never_panics 2 1000 (by decide)).1 600000
      [⟨"k", 5, 6, 7⟩, ⟨"j", 0, 1, 2⟩, ⟨"k", 2000, 2001, 2002⟩, ⟨"k", 7, 8, 9⟩],
    (Allow_never_panics 2 1000 (by decide)).2.1 600000
      [⟨"k", 5, 6, 7⟩, ⟨"j", 0, 1, 2⟩, ⟨"k", 2000, 2001, 2002⟩, ⟨"k", 7, 8, 9⟩]⟩

/-- C18, the code at a failing input: with `REQUESTS_LIMIT=0` and
`WINDOW_SECONDS=-5` in the environment, `loadConfig` returns
`RequestsLimit = 0` and `WindowSeconds = -5` (the defaults 100 and 60 are used
only for unset, empty or unparsable values), `main` builds the sliding-window
limiter with that limit and window, and its first `Allow` call panics on element
0 of the empty log. -/
theorem loadConfig_accepts_nonpositive :
    loadConfig (fun key =>
        if key = "REQUESTS_LIMIT" then "0" else if key = "WINDOW_SECONDS" then "-5" else "")
      = ⟨"8080", "sliding", 0, -5⟩ ∧
    loadConfig (fun _ => "") = ⟨"8080", "sliding", 100, 60⟩ ∧
    loadConfig (fun key => if key = "REQUESTS_LIMIT" then "ten" else "")
      = ⟨"8080", "sliding", 100, 60⟩ ∧
    mainRateLimiter ⟨"8080", "sliding", 0, -5⟩ = RateLimiter.sliding ⟨0, -5 * Second⟩ ∧
    (⟨0, -5 * Second⟩ : SlidingWindowLimiter).Allow mainCache 0 1 2 "k" = none := by
  decide

/-- C19 fails as stated: with limit 1 and window and TTL both 1000, the calls for
"k" at 0 (written at 1) and at 999, the second with its `Cache.Get` reading the
clock at 1002 after the entry expired, are both permitted by either limiter,
the second with `resetAt = 1999`; over a store whose entries never expire the
second call is denied with `resetAt = 1000`. -/
theorem expiry_visible_on_late_read :
    Call.Ordered [⟨"k", 0, 0, 1⟩, ⟨"k", 999, 1002, 1003⟩] ∧
      ((⟨1, 1000⟩ : FixedWindowLimiter).run (NewCache 1000)
          [⟨"k", 0, 0, 1⟩, ⟨"k", 999, 1002, 1003⟩]).map Prod.fst
        = some [⟨true, 0, 1000⟩, ⟨true, 0, 1999⟩] ∧
      ((⟨1, 1000⟩ : FixedWindowLimiter).runNoExpiry (NewCache 1000)
          [⟨"k", 0, 0, 1⟩, ⟨"k", 999, 1002, 1003⟩]).map Prod.fst
        = some [⟨true, 0, 1000⟩, ⟨false, 0, 1000⟩] ∧
      ((⟨1, 1000⟩ : SlidingWindowLimiter).run (NewCache 1000)
          [⟨"k", 0, 0, 1⟩, ⟨"k", 999, 1002, 1003⟩]).map Prod.fst
        = some [⟨true, 0, 1000⟩, ⟨true, 0, 1999⟩] ∧
      ((⟨1, 1000⟩ : SlidingWindowLimiter).runNoExpiry (NewCache 1000)
          [⟨"k", 0, 0, 1⟩, ⟨"k", 999, 1002, 1003⟩]).map Prod.fst
        = some [⟨true, 0, 1000⟩, ⟨false, 0, 1000⟩] :=
  ⟨by simp [Call.Ordered, Call.readings], by decide, by decide, by decide, by decide⟩

/-- C19, as the code has it: for both limiters, `limit ≥ 1`, `window > 0` and
store TTL at least the window, every sequence of `Allow` calls (any keys) from a
new store whose own readings are non-decreasing, and in which each call's
`Cache.Get` reads the clock at most `TTL - window` after the call's own reading
and its `Cache.Set` not before it, returns, and its results, and the store it
leaves, are those of the same limiter reading through `Cache.GetNoExpiry`, that
is over a store whose entries never expire. -/
theorem expiry_transparent (L W ttl : Int) (hL : 1 ≤ L) (_hW : 0 < W) (_hTTL : W ≤ ttl) :
    (∀ (calls : List Call),
        (calls.map Call.now).Pairwise (fun a b => a ≤ b) →
        (∀ call ∈ calls, call.now ≤ call.setNow ∧ call.getNow - call.now ≤ ttl - W) →
        ∃ ds c1, (⟨L, W⟩ : FixedWindowLimiter).run (NewCache ttl) calls = some (ds, c1) ∧
          (⟨L, W⟩ : FixedWindowLimiter).runNoExpiry (NewCache ttl) calls = some (ds, c1)) ∧
    (∀ (calls : List Call),
        (calls.map Call.now).Pairwise (fun a b => a ≤ b) →
        (∀ call ∈ calls, call.now ≤ call.setNow ∧ call.getNow - call.now ≤ ttl - W) →
        ∃ ds c1, (⟨L, W⟩ : SlidingWindowLimiter).run (NewCache ttl) calls = some (ds, c1) ∧
          (⟨L, W⟩ : SlidingWindowLimiter).runNoExpiry (NewCache ttl) calls
            = some (ds, c1)) := by
  constructor
  · intro calls hsorted htimely
    obtain ⟨tl, hs⟩ := sorted_with_head calls hsorted
    obtain ⟨ds, c1, hrun, _, _⟩ := FixedWindowLimiter.run_total ⟨L, W⟩ calls (NewCache ttl)
      (FixedWindowLimiter.AllFixed_NewCache ttl)
    have hinv : FixedWindowLimiter.ExpInv (NewCache ttl) tl := by
      intro k item h
      simp [NewCache, mapGet] at h
    refine ⟨ds, c1, hrun, ?_⟩
    rw [FixedWindowLimiter.runNoExpiry_eq_run ⟨L, W⟩ ttl calls (NewCache ttl) tl rfl hinv hs
      htimely]
    exact hrun
  · intro calls hsorted htimely
    obtain ⟨tl, hs⟩ := sorted_with_head calls hsorted
    obtain ⟨ds, c1, hrun, _, _⟩ := SlidingWindowLimiter.run_total_log ⟨L, W⟩ hL calls
      (NewCache ttl) (SlidingWindowLimiter.AllSliding_NewCache ttl)
    have hinv : SlidingWindowLimiter.ExpInvLog (NewCache ttl) tl := by
      intro k item h
      simp [NewCache, mapGet] at h
    refine ⟨ds, c1, hrun, ?_⟩
    rw [SlidingWindowLimiter.runNoExpiry_eq_run_log ⟨L, W⟩ ttl calls (NewCache ttl) tl rfl hinv
      hs htimely]
    exact hrun

/-- C19 at limit 1, window 10 and TTL 12: of the calls at 0, 5 and 14, each with
`Cache.Get` one tick and `Cache.Set` two ticks after its own reading, the last
one reads the store at 15, after the entry written at 2 has expired, and all get
the same decisions with and without expiry. -/
theorem expiry_transparent_witness :
    (∃ ds c1, (⟨1, 10⟩ : FixedWindowLimiter).run (NewCache 12)
        [⟨"k", 0, 1, 2⟩, ⟨"k", 5, 6, 7⟩, ⟨"k", 14, 15, 16⟩] = some (ds, c1) ∧
      (⟨1, 10⟩ : FixedWindowLimiter).runNoExpiry (NewCache 12)
        [⟨"k", 0, 1, 2⟩, ⟨"k", 5, 6, 7⟩, ⟨"k", 14, 15, 16⟩] = some (ds, c1)) ∧
    (∃ ds c1, (⟨1, 10⟩ : SlidingWindowLimiter).run (NewCache 12)
        [⟨"k", 0, 1, 2⟩, ⟨"k", 5, 6, 7⟩, ⟨"k", 14, 15, 16⟩] = some (ds, c1) ∧
      (⟨1, 10⟩ : SlidingWindowLimiter).runNoExpiry (NewCache 12)
        [⟨"k", 0, 1, 2⟩, ⟨"k", 5, 6, 7⟩, ⟨"k", 14, 15, 16⟩] = some (ds, c1)) :=
  ⟨(expiry_transparent 1 10 12 (by decide) (by decide) (by decide)).1
      [⟨"k", 0, 1, 2⟩, ⟨"k", 5, 6, 7⟩, ⟨"k", 14, 15, 16⟩] (by simp) (by decide),
    (expiry_transparent 1 10 12 (by decide) (by decide) (by decide)).2
      [⟨"k", 0, 1, 2⟩, ⟨"k", 5, 6, 7⟩, ⟨"k", 14, 15, 16⟩] (by simp) (by decide)⟩

/-- C20: for both limiters, `limit ≥ 1` and `window > 0`, in every store reached
from a new one through the limiter at clock readings not later than `now`,
`Allow` at `now` returns, for every key and whatever the readings inside
`Cache.Get` and `Cache.Set`, a decision whose `resetAt` satisfies
`now < resetAt ≤ now + window`, whether the call is permitted or denied. -/
theorem resetAt_within_one_window (L W : Int) (hL : 1 ≤ L) (hW : 0 < W) :
    (∀ (ttl : Int) (calls : List Call) (ds : List Decision) (c : Cache)
        (k : String) (now getNow setNow : Int),
        (⟨L, W⟩ : FixedWindowLimiter).run (NewCache ttl) calls = some (ds, c) →
        (∀ call ∈ calls, call.now ≤ now) →
        ∃ d c1, (⟨L, W⟩ : FixedWindowLimiter).Allow c now getNow setNow k = some (d, c1) ∧
          now < d.resetTime ∧ d.resetTime ≤ now + W) ∧
    (∀ (ttl : Int) (calls : List Call) (ds : List Decision) (c : Cache)
        (k : String) (now getNow setNow : Int),
        (⟨L, W⟩ : SlidingWindowLimiter).run (NewCache ttl) calls = some (ds, c) →
        (∀ call ∈ calls, call.now ≤ now) →
        ∃ d c1, (⟨L, W⟩ : SlidingWindowLimiter).Allow c now getNow setNow k = some (d, c1) ∧
          now < d.resetTime ∧ d.resetTime ≤ now + W) := by
  constructor
  · intro ttl calls ds c k now getNow setNow hrun hb
    have hinv := FixedWindowLimiter.run_StartsLE ⟨L, W⟩ calls (NewCache ttl) c ds now
      (FixedWindowLimiter.StartsLE_NewCache ttl now) hb hrun
    have hfix : FixedWindowLimiter.AllFixed c := by
      intro k' item hitem
      obtain ⟨cnt, ws, hval, _⟩ := hinv k' item hitem
      exact ⟨cnt, ws, hval⟩
    obtain ⟨d, c1, hA, _⟩ :=
      FixedWindowLimiter.Allow_total ⟨L, W⟩ c now getNow setNow k hfix
    exact ⟨d, c1, hA,
      FixedWindowLimiter.resetTime_bounds ⟨L, W⟩ c c1 now getNow setNow k d hW hinv hA⟩
  · intro ttl calls ds c k now getNow setNow hrun hb
    have hinv := SlidingWindowLimiter.run_StampsLE ⟨L, W⟩ calls (NewCache ttl) c ds now
      (SlidingWindowLimiter.StampsLE_NewCache ttl now) hb hrun
    have hsl : SlidingWindowLimiter.AllSliding c := by
      intro k' item hitem
      obtain ⟨ts, hval, _⟩ := hinv k' item hitem
      exact ⟨ts, hval⟩
    obtain ⟨d, c1, hA, _⟩ :=
      SlidingWindowLimiter.Allow_log_shape ⟨L, W⟩ c now getNow setNow k hL hsl
    exact ⟨d, c1, hA,
      SlidingWindowLimiter.resetTime_bounds_log ⟨L, W⟩ c c1 now getNow setNow k d hW hinv hA⟩

/-- C20 at limit 2, window 1000: after calls at 0 and 500, a call at 900 gets a
`resetAt` in `(900, 1900]` from either limiter. -/
theorem resetAt_within_one_window_witness :
    (∃ d c1, (⟨2, 1000⟩ : FixedWindowLimiter).Allow
        ⟨[("k", ⟨Any.fixed ⟨2, 0⟩, 600502⟩)], 600000, 2⟩ 900 901 902 "k" = some (d, c1) ∧
      900 < d.resetTime ∧ d.resetTime ≤ 900 + 1000) ∧
    (∃ d c1, (⟨2, 1000⟩ : SlidingWindowLimiter).Allow
        ⟨[("k", ⟨Any.sliding ⟨[0, 500]⟩, 600502⟩)], 600000, 2⟩ 900 901 902 "k"
          = some (d, c1) ∧
      900 < d.resetTime ∧ d.resetTime ≤ 900 + 1000) :=
  ⟨(resetAt_within_one_window 2 1000 (by decide) (by decide)).1 600000
      [⟨"k", 0, 1, 2⟩, ⟨"k", 500, 501, 502⟩] [⟨true, 1, 1000⟩, ⟨true, 0, 1000⟩]
      ⟨[("k", ⟨Any.fixed ⟨2, 0⟩, 600502⟩)], 600000, 2⟩ "k" 900 901 902
      (by decide) (by decide),
    (resetAt_within_one_window 2 1000 (by decide) (by decide)).2 600000
      [⟨"k", 0, 1, 2⟩, ⟨"k", 500, 501, 502⟩] [⟨true, 1, 1000⟩, ⟨true, 0, 1000⟩]
      ⟨[("k", ⟨Any.sliding ⟨[0, 500]⟩, 600502⟩)], 600000, 2⟩ "k" 900 901 902
      (by decide) (by decide)⟩

end LimiterX
